import Mathlib

/-! # Redo log reader (`cdc/redo/reader`)

A shallow embedding of the redo log reader of TiCDC: the k-way heap merge of
`LogReader.ReadNextLog` / `LogReader.ReadNextDDL`, `ResetReader`, `ReadMeta`
and `Close` (`reader.go`), the single-file frame reader `reader.Read` and the
selection of the files by their names (`file.go`), and the black-hole reader
(`blackhole_reader.go`).

Conventions of the embedding.

* Go `uint64` / `int` values that cannot overflow in the code (commit
  timestamps that are only compared, slice lengths, loop counters bounded by a
  length or by `maxNumberOfEvents`) are natural numbers or integers.  Where
  the code relies on the machine representation (`decodeFrameSize`,
  `readInt64`) or adds to a file offset (`lastValidOff`, `fileOff`, both
  `int64`) the reduction modulo `2^64` is explicit.
* Pointers are values: a `*model.RedoLog` is a `RedoLog`; nil pointers are not
  modelled.
* A Go loop is a function that is structurally recursive on a step budget; the
  budget handed over by the caller is an upper bound of the number of
  iterations, so that the budget never runs out before the loop condition
  fails.
-/

set_option autoImplicit false

namespace Redo

/-! ## Errors -/

/-- Go `error` values that occur in the reader.  `EOF` is `io.EOF`,
`ErrUnexpectedEOF` is `io.ErrUnexpectedEOF`, `ctxErr` is `ctx.Err()` of a
cancelled context, `ErrRedoFileOp e` is `cerror.WrapError(cerror.ErrRedoFileOp, e)`,
`indexOutOfRange` is the run-time failure of an out-of-range slice access and
`other n` is any further error, identified by a code.  `msg t` is an error
made of the text `t` (`errors.New`, `errors.Errorf`, the errors of package
`fmt`), `annotated e t` is `errors.Annotate(e, t)`, `ErrS3StorageAPI e` is
`cerror.WrapError(cerror.ErrS3StorageAPI, e)`, `boundary c r` is the error of
`ResetReader` for a window that does not match the boundary `(c, r]`,
`multi a b` is `multierr.Append(a, b)` of two errors, and `makeFailure` is
the run-time failure of `make` for a length that cannot be allocated (the
run-time error `makeslice: len out of range`, or the fatal out-of-memory
error), after which the call does not return. -/
inductive GoError where
  | EOF
  | ErrUnexpectedEOF
  | ctxErr
  | ErrRedoFileOp (cause : GoError)
  | indexOutOfRange
  | other (code : Nat)
  | msg (text : String)
  | annotated (cause : GoError) (text : String)
  | ErrS3StorageAPI (cause : GoError)
  | boundary (checkPointTs resolvedTs : Nat)
  | multi (left right : GoError)
  | makeFailure
  deriving DecidableEq, Repr

/-! ## `model.RedoLog`

The package `cdc/model` is not part of the sources at hand; the reader uses
the fields `Type`, `Row.Row.CommitTs` and `DDL.DDL.CommitTs` only. -/

/-- Modelled from the spec: `model.RowChangedEvent`, "whose essential field is
`commitTs: u64`"; `body` stands for all the other fields of the event. -/
structure RowChangedEvent where
  CommitTs : Nat
  body : Nat
  deriving DecidableEq, Repr

/-- Modelled from the spec: `model.RedoRowChangedEvent`, the row payload slot
of a redo log, "carrying a `RowChangedEvent`". -/
structure RedoRowChangedEvent where
  Row : RowChangedEvent
  deriving DecidableEq, Repr

/-- Modelled from the spec: `model.DDLEvent`, "whose essential field is
`commitTs: u64`"; `body` stands for all the other fields of the event. -/
structure DDLEvent where
  CommitTs : Nat
  body : Nat
  deriving DecidableEq, Repr

/-- Modelled from the spec: `model.RedoDDLEvent`, the DDL payload slot of a
redo log, "carrying a `DDLEvent`". -/
structure RedoDDLEvent where
  DDL : DDLEvent
  deriving DecidableEq, Repr

/-- Modelled from the spec: the tag of a redo log, `model.RedoLogType`.  The
reader names `model.RedoLogTypeDDL` only. -/
inductive RedoLogType where
  | RedoLogTypeUnknown
  | RedoLogTypeRow
  | RedoLogTypeDDL
  deriving DecidableEq, Repr

/-- Modelled from the spec: `model.RedoLog`, the record stored in a redo log
file: the two payload slots `Row` and `DDL` and the tag `Type` (here `Typ`,
`Type` being reserved). -/
structure RedoLog where
  Row : RedoRowChangedEvent
  DDL : RedoDDLEvent
  Typ : RedoLogType
  deriving DecidableEq, Repr

/-! ## `fileReader` (the interface of `file.go`) -/

/-- The interface `fileReader` as the merge reader sees it: the results that
the successive calls of `Read` return; once they are used up, `Read` returns
`io.EOF`. -/
abbrev fileReader := List (Except GoError RedoLog)

/-- The method `fileReader.Read`: the result of the call and the reader after
the call. -/
def fileReader.Read (r : fileReader) : Except GoError RedoLog × fileReader :=
  match r with
  | [] => (.error .EOF, [])
  | x :: rest => (x, rest)

/-- The call `readers[i].Read(rl)` on a slice of file readers: `none` when `i`
is out of range. -/
def readAt (readers : List fileReader) (i : Nat) :
    Option (Except GoError RedoLog × List fileReader) :=
  match readers[i]? with
  | none => none
  | some r => some ((fileReader.Read r).1, readers.set i (fileReader.Read r).2)

/-! ## `logHeap` (`reader.go`, lines 383-416) -/

/-- The struct `logWithIdx`. -/
structure logWithIdx where
  idx : Nat
  data : RedoLog
  deriving DecidableEq, Repr

/-- The type `logHeap`, a slice of `logWithIdx`. -/
abbrev logHeap := List logWithIdx

/-- The comparison that `logHeap.Less` makes between two entries: by the DDL
commit timestamps when the first entry is tagged as DDL, by the row commit
timestamps otherwise. -/
def lessEntry (a b : logWithIdx) : Bool :=
  if a.data.Typ = RedoLogType.RedoLogTypeDDL then
    decide (a.data.DDL.DDL.CommitTs < b.data.DDL.DDL.CommitTs)
  else
    decide (a.data.Row.Row.CommitTs < b.data.Row.Row.CommitTs)

/-- The method `logHeap.Len`. -/
def logHeap.Len (h : logHeap) : Nat := h.length

/-- The method `logHeap.Less`.  Its call sites pass indices below `Len`. -/
def logHeap.Less (h : logHeap) (i j : Nat) : Bool :=
  match h[i]?, h[j]? with
  | some a, some b => lessEntry a b
  | _, _ => false

/-- The method `logHeap.Swap`.  Its call sites pass indices below `Len`. -/
def logHeap.Swap (h : logHeap) (i j : Nat) : logHeap :=
  match h[i]?, h[j]? with
  | some a, some b => (h.set i b).set j a
  | _, _ => h

/-- The method `logHeap.Push`: append. -/
def logHeap.Push (h : logHeap) (x : logWithIdx) : logHeap := h ++ [x]

/-- The method `logHeap.Pop`: the last entry and the slice without it; `none`
on the empty slice. -/
def logHeap.Pop (h : logHeap) : Option (logWithIdx × logHeap) :=
  match h.getLast? with
  | none => none
  | some x => some (x, h.dropLast)

/-! ## `container/heap` of the Go standard library, on a `logHeap` -/

/-- The function `up` of `container/heap`: `budget` bounds the number of
iterations.  For `j = 0` the parent `(j - 1) / 2` is `0` in Go (the division
truncates) as it is here. -/
def heapUp : Nat → logHeap → Nat → logHeap
  | 0, h, _ => h
  | budget + 1, h, j =>
    let i := (j - 1) / 2
    if i = j ∨ !(logHeap.Less h j i) then h
    else heapUp budget (logHeap.Swap h i j) i

/-- The function `down` of `container/heap` (the heap after the call; the
boolean it returns is not used by `Init` and `Pop`): `budget` bounds the
number of iterations.  The test `j1 < 0` of the Go code guards against an
overflow of `int`, which an index of a slice never reaches. -/
def heapDown : Nat → logHeap → Nat → Nat → logHeap
  | 0, h, _, _ => h
  | budget + 1, h, i, n =>
    let j1 := 2 * i + 1
    if j1 ≥ n then h
    else
      let j := if j1 + 1 < n ∧ logHeap.Less h (j1 + 1) j1 then j1 + 1 else j1
      if !(logHeap.Less h j i) then h
      else heapDown budget (logHeap.Swap h i j) j n

/-- The loop of `heap.Init`, `for i := n/2 - 1; i >= 0; i--`: `k` is `i + 1`. -/
def heapInitLoop (n : Nat) : Nat → logHeap → logHeap
  | 0, h => h
  | k + 1, h => heapInitLoop n k (heapDown n h k n)

/-- The function `heap.Init`. -/
def heapInit (h : logHeap) : logHeap :=
  heapInitLoop (logHeap.Len h) (logHeap.Len h / 2) h

/-- The function `heap.Push`. -/
def heapPush (h : logHeap) (x : logWithIdx) : logHeap :=
  heapUp (logHeap.Len h + 1) (logHeap.Push h x) (logHeap.Len (logHeap.Push h x) - 1)

/-- The function `heap.Pop`. -/
def heapPop (h : logHeap) : Option (logWithIdx × logHeap) :=
  let n := logHeap.Len h - 1
  logHeap.Pop (heapDown n (logHeap.Swap h 0 n) 0 n)

/-! ## `LogReader.ReadNextLog` and `LogReader.ReadNextDDL` -/

/-- The state of one stream (row or DDL) of a `LogReader`: its file readers and
its heap, and what a call on the stream returns. -/
structure StreamResult (β : Type) where
  readers : List fileReader
  heap : logHeap
  ret : Except GoError (List β)

/-- The loop that primes the heap (`// init heap`): `for i := 0; i <
len(readers); i++`, where `k` is the number of readers still to visit.  A
non-EOF error of a reader ends the call at once. -/
def primeLoop : Nat → Nat → List fileReader → logHeap →
    List fileReader × logHeap × Option GoError
  | 0, _, readers, h => (readers, h, none)
  | k + 1, i, readers, h =>
    match readAt readers i with
    | none => (readers, h, some .indexOutOfRange)
    | some (.error err, readers1) =>
      if err ≠ .EOF then (readers1, h, some err)
      else primeLoop k (i + 1) readers1 h
    | some (.ok rl, readers1) =>
      primeLoop k (i + 1) readers1 (h ++ [{ idx := i, data := rl }])

/-- The delivery loop `for heap.Len() != 0 && i < maxNumberOfEvents`.  `sel`
picks the payload slot of the stream and `ts` its commit timestamp. -/
def deliverLoop {β : Type} (sel : RedoLog → β) (ts : β → Nat) (startTs maxNumberOfEvents : Nat) :
    Nat → List fileReader → logHeap → List β → Nat → StreamResult β
  | 0, readers, h, ret, _ => { readers := readers, heap := h, ret := .ok ret }
  | budget + 1, readers, h, ret, i =>
    if logHeap.Len h ≠ 0 ∧ i < maxNumberOfEvents then
      match heapPop h with
      | none => { readers := readers, heap := h, ret := .error .indexOutOfRange }
      | some (item, h1) =>
        if ts (sel item.data) ≤ startTs then
          deliverLoop sel ts startTs maxNumberOfEvents budget readers h1 ret i
        else
          match readAt readers item.idx with
          | none => { readers := readers, heap := h1, ret := .error .indexOutOfRange }
          | some (.error err, readers1) =>
            if err ≠ .EOF then { readers := readers1, heap := h1, ret := .error err }
            else deliverLoop sel ts startTs maxNumberOfEvents budget readers1 h1
              (ret ++ [sel item.data]) (i + 1)
          | some (.ok rl, readers1) =>
            deliverLoop sel ts startTs maxNumberOfEvents budget readers1
              (heapPush h1 { idx := item.idx, data := rl }) (ret ++ [sel item.data]) (i + 1)
    else { readers := readers, heap := h, ret := .ok ret }

/-- The body shared by `ReadNextLog` and `ReadNextDDL` after the cancellation
check: prime the heap when it is empty, then deliver. -/
def readNext {β : Type} (sel : RedoLog → β) (ts : β → Nat) (startTs maxNumberOfEvents : Nat)
    (readers : List fileReader) (h : logHeap) : StreamResult β :=
  if logHeap.Len h = 0 then
    match primeLoop readers.length 0 readers h with
    | (readers1, h1, some err) => { readers := readers1, heap := h1, ret := .error err }
    | (readers1, h1, none) =>
      deliverLoop sel ts startTs maxNumberOfEvents (h1.length + maxNumberOfEvents)
        readers1 (heapInit h1) [] 0
  else
    deliverLoop sel ts startTs maxNumberOfEvents (h.length + maxNumberOfEvents) readers h [] 0

/-- The struct `LogReaderConfig`: the window recorded by `ResetReader` and
the flag `S3Storage` (the directory and the URI of the store play no part in
the model). -/
structure LogReaderConfig where
  startTs : Nat
  endTs : Nat
  S3Storage : Bool := false
  deriving DecidableEq, Repr

/-- The struct `redo.LogMeta`, with its fields `CheckPointTs` and
`ResolvedTs`. -/
structure LogMeta where
  CheckPointTs : Nat
  ResolvedTs : Nat
  deriving DecidableEq, Repr

/-- The struct `LogReader`: the window, the two vectors of file readers, the
two heaps and the cached meta (`none` is `nil`).  `rowCloser` and `ddlCloser`
hold, for the reader at the same index, what `closer.Close()` of that reader
returns (`none` is `nil`; a reader without an entry has no closer). -/
structure LogReader where
  cfg : LogReaderConfig
  rowReader : List fileReader
  ddlReader : List fileReader
  rowHeap : logHeap
  ddlHeap : logHeap
  meta : Option LogMeta := none
  rowCloser : List (Option GoError) := []
  ddlCloser : List (Option GoError) := []

/-- The method `LogReader.ReadNextLog`; `ctxDone` says whether the context is
cancelled when the call starts. -/
def ReadNextLog (ctxDone : Bool) (l : LogReader) (maxNumberOfEvents : Nat) :
    LogReader × Except GoError (List RedoRowChangedEvent) :=
  if ctxDone then (l, .error .ctxErr)
  else
    let r := readNext RedoLog.Row (fun e => e.Row.CommitTs) l.cfg.startTs maxNumberOfEvents
      l.rowReader l.rowHeap
    ({ l with rowReader := r.readers, rowHeap := r.heap }, r.ret)

/-- The method `LogReader.ReadNextDDL`; `ctxDone` says whether the context is
cancelled when the call starts. -/
def ReadNextDDL (ctxDone : Bool) (l : LogReader) (maxNumberOfEvents : Nat) :
    LogReader × Except GoError (List RedoDDLEvent) :=
  if ctxDone then (l, .error .ctxErr)
  else
    let r := readNext RedoLog.DDL (fun e => e.DDL.CommitTs) l.cfg.startTs maxNumberOfEvents
      l.ddlReader l.ddlHeap
    ({ l with ddlReader := r.readers, ddlHeap := r.heap }, r.ret)


/-! ## Heap order -/

/-- The key of the entry at index `i` of a heap, `0` when `i` is out of range. -/
def keyAt (key : logWithIdx → Nat) (h : logHeap) (i : Nat) : Nat :=
  match h[i]? with
  | some a => key a
  | none => 0

/-- On the entries that satisfy `Good`, `logHeap.Less` is the strict order of
the keys. -/
def KeyOrdered (key : logWithIdx → Nat) (Good : logWithIdx → Prop) : Prop :=
  ∀ a b, Good a → lessEntry a b = decide (key a < key b)

/-- The heap order between every node from `lo` on and its children, in the
first `n` entries. -/
def HeapFrom (key : logWithIdx → Nat) (h : logHeap) (lo n : Nat) : Prop :=
  ∀ p c, lo ≤ p → c < n → (c = 2 * p + 1 ∨ c = 2 * p + 2) → keyAt key h p ≤ keyAt key h c

/-- The invariant of the loop of `down` at node `i`: the heap order holds from
`lo` on except below `i`, and the parent of `i` is below the children of `i`. -/
def DownInv (key : logWithIdx → Nat) (h : logHeap) (lo i n : Nat) : Prop :=
  (∀ p c, lo ≤ p → p ≠ i → c < n → (c = 2 * p + 1 ∨ c = 2 * p + 2) →
    keyAt key h p ≤ keyAt key h c) ∧
  (∀ p c, lo ≤ p → (i = 2 * p + 1 ∨ i = 2 * p + 2) → c < n → (c = 2 * i + 1 ∨ c = 2 * i + 2) →
    keyAt key h p ≤ keyAt key h c)

/-- The invariant of the loop of `up` at node `j`: the heap order holds except
between `j` and its parent, and the parent of `j` is below the children of `j`. -/
def UpInv (key : logWithIdx → Nat) (h : logHeap) (j : Nat) : Prop :=
  (∀ p c, c < h.length → c ≠ j → (c = 2 * p + 1 ∨ c = 2 * p + 2) →
    keyAt key h p ≤ keyAt key h c) ∧
  (∀ p c, (j = 2 * p + 1 ∨ j = 2 * p + 2) → c < h.length → (c = 2 * j + 1 ∨ c = 2 * j + 2) →
    keyAt key h p ≤ keyAt key h c)

/-- A heap: every entry is at most its children. -/
def IsHeap (key : logWithIdx → Nat) (h : logHeap) : Prop := HeapFrom key h 0 h.length

/-! ## Invariant of a stream -/

/-- A file reader that returns, without error, records that satisfy `Good` and
whose timestamps `ts` are non-decreasing and at least `lo`. -/
def SortedFrom (Good : RedoLog → Prop) (ts : RedoLog → Nat) : Nat → fileReader → Prop
  | _, [] => True
  | lo, .ok a :: rest => Good a ∧ lo ≤ ts a ∧ SortedFrom Good ts (ts a) rest
  | _, .error _ :: _ => False

/-- The invariant of a stream over sorted file readers: every reader is sorted,
every heap entry is the last record read from the reader it names, and the
heap is a min-heap of the timestamps. -/
def StreamInv (Good : RedoLog → Prop) (ts : RedoLog → Nat) (readers : List fileReader)
    (h : logHeap) : Prop :=
  (∀ r ∈ readers, SortedFrom Good ts 0 r) ∧
  (∀ e ∈ h, Good e.data ∧ ∃ r, readers[e.idx]? = some r ∧ SortedFrom Good ts (ts e.data) r) ∧
  IsHeap (fun e => ts e.data) h

/-! ## Runs of a `LogReader` -/

/-- A file reader on a file that holds the records `recs`: `Read` returns them
in order, without error, then `io.EOF`. -/
def fileOf (recs : List RedoLog) : fileReader := recs.map Except.ok

/-- The `LogReader` as `ResetReader(startTs, endTs)` leaves it when it opened
the row files `rowFiles` and the DDL files `ddlFiles` (`setUpRowReader`,
`setUpDDLReader`): the window is recorded, the readers are at the start of
their files and both heaps are empty. -/
def afterReset (startTs endTs : Nat) (rowFiles ddlFiles : List (List RedoLog)) : LogReader :=
  { cfg := { startTs := startTs, endTs := endTs }
    rowReader := rowFiles.map fileOf
    ddlReader := ddlFiles.map fileOf
    rowHeap := []
    ddlHeap := [] }

/-- A call of the applier on one of the two streams, with its cap. -/
inductive Call where
  | NextLog (maxNumberOfEvents : Nat)
  | NextDDL (maxNumberOfEvents : Nat)
  deriving DecidableEq, Repr

/-- The `LogReader` after a sequence of calls (with a live context). -/
def runCalls : LogReader → List Call → LogReader
  | l, [] => l
  | l, .NextLog n :: cs => runCalls (ReadNextLog false l n).1 cs
  | l, .NextDDL n :: cs => runCalls (ReadNextDDL false l n).1 cs

/-- A record of a row file: its tag is not `RedoLogTypeDDL`. -/
def IsRowLog (r : RedoLog) : Prop := r.Typ ≠ RedoLogType.RedoLogTypeDDL

/-- A record of a DDL file: its tag is `RedoLogTypeDDL`. -/
def IsDDLLog (r : RedoLog) : Prop := r.Typ = RedoLogType.RedoLogTypeDDL

/-- The records of a row file are row records in non-decreasing commit
timestamp order. -/
def SortedRowFile (f : List RedoLog) : Prop :=
  (∀ r ∈ f, IsRowLog r) ∧ f.Pairwise (fun a b => a.Row.Row.CommitTs ≤ b.Row.Row.CommitTs)

/-- The records of a DDL file are DDL records in non-decreasing commit
timestamp order. -/
def SortedDDLFile (f : List RedoLog) : Prop :=
  (∀ r ∈ f, IsDDLLog r) ∧ f.Pairwise (fun a b => a.DDL.DDL.CommitTs ≤ b.DDL.DDL.CommitTs)

/-- The invariant of a `LogReader` over sorted files: both streams satisfy
`StreamInv`. -/
def FacadeInv (l : LogReader) : Prop :=
  StreamInv IsRowLog (fun r => r.Row.Row.CommitTs) l.rowReader l.rowHeap ∧
  StreamInv IsDDLLog (fun r => r.DDL.DDL.CommitTs) l.ddlReader l.ddlHeap

/-- A row record with the commit timestamp `commitTs`; `body` tells records
apart. -/
def rowLog (commitTs body : Nat) : RedoLog :=
  { Row := { Row := { CommitTs := commitTs, body := body } }
    DDL := { DDL := { CommitTs := 0, body := 0 } }
    Typ := RedoLogType.RedoLogTypeRow }

/-- A DDL record with the commit timestamp `commitTs`. -/
def ddlLog (commitTs body : Nat) : RedoLog :=
  { Row := { Row := { CommitTs := 0, body := 0 } }
    DDL := { DDL := { CommitTs := commitTs, body := body } }
    Typ := RedoLogType.RedoLogTypeDDL }

/-- The row event with the commit timestamp `commitTs`. -/
def rowEvent (commitTs body : Nat) : RedoRowChangedEvent :=
  { Row := { CommitTs := commitTs, body := body } }

/-! ## Inputs of the scenarios -/

/-- The row file A of the scenarios: commit timestamps 5, 20, 40. -/
def fileA : List RedoLog := [rowLog 5 0, rowLog 20 0, rowLog 40 0]

/-- The row file B of the scenarios: commit timestamps 10, 30, 50. -/
def fileB : List RedoLog := [rowLog 10 0, rowLog 30 0, rowLog 50 0]

/-- A row file with the commit timestamps 30, 50. -/
def fileC : List RedoLog := [rowLog 30 0, rowLog 50 0]

/-- A `LogReader` whose second row reader fails with a non-EOF error at its
first `Read`. -/
def failingReader : LogReader :=
  { cfg := { startTs := 0, endTs := 100 }
    rowReader := [fileOf [rowLog 5 0], [.error (.other 1)]]
    ddlReader := []
    rowHeap := []
    ddlHeap := [] }

/-! ## Reader errors -/

/-- The next `Read` of the file reader does not fail: it returns a record or
`io.EOF`. -/
def NextReadOk (r : fileReader) : Prop :=
  ∀ e rest, r = .error e :: rest → e = GoError.EOF

/-- The file readers after one `Read` on each of the first `n` of them. -/
def readFirst : Nat → List fileReader → List fileReader
  | 0, readers => readers
  | _ + 1, [] => []
  | n + 1, r :: readers => (fileReader.Read r).2 :: readFirst n readers

/-- The heap entries that priming appends for the first `n` readers of a
list, the first of which has the index `i0`: one entry for each reader whose
`Read` returns a record. -/
def primedEntries : Nat → Nat → List fileReader → List logWithIdx
  | 0, _, _ => []
  | _ + 1, _, [] => []
  | n + 1, i0, r :: readers =>
    match (fileReader.Read r).1 with
    | .ok rl => { idx := i0, data := rl } :: primedEntries n (i0 + 1) readers
    | .error _ => primedEntries n (i0 + 1) readers

/-! ## Runs without dropped records -/

/-- Every record that a stream still holds, in its heap or in its readers, is
above `startTs`. -/
def NoDrop (ts : RedoLog → Nat) (startTs : Nat) (readers : List fileReader) (h : logHeap) :
    Prop :=
  (∀ e ∈ h, startTs < ts e.data) ∧ ∀ r ∈ readers, ∀ a, Except.ok a ∈ r → startTs < ts a

/-- Every reader that is not exhausted has an entry in the heap. -/
def Cover (readers : List fileReader) (h : logHeap) : Prop :=
  ∀ i r, readers[i]? = some r → r ≠ [] → ∃ e ∈ h, e.idx = i

/-- The records that a stream still holds: those in its heap and those that
its readers have not returned yet. -/
def held (readers : List fileReader) (h : logHeap) : List (Except GoError RedoLog) :=
  h.map (fun e => Except.ok e.data) ++ readers.flatten

/-- One delivery without the window test: pop the least entry and refill the
heap from the reader of that entry; `none` when the heap is empty. -/
def popRefill (readers : List fileReader) (h : logHeap) :
    Option (logWithIdx × List fileReader × logHeap) :=
  match heapPop h with
  | none => none
  | some (item, h1) =>
    match readAt readers item.idx with
    | some (.ok rl, readers1) => some (item, readers1, heapPush h1 { idx := item.idx, data := rl })
    | some (.error _, readers1) => some (item, readers1, h1)
    | none => some (item, readers, h1)

/-- At most `c` deliveries in a row: the entries delivered and the stream
after them. -/
def takeN : Nat → List fileReader → logHeap → List logWithIdx × List fileReader × logHeap
  | 0, readers, h => ([], readers, h)
  | c + 1, readers, h =>
    match popRefill readers h with
    | none => ([], readers, h)
    | some (item, readers1, h1) =>
      (item :: (takeN c readers1 h1).1, (takeN c readers1 h1).2)

/-- The record of a successful `Read`. -/
def okOf : Except GoError RedoLog → Option RedoLog
  | .ok a => some a
  | .error _ => none

/-! ## The file reader `reader` (`file.go`, lines 39-68 and 226-317) -/

/-- The constant `frameSizeBytes`. -/
def frameSizeBytes : Nat := 8

/-- The constant `redo.MinSectorSize` (`redo.go`). -/
def MinSectorSize : Nat := 512

/-- The struct `reader`, as far as `Read` and `isTornEntry` use it: `br` holds
the bytes of the file that the buffered reader has not returned yet, `fault`
tells how the file ends (`none`: with `io.EOF`; `some e`: the read fails with
the error `e`, which is not `io.EOF`), `lastValidOff` is the file offset
following the last valid decoded record, an `int64`. -/
structure reader where
  br : List UInt8
  fault : Option GoError
  lastValidOff : Int

/-- The function `io.ReadFull` on the rest of a file, for a buffer of `n`
bytes: the buffer read (or the error) and the bytes left.  With fewer than `n`
bytes left the error is that of the file, `io.EOF` when no byte was read and
`io.ErrUnexpectedEOF` when some were. -/
def ioReadFull (br : List UInt8) (fault : Option GoError) (n : Nat) :
    Except GoError (List UInt8) × List UInt8 :=
  if n ≤ br.length then (.ok (br.take n), br.drop n)
  else
    match fault with
    | some e => (.error e, [])
    | none => if br.length = 0 then (.error .EOF, []) else (.error .ErrUnexpectedEOF, [])

/-- The value of `binary.LittleEndian.Uint64` on a byte slice. -/
def leUint64 (bs : List UInt8) : Nat :=
  bs.foldr (fun b acc => b.toNat + 256 * acc) 0

/-- The conversion `int64(u)` of a `uint64`. -/
def int64OfUint64 (u : Nat) : Int :=
  if u % 2 ^ 64 < 2 ^ 63 then ((u % 2 ^ 64 : Nat) : Int) else ((u % 2 ^ 64 : Nat) : Int) - 2 ^ 64

/-- The conversion `uint64(x)` of an `int64`. -/
def uint64OfInt64 (x : Int) : Nat := (x % 2 ^ 64).toNat

/-- The `int64` that an `int64` addition or `+=` leaves for the exact result
`x`: Go wraps around modulo `2^64`. -/
def int64Wrap (x : Int) : Int := int64OfUint64 (uint64OfInt64 x)

/-- The function `readInt64`: `binary.Read` of 8 bytes, little-endian. -/
def readInt64 (br : List UInt8) (fault : Option GoError) : Except GoError Int × List UInt8 :=
  match ioReadFull br fault 8 with
  | (.ok bs, rest) => (.ok (int64OfUint64 (leUint64 bs)), rest)
  | (.error err, rest) => (.error err, rest)

/-- The function `decodeFrameSize`. -/
def decodeFrameSize (lenField : Int) : Int × Int :=
  let recBytes := int64OfUint64 (uint64OfInt64 lenField &&& ((0xff <<< 56) ^^^ (2 ^ 64 - 1)))
  let padBytes :=
    if lenField < 0 then int64OfUint64 ((uint64OfInt64 lenField >>> 56) &&& 0x7) else 0
  (recBytes, padBytes)

/-- The loop of `isTornEntry` that splits `data` on sector boundaries:
`budget` bounds the number of iterations, `%` of Go is the truncated
remainder `Int.tmod`, and `fileOff += chunkLen` is an `int64` addition, which
wraps around. -/
def splitSectors (data : List UInt8) :
    Nat → Int → Nat → List (List UInt8) → List (List UInt8)
  | 0, _, _, chunks => chunks
  | budget + 1, fileOff, curOff, chunks =>
    if curOff < data.length then
      let chunkLen0 : Int := (MinSectorSize : Int) - Int.tmod fileOff (MinSectorSize : Int)
      let chunkLen : Int :=
        if chunkLen0 > (data.length : Int) - (curOff : Int) then
          (data.length : Int) - (curOff : Int)
        else chunkLen0
      splitSectors data budget (int64Wrap (fileOff + chunkLen)) (curOff + chunkLen.toNat)
        (chunks ++ [(data.drop curOff).take chunkLen.toNat])
    else chunks

/-- The method `reader.isTornEntry`; `fileOff := r.lastValidOff +
frameSizeBytes` is an `int64` addition. -/
def reader.isTornEntry (r : reader) (data : List UInt8) : Bool :=
  let chunks := splitSectors data data.length
    (int64Wrap (r.lastValidOff + (frameSizeBytes : Int))) 0 []
  chunks.any (fun sect => sect.all (fun v => v == 0))

/-- The constant `maxAlloc` of the Go runtime on the 64-bit platforms with
48 address bits (linux/amd64 among them): `make` fails for a longer slice. -/
def maxAlloc : Nat := 2 ^ 48

/-- The method `reader.Read`: the result (the record decoded, or the error)
and the reader after the call.  `UnmarshalMsg` is the deserializer of
`model.RedoLog` (generated code, not part of the sources at hand);
`r.lastValidOff += ...` is an `int64` addition.  `canMake n` tells whether
`make([]byte, n)` (`file.go`, line 241) returns a buffer in the run at hand
(it does not for `n > maxAlloc`, nor when the memory is not there).  When it
does not, the call ends in the run-time failure `makeFailure` right after the
length field was read: no payload byte is read.  (`recBytes + padBytes` is
never negative.) -/
def reader.ReadAlloc (canMake : Nat → Bool) (UnmarshalMsg : List UInt8 → Except GoError RedoLog)
    (r : reader) : Except GoError RedoLog × reader :=
  match readInt64 r.br r.fault with
  | (.error err, rest) =>
    if err = .EOF then (.error err, { r with br := rest })
    else (.error (.ErrRedoFileOp err), { r with br := rest })
  | (.ok lenField, rest) =>
    let recBytes := (decodeFrameSize lenField).1
    let padBytes := (decodeFrameSize lenField).2
    if canMake (recBytes + padBytes).toNat = false then
      (.error .makeFailure, { r with br := rest })
    else
      match ioReadFull rest r.fault (recBytes + padBytes).toNat with
      | (.error err, rest1) =>
        if err = .EOF ∨ err = .ErrUnexpectedEOF then (.error .EOF, { r with br := rest1 })
        else (.error (.ErrRedoFileOp err), { r with br := rest1 })
      | (.ok data, rest1) =>
        match UnmarshalMsg (data.take recBytes.toNat) with
        | .error err =>
          if reader.isTornEntry r data then (.error .EOF, { r with br := rest1 })
          else (.error (.ErrRedoFileOp err), { r with br := rest1 })
        | .ok redoLog =>
          (.ok redoLog,
            { r with
              br := rest1
              lastValidOff :=
                int64Wrap (r.lastValidOff + ((frameSizeBytes : Int) + recBytes + padBytes)) })

/-- The method `reader.Read` in a run in which `make([]byte,
recBytes+padBytes)` (`file.go`, line 241) returns the buffer: the result (the
record decoded, or the error) and the reader after the call. -/
def reader.Read (UnmarshalMsg : List UInt8 → Except GoError RedoLog) (r : reader) :
    Except GoError RedoLog × reader :=
  reader.ReadAlloc (fun _ => true) UnmarshalMsg r

/-- The results of `n` successive calls of `Read`, and the reader after them. -/
def readMany (UnmarshalMsg : List UInt8 → Except GoError RedoLog) :
    Nat → reader → List (Except GoError RedoLog) × reader
  | 0, r => ([], r)
  | n + 1, r =>
    ((reader.Read UnmarshalMsg r).1 :: (readMany UnmarshalMsg n (reader.Read UnmarshalMsg r).2).1,
      (readMany UnmarshalMsg n (reader.Read UnmarshalMsg r).2).2)

/-! ## The writer's framing -/

/-- Modelled from the spec: the function `encodeFrameSize` of the writer (not
part of the sources at hand), "n itself when p = 0, otherwise n with the top
byte set to 0x80 | p", with `p = (8 - n mod 8) mod 8`: the length field and the
number of pad bytes. -/
def encodeFrameSize (dataBytes : Nat) : Nat × Nat :=
  let padBytes := (8 - dataBytes % 8) % 8
  (if padBytes ≠ 0 then dataBytes ||| ((0x80 ||| padBytes) <<< 56) else dataBytes, padBytes)

/-- Modelled from the spec: the 8 bytes of a length field, little-endian, as
the writer stores them. -/
def putUint64 (v : Nat) : List UInt8 :=
  (List.range 8).map (fun i => UInt8.ofNat (v / 256 ^ i % 256))

/-- Modelled from the spec: the frame of a record whose serialization is
`rec`, followed by the pad bytes `pad`: "length field (8 bytes, little-endian
signed)", "record bytes", "pad bytes". -/
def encodeFrame (rec pad : List UInt8) : List UInt8 :=
  putUint64 (encodeFrameSize rec.length).1 ++ rec ++ pad

/-! ## Torn entries, as the spec words them -/

/-- Cut a list before every position `p` that satisfies `cut`; the first
element of the list has the position `pos`, and no cut is made before it. -/
def cutAt (cut : Nat → Bool) : Nat → List UInt8 → List (List UInt8)
  | _, [] => [[]]
  | pos, x :: xs =>
    match cutAt cut (pos + 1) xs with
    | [] => [[x]]
    | c :: cs => if cut (pos + 1) then [x] :: c :: cs else (x :: c) :: cs

/-- The torn-entry test in the words of the spec: cut the payload at every
position `p` with `lastValidOff + 8 + p` a multiple of 512; the entry is torn
when one of the non-empty chunks consists of zero bytes only. -/
def tornBySectors (lastValidOff : Int) (payload : List UInt8) : Bool :=
  ((cutAt (fun p => decide ((lastValidOff + 8 + (p : Int)) % 512 = 0)) 0 payload).filter
    (fun c => !c.isEmpty)).any (fun c => c.all (fun v => v == 0))

/-! ## A serialization for the examples -/

/-- A serialization of the row records with commit timestamp and body below
256: two bytes. -/
def marshal2 (r : RedoLog) : List UInt8 :=
  [UInt8.ofNat r.Row.Row.CommitTs, UInt8.ofNat r.Row.Row.body]

/-- The deserialization that goes with `marshal2`: a record from exactly two
bytes, an error otherwise. -/
def unmarshal2 (bs : List UInt8) : Except GoError RedoLog :=
  match bs with
  | [t, b] => .ok (rowLog t.toNat b.toNat)
  | _ => .error (.other 7)

/-- The number of payload bytes, `recBytes + padBytes`, that the length field
at the head of the bytes `br` announces. -/
def payloadSize (br : List UInt8) : Nat :=
  ((decodeFrameSize (int64OfUint64 (leUint64 (br.take 8)))).1 +
    (decodeFrameSize (int64OfUint64 (leUint64 (br.take 8)))).2).toNat

/-- A reader on a file of eight bytes `0xff`: a length field that announces
`2^56 - 1` record bytes and 7 pad bytes. -/
def ffReader : reader :=
  { br := [255, 255, 255, 255, 255, 255, 255, 255], fault := none, lastValidOff := 0 }

/-- A reader on a file that ends after a whole length field announcing 8
payload bytes and 3 payload bytes, none of them zero. -/
def shortReader : reader :=
  { br := putUint64 8 ++ [1, 2, 3], fault := none, lastValidOff := 0 }


/-! ## Frames that fail to deserialize -/

/-- The number of record bytes, `recBytes`, that the length field at the head
of the bytes `br` announces. -/
def frameRecBytes (br : List UInt8) : Nat :=
  (decodeFrameSize (int64OfUint64 (leUint64 (br.take 8)))).1.toNat

/-- The payload, `recBytes + padBytes` bytes, that follows the length field at
the head of the bytes `br`. -/
def framePayload (br : List UInt8) : List UInt8 :=
  (br.drop 8).take (payloadSize br)

/-- A deserializer that accepts a record whose first byte is the tag 1,
followed by the commit timestamp and the body, one byte each, and that
ignores what follows (as generated deserializers return left-over bytes); it
fails on everything else. -/
def unmarshalTagged (bs : List UInt8) : Except GoError RedoLog :=
  match bs with
  | 1 :: t :: b :: _ => .ok (rowLog t.toNat b.toNat)
  | _ => .error (.other 7)

/-- The frame of a record of 234 bytes, without pad bytes, that
`unmarshalTagged` decodes to the commit timestamp `ts`: 242 bytes in all. -/
def frame242 (ts : UInt8) : List UInt8 :=
  putUint64 234 ++ (1 :: ts :: List.replicate 232 5)

/-- A length field that announces 40 record bytes, 20 payload bytes that do
not deserialize and 20 zero bytes. -/
def tornTail : List UInt8 :=
  putUint64 40 ++ (9 :: List.replicate 19 3) ++ List.replicate 20 0

/-- A length field that announces 40 record bytes and 40 non-zero bytes that
do not deserialize. -/
def garbageTail : List UInt8 :=
  putUint64 40 ++ (9 :: List.replicate 39 3)

/-! ## File names (`file.go`, `shouldOpen`, `parseLogFileName`)

Go strings are modelled as lists of characters (the runes of a valid UTF-8
string).  `fmt.Sscanf` is embedded for the two format strings that
`parseLogFileName` builds, verb by verb. -/

/-- The constant `redo.LogEXT`. -/
def LogEXT : List Char := ['.', 'l', 'o', 'g']

/-- The constant `redo.TmpEXT`. -/
def TmpEXT : List Char := ['.', 't', 'm', 'p']

/-- The constant `redo.MetaEXT`. -/
def MetaEXT : List Char := ['.', 'm', 'e', 't', 'a']

/-- The constant `redo.DefaultMetaFileName`. -/
def DefaultMetaFileName : List Char := ['m', 'e', 't', 'a']

/-- The constant `redo.DefaultRowLogFileName`. -/
def DefaultRowLogFileName : List Char := ['r', 'o', 'w']

/-- The constant `redo.DefaultDDLLogFileName`. -/
def DefaultDDLLogFileName : List Char := ['d', 'd', 'l']

/-- The loop of `filepath.Ext`, which walks the path from its last character
backwards: `rev` is what is left of the reversed path and `acc` the characters
already passed.  It stops at a path separator with the empty extension and at
a dot with the suffix that starts there. -/
def extLoop : List Char → List Char → List Char
  | [], _ => []
  | c :: rev, acc =>
    if c = '/' then []
    else if c = '.' then '.' :: acc
    else extLoop rev (c :: acc)

/-- Go's `filepath.Ext`. -/
def filepathExt (path : List Char) : List Char := extLoop path.reverse []

/-- Go's `filepath.Base` (Unix): trailing separators are stripped, then the
part after the last separator is kept. -/
def filepathBase (path : List Char) : List Char :=
  if path = [] then ['.']
  else
    let stripped := path.reverse.dropWhile (fun c => c = '/')
    let last := (stripped.takeWhile (fun c => c ≠ '/')).reverse
    if last = [] then ['/'] else last

/-- Go's `strings.ReplaceAll(name, "_", " ")`. -/
def replaceUnderscores (name : List Char) : List Char :=
  name.map (fun c => if c = '_' then ' ' else c)

/-- The function `isSpace` of package `fmt`: the table of space ranges. -/
def isSpace (c : Char) : Bool :=
  let r := c.toNat
  decide ((0x0009 ≤ r ∧ r ≤ 0x000d) ∨ r = 0x0020 ∨ r = 0x0085 ∨ r = 0x00a0 ∨ r = 0x1680 ∨
    (0x2000 ≤ r ∧ r ≤ 0x200a) ∨ (0x2028 ≤ r ∧ r ≤ 0x2029) ∨ r = 0x202f ∨ r = 0x205f ∨
    r = 0x3000)

/-- The method `ss.SkipSpace` of package `fmt` as `Sscanf` runs it (a newline
is not a space there): spaces are consumed up to the first other character; a
newline is the error `unexpected newline`. -/
def SkipSpace : List Char → Except GoError (List Char)
  | [] => .ok []
  | c :: s =>
    if c = '\n' then .error (.msg "unexpected newline")
    else if isSpace c then SkipSpace s
    else .ok (c :: s)

/-- The verb `%s` of `Sscanf` into a `*string` (`doScanf`, `convertString`):
leading spaces are skipped, the input must not be at its end (`notEOF`), and
the token is the longest run of characters that are not spaces (`token` with
`notSpace`).  Returns the token and the rest of the input. -/
def scanString (s : List Char) : Except GoError (List Char × List Char) :=
  match SkipSpace s with
  | .error e => .error e
  | .ok s1 =>
    if s1 = [] then .error .EOF
    else .ok (s1.takeWhile (fun c => !isSpace c), s1.dropWhile (fun c => !isSpace c))

/-- A decimal digit, one of the characters of `decimalDigits`. -/
def isDecimalDigit (c : Char) : Bool := decide (48 ≤ c.toNat ∧ c.toNat ≤ 57)

/-- The value `strconv.ParseUint(tok, 10, 64)` accumulates over a token of
decimal digits. -/
def decimalValue (tok : List Char) : Nat :=
  tok.foldl (fun acc c => acc * 10 + (c.toNat - 48)) 0

/-- The verb `%d` of `Sscanf` into a `*uint64` (`doScanf`, `scanUint`,
`scanNumber`): leading spaces are skipped, the input must not be at its end,
at least one decimal digit is expected, the token is the longest run of
decimal digits, and `strconv.ParseUint` rejects a value that does not fit 64
bits.  Returns the value and the rest of the input. -/
def scanUint (s : List Char) : Except GoError (Nat × List Char) :=
  match SkipSpace s with
  | .error e => .error e
  | .ok s1 =>
    if s1 = [] then .error .EOF
    else
      let tok := s1.takeWhile isDecimalDigit
      if tok = [] then .error (.msg "expected integer")
      else if decimalValue tok < 2 ^ 64 then .ok (decimalValue tok, s1.dropWhile isDecimalDigit)
      else .error (.msg "value out of range")

/-- A single space of the format string (`ss.advance`, space processing with
no newline in the format): it matches the end of the input, or one or more
spaces; a newline in the input, or another character, is an error.  Returns
the rest of the input. -/
def scanSpace : List Char → Except GoError (List Char)
  | [] => .ok []
  | c :: s =>
    if !isSpace c then .error (.msg "expected space in input to match format")
    else if c = '\n' then .error (.msg "newline in input does not match format")
    else .ok (s.dropWhile (fun x => isSpace x && x != '\n'))

/-- Literal characters of the format string (`ss.advance`, literals): each
must be the next character of the input (`mustReadRune`).  Returns the rest of
the input. -/
def scanLiteral : List Char → List Char → Except GoError (List Char)
  | [], s => .ok s
  | _ :: _, [] => .error .ErrUnexpectedEOF
  | c :: lit, x :: s =>
    if c = x then scanLiteral lit s else .error (.msg "input does not match format")

/-- The call `fmt.Sscanf(name, formatStr, &s1, &s2, &d1, &fileName, &commitTs)`
of `parseLogFileName`, where `formatStr` is `"%s %s %d %s %d"` followed by the
literal `lit` (`.log` or `.log.tmp`).  Returns `(fileName, commitTs)`. -/
def scanLogName (lit : List Char) (name : List Char) : Except GoError (List Char × Nat) :=
  match scanString name with
  | .error e => .error e
  | .ok (_, r1) =>
  match scanSpace r1 with
  | .error e => .error e
  | .ok r2 =>
  match scanString r2 with
  | .error e => .error e
  | .ok (_, r3) =>
  match scanSpace r3 with
  | .error e => .error e
  | .ok r4 =>
  match scanUint r4 with
  | .error e => .error e
  | .ok (_, r5) =>
  match scanSpace r5 with
  | .error e => .error e
  | .ok r6 =>
  match scanString r6 with
  | .error e => .error e
  | .ok (fileName, r7) =>
  match scanSpace r7 with
  | .error e => .error e
  | .ok r8 =>
  match scanUint r8 with
  | .error e => .error e
  | .ok (commitTs, r9) =>
  match scanLiteral lit r9 with
  | .error e => .error e
  | .ok _ => .ok (fileName, commitTs)

/-- The function `parseLogFileName`: returns `(commitTs, fileName)` or the
error. -/
def parseLogFileName (name : List Char) : Except GoError (Nat × List Char) :=
  let ext := filepathExt name
  if ext ≠ LogEXT ∧ ext ≠ TmpEXT then
    .error (.msg "bad log name, file name extension not match")
  else
    let formatLit := if ext = TmpEXT then LogEXT ++ TmpEXT else LogEXT
    match scanLogName formatLit (replaceUnderscores name) with
    | .error err => .error (.annotated err "bad log name")
    | .ok (fileName, commitTs) => .ok (commitTs, fileName)

/-- The function `shouldOpen`. -/
def shouldOpen (startTs endTs : Nat) (name fixedName : List Char) : Except GoError Bool :=
  match parseLogFileName name with
  | .error err => .error err
  | .ok (commitTs, fileName) =>
    if fileName ≠ fixedName then .ok false
    else if filepathExt name = TmpEXT then .ok true
    else if commitTs > startTs ∧ commitTs ≤ endTs then .ok true
    else .ok false

/-- What `os.OpenFile` gives for a file of the directory, seen through the
`reader` that `newReader` wraps it in: the results of the successive `Read`
calls and the result of `closer.Close()` (`none` is `nil`). -/
structure openedFile where
  reads : fileReader
  closeErr : Option GoError

/-- The loop of `openSelectedFiles` over the directory entries: an entry for
which `shouldOpen` fails is skipped after a warning, an entry for which it
says `true` is opened, and a failing `os.OpenFile` ends the call. -/
def openLoop (OpenFile : List Char → Except GoError openedFile)
    (fixedName : List Char) (startTs endTs : Nat) :
    List (List Char) → List openedFile → Except GoError (List openedFile)
  | [], logFiles => .ok logFiles
  | f :: files, logFiles =>
    match shouldOpen startTs endTs f fixedName with
    | .error _ => openLoop OpenFile fixedName startTs endTs files logFiles
    | .ok ret =>
      if ret then
        match OpenFile f with
        | .error err => .error (.ErrRedoFileOp (.annotated err "can't open redo logfile"))
        | .ok file => openLoop OpenFile fixedName startTs endTs files (logFiles ++ [file])
      else openLoop OpenFile fixedName startTs endTs files logFiles

/-- The function `openSelectedFiles`; `ReadDir` is the result of
`ioutil.ReadDir(dir)` (the names of the entries) and `OpenFile` that of
`os.OpenFile` on an entry. -/
def openSelectedFiles (ReadDir : Except GoError (List (List Char)))
    (OpenFile : List Char → Except GoError openedFile)
    (fixedName : List Char) (startTs endTs : Nat) : Except GoError (List openedFile) :=
  match ReadDir with
  | .error err => .error (.ErrRedoFileOp (.annotated err "can't read log file directory"))
  | .ok files => openLoop OpenFile fixedName startTs endTs files []

/-- A remote store as `selectDownLoadFile` and `downLoadToLocal` use it
(`storage.ExternalStorage`): `walk` lists the paths that `WalkDir` visits, in
order, `walkErr` is the error with which the walk itself ends after them
(`none` when the store does not fail) and `ReadFile` reads a remote file. -/
structure ExternalStorage where
  walk : List (List Char)
  walkErr : Option GoError
  ReadFile : List Char → Except GoError (List UInt8)

/-- The method `WalkDir` with the callback of `selectDownLoadFile`: the
callback parses the base name of each path, returns the parse error if there
is one (which ends the walk with that error) and appends the path to `files`
when the parsed name is `fixedName`. -/
def walkSelect (fixedName : List Char) (walkErr : Option GoError) :
    List (List Char) → List (List Char) → List (List Char) × Option GoError
  | [], files => (files, walkErr)
  | path :: paths, files =>
    match parseLogFileName (filepathBase path) with
    | .error err => (files, some err)
    | .ok (_, name) =>
      if name = fixedName then walkSelect fixedName walkErr paths (files ++ [path])
      else walkSelect fixedName walkErr paths files

/-- The function `selectDownLoadFile`. -/
def selectDownLoadFile (s3storage : ExternalStorage) (fixedName : List Char) :
    Except GoError (List (List Char)) :=
  match walkSelect fixedName s3storage.walkErr s3storage.walk [] with
  | (_, some err) => .error (.ErrS3StorageAPI err)
  | (files, none) => .ok files

/-- Whether the base name of a remote path parses as a log file name of kind
`fixedName`. -/
def hasKind (fixedName path : List Char) : Bool :=
  match parseLogFileName (filepathBase path) with
  | .error _ => false
  | .ok (_, name) => decide (name = fixedName)

/-- Modelled from the spec: the decimal digits that the writer's `%d` prints
for a number. -/
def decimal (n : Nat) : List Char := Nat.toDigits 10 n

/-- Modelled from the spec: the name the writer gives a log file,
`captureID_changefeedID_createUnixSec_kind_commitTs` followed by the
extension (the `fmt.Sprintf("%s_%s_%d_%s_%d%s", ...)` quoted in
`parseLogFileName`). -/
def logFileName (captureID changefeedID : List Char) (createUnixSec : Nat) (kind : List Char)
    (commitTs : Nat) (ext : List Char) : List Char :=
  captureID ++ '_' :: changefeedID ++ '_' :: decimal createUnixSec ++ '_' :: kind ++
    '_' :: decimal commitTs ++ ext

/-- The path `a/cap_cf_1_row_5.log` of a remote store. -/
def remoteRowLog : List Char := "a/cap_cf_1_row_5.log".toList

/-- The path `a/cap_cf_meta.meta` of a remote store. -/
def remoteMeta : List Char := "a/cap_cf_meta.meta".toList

/-! ## `ResetReader`, `ReadMeta` and the set-up of the readers (`reader.go`) -/

/-- An operation of the reader on the local directory, on the remote store or
on one of its file readers. -/
inductive FileOp where
  | ReadDir
  | ReadFile (name : List Char)
  | OpenFile (name : List Char)
  | Download (fileType : List Char)
  | CloseRow (idx : Nat)
  | CloseDDL (idx : Nat)
  deriving DecidableEq, Repr

/-- How a call ends: it returns an error value (`none` is `nil`), or
`log.Panic` stops it after logging `text`. -/
inductive Ending where
  | returned (err : Option GoError)
  | panicked (text : String)
  deriving DecidableEq, Repr

/-- The surroundings of a `LogReader`: the result of `ioutil.ReadDir` on its
directory (the names of the entries), of `os.ReadFile` and `os.OpenFile` on an
entry, of `ioutil.WriteFile` on a downloaded file, of `redo.InitS3storage`, and
of `LogMeta.UnmarshalMsg` on the contents of a file (the fields it leaves in
the struct and its error). -/
structure Env where
  ReadDir : Except GoError (List (List Char))
  ReadFile : List Char → Except GoError (List UInt8)
  OpenFile : List Char → Except GoError openedFile
  WriteFile : List Char → Option GoError
  InitS3storage : Except GoError ExternalStorage
  UnmarshalMsg : List UInt8 → LogMeta × Option GoError

/-- The state of the `LogReader` after a call, the operations the call made,
in order, and how it ended. -/
structure CallResult where
  l : LogReader
  ops : List FileOp
  ending : Ending

/-- Go's `multierr.Append` (the combination of two errors is kept as a pair). -/
def multierrAppend : Option GoError → Option GoError → Option GoError
  | none, right => right
  | some left, none => some left
  | some left, some right => some (.multi left right)

/-- The method `reader.Close` of a reader whose `closer.Close()` returns
`closeErr`: `cerror.WrapError(cerror.ErrRedoFileOp, r.closer.Close())`. -/
def readerClose (closeErr : Option GoError) : Option GoError :=
  match closeErr with
  | none => none
  | some err => some (.ErrRedoFileOp err)

/-- The loop of `closeRowReader` and `closeDDLReader` over the readers `i`,
`i + 1`, ... (`n` of them are left), with `errs` the errors so far. -/
def closeLoop (closers : List (Option GoError)) : Nat → Nat → Option GoError → Option GoError
  | 0, _, errs => errs
  | n + 1, i, errs =>
    closeLoop closers n (i + 1) (multierrAppend errs (readerClose (closers.getD i none)))

/-- The method `LogReader.closeRowReader`. -/
def LogReader.closeRowReader (l : LogReader) : Option GoError :=
  closeLoop l.rowCloser l.rowReader.length 0 none

/-- The method `LogReader.closeDDLReader`. -/
def LogReader.closeDDLReader (l : LogReader) : Option GoError :=
  closeLoop l.ddlCloser l.ddlReader.length 0 none

/-- The goroutines of `downLoadToLocal`, one for each selected file: the file
is read from the store and written to the directory.  `eg.Wait()` returns an
error exactly when one of them fails; the model returns that of the first
failing file of the list. -/
def downLoadLoop (env : Env) (s3storage : ExternalStorage) : List (List Char) → Option GoError
  | [] => none
  | f :: files =>
    match s3storage.ReadFile f with
    | .error err => some (.ErrS3StorageAPI err)
    | .ok _ =>
      match env.WriteFile f with
      | some err => some (.ErrRedoFileOp err)
      | none => downLoadLoop env s3storage files

/-- The function `downLoadToLocal`. -/
def downLoadToLocal (env : Env) (s3storage : ExternalStorage) (fixedName : List Char) :
    Option GoError :=
  match selectDownLoadFile s3storage fixedName with
  | .error err => some err
  | .ok files => downLoadLoop env s3storage files

/-- The names on which the loop of `openSelectedFiles` calls `os.OpenFile`, in
order: the entries for which `shouldOpen` says `true`, up to the first one
that cannot be opened. -/
def openCalls (OpenFile : List Char → Except GoError openedFile)
    (fixedName : List Char) (startTs endTs : Nat) : List (List Char) → List (List Char)
  | [] => []
  | f :: files =>
    match shouldOpen startTs endTs f fixedName with
    | .ok true =>
      match OpenFile f with
      | .error _ => [f]
      | .ok _ => f :: openCalls OpenFile fixedName startTs endTs files
    | _ => openCalls OpenFile fixedName startTs endTs files

/-- The operations of `openSelectedFiles`: the listing and the files opened. -/
def openOps (env : Env) (fixedName : List Char) (startTs endTs : Nat) : List FileOp :=
  match env.ReadDir with
  | .error _ => [.ReadDir]
  | .ok files => .ReadDir :: (openCalls env.OpenFile fixedName startTs endTs files).map .OpenFile

/-- The function `newReader` for the configuration `s3Storage`, `fileType`,
`startTs`, `endTs`: the opened files, or the text with which `log.Panic`
stops it, and the operations made. -/
def newReader (env : Env) (s3Storage : Bool) (fileType : List Char) (startTs endTs : Nat) :
    Except String (List openedFile) × List FileOp :=
  let opened : Except String (List openedFile) × List FileOp :=
    match openSelectedFiles env.ReadDir env.OpenFile fileType startTs endTs with
    | .error _ => (.error "openSelectedFiles fail", openOps env fileType startTs endTs)
    | .ok rr => (.ok rr, openOps env fileType startTs endTs)
  if s3Storage then
    match env.InitS3storage with
    | .error _ => (.error "initS3storage fail", [])
    | .ok s3storage =>
      match downLoadToLocal env s3storage fileType with
      | some _ => (.error "downLoadToLocal fail", [.Download fileType])
      | none => (opened.1, .Download fileType :: opened.2)
  else opened

/-- The method `LogReader.setUpRowReader`. -/
def LogReader.setUpRowReader (env : Env) (l : LogReader) (startTs endTs : Nat) : CallResult :=
  let closeOps := (List.range l.rowReader.length).map FileOp.CloseRow
  match l.closeRowReader with
  | some err => { l := l, ops := closeOps, ending := .returned (some err) }
  | none =>
    match newReader env l.cfg.S3Storage DefaultRowLogFileName startTs endTs with
    | (.error text, ops) => { l := l, ops := closeOps ++ ops, ending := .panicked text }
    | (.ok rr, ops) =>
      { l := { l with
            rowReader := rr.map (fun f => f.reads)
            rowCloser := rr.map (fun f => f.closeErr)
            rowHeap := []
            cfg := { l.cfg with startTs := startTs, endTs := endTs } }
        ops := closeOps ++ ops
        ending := .returned none }

/-- The method `LogReader.setUpDDLReader`. -/
def LogReader.setUpDDLReader (env : Env) (l : LogReader) (startTs endTs : Nat) : CallResult :=
  let closeOps := (List.range l.ddlReader.length).map FileOp.CloseDDL
  match l.closeDDLReader with
  | some err => { l := l, ops := closeOps, ending := .returned (some err) }
  | none =>
    match newReader env l.cfg.S3Storage DefaultDDLLogFileName startTs endTs with
    | (.error text, ops) => { l := l, ops := closeOps ++ ops, ending := .panicked text }
    | (.ok rr, ops) =>
      { l := { l with
            ddlReader := rr.map (fun f => f.reads)
            ddlCloser := rr.map (fun f => f.closeErr)
            ddlHeap := []
            cfg := { l.cfg with startTs := startTs, endTs := endTs } }
        ops := closeOps ++ ops
        ending := .returned none }

/-- The method `LogReader.setUpReader`: both set-ups run, whether or not the
first returns an error, and their errors are combined. -/
def LogReader.setUpReader (env : Env) (l : LogReader) (startTs endTs : Nat) : CallResult :=
  let row := l.setUpRowReader env startTs endTs
  match row.ending with
  | .panicked text => { l := row.l, ops := row.ops, ending := .panicked text }
  | .returned rowErr =>
    let ddl := row.l.setUpDDLReader env startTs endTs
    match ddl.ending with
    | .panicked text => { l := ddl.l, ops := row.ops ++ ddl.ops, ending := .panicked text }
    | .returned ddlErr =>
      { l := ddl.l, ops := row.ops ++ ddl.ops
        ending := .returned (multierrAppend (multierrAppend none rowErr) ddlErr) }

/-- The method `LogReader.ReadMeta`; `ctxDone` says whether the context is
cancelled when the call starts.  Returns the state, the operations made and
`(checkpointTs, resolvedTs)` or the error. -/
def LogReader.ReadMeta (env : Env) (ctxDone : Bool) (l : LogReader) :
    LogReader × List FileOp × Except GoError (Nat × Nat) :=
  if ctxDone then (l, [], .error .ctxErr)
  else
    match l.meta with
    | some m => (l, [], .ok (m.CheckPointTs, m.ResolvedTs))
    | none =>
      match env.ReadDir with
      | .error err =>
        (l, [.ReadDir], .error (.ErrRedoFileOp (.annotated err "can't read log file directory")))
      | .ok files =>
        match files.find? (fun f => decide (filepathExt f = MetaEXT)) with
        | none => (l, [.ReadDir], .error (.msg "no redo meta file found in dir"))
        | some f =>
          match env.ReadFile f with
          | .error err => (l, [.ReadDir, .ReadFile f], .error (.ErrRedoFileOp err))
          | .ok fileData =>
            match env.UnmarshalMsg fileData with
            | (m, some err) =>
              ({ l with meta := some m }, [.ReadDir, .ReadFile f], .error (.ErrRedoFileOp err))
            | (m, none) =>
              ({ l with meta := some m }, [.ReadDir, .ReadFile f],
                .ok (m.CheckPointTs, m.ResolvedTs))

/-- The second half of `ResetReader`, once `l.meta` is set: the check of the
window against the meta, then `setUpReader`.  `ops` are the operations made
before. -/
def LogReader.checkAndSetUp (env : Env) (l : LogReader) (ops : List FileOp)
    (startTs endTs : Nat) : CallResult :=
  match l.meta with
  | none => { l := l, ops := ops, ending := .panicked "nil pointer dereference" }
  | some m =>
    if startTs > m.ResolvedTs ∨ endTs ≤ m.CheckPointTs then
      { l := l, ops := ops, ending := .returned (some (.boundary m.CheckPointTs m.ResolvedTs)) }
    else
      let r := l.setUpReader env startTs endTs
      { l := r.l, ops := ops ++ r.ops, ending := r.ending }

/-- The method `LogReader.ResetReader`; `ctxDone` says whether the context is
cancelled when the call starts. -/
def LogReader.ResetReader (env : Env) (ctxDone : Bool) (l : LogReader) (startTs endTs : Nat) :
    CallResult :=
  if ctxDone then { l := l, ops := [], ending := .returned (some .ctxErr) }
  else
    match l.meta with
    | none =>
      match l.ReadMeta env false with
      | (l1, ops, .error err) => { l := l1, ops := ops, ending := .returned (some err) }
      | (l1, ops, .ok _) => l1.checkAndSetUp env ops startTs endTs
    | some _ => l.checkAndSetUp env [] startTs endTs

/-- A directory with the row files of commit timestamps 120 and 300, a DDL
file of commit timestamp 130 and a meta file; every file holds no record and
closes without error. -/
def sampleEnv : Env :=
  { ReadDir := .ok ["cap_cf_1_ddl_130.log".toList, "cap_cf_1_row_120.log".toList,
      "cap_cf_1_row_300.log".toList, "cap_cf_meta.meta".toList]
    ReadFile := fun _ => .ok []
    OpenFile := fun _ => .ok { reads := [], closeErr := none }
    WriteFile := fun _ => none
    InitS3storage := .error (.other 1)
    UnmarshalMsg := fun _ => ({ CheckPointTs := 100, ResolvedTs := 200 }, none) }

/-- A `LogReader` without readers whose cached meta is
`(checkpointTs, resolvedTs) = (100, 200)`. -/
def sampleReader : LogReader :=
  { cfg := { startTs := 0, endTs := 0 }
    rowReader := [], ddlReader := [], rowHeap := [], ddlHeap := []
    meta := some { CheckPointTs := 100, ResolvedTs := 200 } }

/-- A `LogReader` with the cached meta `(100, 200)`, the recorded window
`(110, 190]`, one open row reader, one open DDL reader and a primed row
heap. -/
def busyReader : LogReader :=
  { cfg := { startTs := 110, endTs := 190 }
    rowReader := [fileOf [rowLog 150 0]]
    ddlReader := [fileOf [ddlLog 130 0]]
    rowHeap := [{ idx := 0, data := rowLog 120 0 }]
    ddlHeap := []
    meta := some { CheckPointTs := 100, ResolvedTs := 200 }
    rowCloser := [none]
    ddlCloser := [some (.other 3)] }

/-! ## Sequences of calls, `Close`, and the black-hole reader -/

/-- A call on a `LogReader`, with the surroundings it runs in and whether its
context is cancelled when it starts. -/
inductive FacadeCall where
  | Reset (env : Env) (ctxDone : Bool) (startTs endTs : Nat)
  | NextLog (ctxDone : Bool) (maxNumberOfEvents : Nat)
  | NextDDL (ctxDone : Bool) (maxNumberOfEvents : Nat)
  | Meta (env : Env) (ctxDone : Bool)

/-- The `LogReader` after a sequence of calls. -/
def runFacade : LogReader → List FacadeCall → LogReader
  | l, [] => l
  | l, .Reset env c s e :: cs => runFacade (l.ResetReader env c s e).l cs
  | l, .NextLog c n :: cs => runFacade (ReadNextLog c l n).1 cs
  | l, .NextDDL c n :: cs => runFacade (ReadNextDDL c l n).1 cs
  | l, .Meta env c :: cs => runFacade (l.ReadMeta env c).1 cs

/-- The `Close` calls that the loop of `closeRowReader` (or `closeDDLReader`)
makes on the readers `i`, `i + 1`, ... (`n` of them are left), one in each
iteration. -/
def closeTrace (mk : Nat → FileOp) : Nat → Nat → List FileOp
  | 0, _ => []
  | n + 1, i => mk i :: closeTrace mk n (i + 1)

/-- The method `LogReader.Close` (`none` is the `nil` receiver): the error
returned and the `Close` calls made on the readers. -/
def LogReader.Close (l : Option LogReader) : Option GoError × List FileOp :=
  match l with
  | none => (none, [])
  | some l =>
    (multierrAppend (multierrAppend none l.closeRowReader) l.closeDDLReader,
      closeTrace FileOp.CloseRow l.rowReader.length 0 ++
        closeTrace FileOp.CloseDDL l.ddlReader.length 0)

/-- The errors that a combination made by `multierr.Append` holds, in order. -/
def GoError.parts : GoError → List GoError
  | .multi left right => left.parts ++ right.parts
  | e => [e]

/-- The errors of an error value, none for `nil`. -/
def errorParts : Option GoError → List GoError
  | none => []
  | some e => e.parts

/-- The errors with which the readers `i`, `i + 1`, ... (`n` of them) fail to
close, each as `reader.Close` returns it. -/
def closeFailures (closers : List (Option GoError)) : Nat → Nat → List GoError
  | 0, _ => []
  | n + 1, i =>
    match closers.getD i none with
    | none => closeFailures closers n (i + 1)
    | some err => .ErrRedoFileOp err :: closeFailures closers n (i + 1)

/-- The struct `BlackholeReader`. -/
structure BlackholeReader where
  deriving DecidableEq, Repr

/-- The method `BlackholeReader.ResetReader`: `return nil`. -/
def BlackholeReader.ResetReader (_br : BlackholeReader) (_ctxDone : Bool)
    (_startTs _endTs : Nat) : Option GoError := none

/-- The method `BlackholeReader.ReadLog`: `return nil, nil`. -/
def BlackholeReader.ReadLog (_br : BlackholeReader) (_ctxDone : Bool)
    (_maxNumberOfMessages : Int) : List RedoRowChangedEvent × Option GoError := ([], none)

/-- The method `BlackholeReader.ReadDDL`: `return nil, nil`. -/
def BlackholeReader.ReadDDL (_br : BlackholeReader) (_ctxDone : Bool)
    (_maxNumberOfDDLs : Int) : List RedoDDLEvent × Option GoError := ([], none)

/-- The results of `BlackholeReader.ReadMeta` under the names the method
declares for them, in its order: `(resolvedTs, checkpointTs uint64, err
error)`. -/
structure BlackholeMeta where
  resolvedTs : Nat
  checkpointTs : Nat
  err : Option GoError
  deriving DecidableEq, Repr

/-- The method `BlackholeReader.ReadMeta`: `return 1, 0, nil`, the values of
the declared results `resolvedTs`, `checkpointTs`, `err` in that order. -/
def BlackholeReader.ReadMeta (_br : BlackholeReader) (_ctxDone : Bool) : BlackholeMeta :=
  { resolvedTs := 1, checkpointTs := 0, err := none }

/-- The Go types in the signatures of the methods of the readers:
`context.Context`, `uint64`, `int`, `error`, `[]*model.RedoRowChangedEvent`
and `[]*model.RedoDDLEvent`. -/
inductive GoType where
  | context
  | uint64
  | int
  | err
  | rowEvents
  | ddlEvents
  deriving DecidableEq, Repr

/-- The signature of a method as declared: its name, the types of its
parameters, the types of its results and the names given to the results (the
names play no part in whether a type implements an interface). -/
structure MethodSig where
  name : String
  params : List GoType
  results : List GoType
  resultNames : List String
  deriving DecidableEq, Repr

/-- The methods of the interface `Reader` (`reader.go`, lines 36-49). -/
def ReaderMethods : List MethodSig :=
  [{ name := "ResetReader", params := [.context, .uint64, .uint64], results := [.err],
     resultNames := [] },
   { name := "ReadNextLog", params := [.context, .uint64], results := [.rowEvents, .err],
     resultNames := [] },
   { name := "ReadNextDDL", params := [.context, .uint64], results := [.ddlEvents, .err],
     resultNames := [] },
   { name := "ReadMeta", params := [.context], results := [.uint64, .uint64, .err],
     resultNames := ["checkpointTs", "resolvedTs", "err"] }]

/-- The methods of `*BlackholeReader` (`blackhole_reader.go`, lines 31-49). -/
def BlackholeReaderMethods : List MethodSig :=
  [{ name := "ResetReader", params := [.context, .uint64, .uint64], results := [.err],
     resultNames := [] },
   { name := "ReadLog", params := [.context, .int], results := [.rowEvents, .err],
     resultNames := [] },
   { name := "ReadDDL", params := [.context, .int], results := [.ddlEvents, .err],
     resultNames := [] },
   { name := "ReadMeta", params := [.context], results := [.uint64, .uint64, .err],
     resultNames := ["resolvedTs", "checkpointTs", "err"] }]

/-- Go's rule for a type to implement an interface: the method set of the
type has every method of the interface, with the same name, parameter types
and result types. -/
def implementsInterface (typeMethods interfaceMethods : List MethodSig) : Bool :=
  interfaceMethods.all (fun m =>
    typeMethods.any (fun t =>
      decide (t.name = m.name ∧ t.params = m.params ∧ t.results = m.results)))

/-- The results of `LogReader.ReadMeta` as the three results of the Go
method (`0, 0, err` on an error). -/
def metaResults (res : Except GoError (Nat × Nat)) : Nat × Nat × Option GoError :=
  match res with
  | .ok (checkpointTs, resolvedTs) => (checkpointTs, resolvedTs, none)
  | .error err => (0, 0, some err)

/-- A `LogReader` with the cached meta `(100, 200)` whose row reader fails to
close and whose DDL reader closes. -/
def rowStuckReader : LogReader :=
  { cfg := { startTs := 110, endTs := 190 }
    rowReader := [fileOf [rowLog 150 0]]
    ddlReader := [fileOf [ddlLog 140 0]]
    rowHeap := [{ idx := 0, data := rowLog 120 0 }]
    ddlHeap := [{ idx := 0, data := ddlLog 135 0 }]
    meta := some { CheckPointTs := 100, ResolvedTs := 200 }
    rowCloser := [some (.other 3)]
    ddlCloser := [none] }

/-- A `LogReader` that has not read the meta and has no readers. -/
def freshReader : LogReader :=
  { cfg := { startTs := 0, endTs := 0 }
    rowReader := [], ddlReader := [], rowHeap := [], ddlHeap := [] }

/-- A directory whose meta file is empty: `UnmarshalMsg` fails on it and
leaves the zero values in the struct. -/
def badMetaEnv : Env :=
  { ReadDir := .ok ["cap_cf_1_row_120.log".toList, "cap_cf_meta.meta".toList]
    ReadFile := fun _ => .ok []
    OpenFile := fun _ => .ok { reads := [], closeErr := none }
    WriteFile := fun _ => none
    InitS3storage := .error (.other 1)
    UnmarshalMsg := fun _ => ({ CheckPointTs := 0, ResolvedTs := 0 }, some (.other 9)) }

/-- A directory that cannot be listed. -/
def noDirEnv : Env :=
  { ReadDir := .error (.other 2)
    ReadFile := fun _ => .error (.other 2)
    OpenFile := fun _ => .error (.other 2)
    WriteFile := fun _ => some (.other 2)
    InitS3storage := .error (.other 1)
    UnmarshalMsg := fun _ => ({ CheckPointTs := 7, ResolvedTs := 8 }, none) }

/-! ## The sector loop of `isTornEntry`, with its slice bounds -/

/-- Go's slice expression `data[lo:hi]` on a slice whose capacity is its
length (the `data` of `Read` is made by `make([]byte, n)`): it fails at run
time unless `0 ≤ lo ≤ hi ≤ len(data)`. -/
def sliceOf (data : List UInt8) (lo hi : Int) : Except GoError (List UInt8) :=
  if 0 ≤ lo ∧ lo ≤ hi ∧ hi ≤ (data.length : Int) then
    .ok ((data.drop lo.toNat).take (hi - lo).toNat)
  else .error .indexOutOfRange

/-- The loop of `isTornEntry` that splits `data` on sector boundaries, with
`curOff` an integer as in the source and the slice expression checked.
`fileOff += chunkLen` is an `int64` addition, which wraps around (`curOff`
stays below `len(data)`).  `budget` is the number of iterations allowed: the
result is `none` when the loop has not ended within them, `some (.error _)` when a slice expression
fails and `some (.ok chunks)` when the loop ends. -/
def sectorLoop (data : List UInt8) :
    Nat → Int → Int → List (List UInt8) → Option (Except GoError (List (List UInt8)))
  | 0, _, curOff, chunks =>
    if curOff < (data.length : Int) then none else some (.ok chunks)
  | budget + 1, fileOff, curOff, chunks =>
    if curOff < (data.length : Int) then
      let chunkLen0 : Int := (MinSectorSize : Int) - Int.tmod fileOff (MinSectorSize : Int)
      let chunkLen : Int :=
        if chunkLen0 > (data.length : Int) - curOff then (data.length : Int) - curOff
        else chunkLen0
      match sliceOf data curOff (curOff + chunkLen) with
      | .error err => some (.error err)
      | .ok chunk =>
        sectorLoop data budget (int64Wrap (fileOff + chunkLen)) (curOff + chunkLen)
          (chunks ++ [chunk])
    else some (.ok chunks)

/-! ## The heap operations keep a min-heap -/

theorem less_eq_key {key : logWithIdx → Nat} {Good : logWithIdx → Prop}
    (hk : KeyOrdered key Good) {h : logHeap} (hg : ∀ x ∈ h, Good x) {i j : Nat}
    (hi : i < h.length) (hj : j < h.length) :
    logHeap.Less h i j = decide (keyAt key h i < keyAt key h j) := by
  unfold logHeap.Less keyAt
  rw [List.getElem?_eq_getElem hi, List.getElem?_eq_getElem hj]
  exact hk _ _ (hg _ (List.getElem_mem _))

theorem swap_length (h : logHeap) (i j : Nat) : (logHeap.Swap h i j).length = h.length := by
  unfold logHeap.Swap
  split <;> simp

theorem swap_getElem? {h : logHeap} {i j : Nat} (hi : i < h.length) (hj : j < h.length)
    (m : Nat) :
    (logHeap.Swap h i j)[m]? = if m = j then h[i]? else if m = i then h[j]? else h[m]? := by
  unfold logHeap.Swap
  rw [List.getElem?_eq_getElem hi, List.getElem?_eq_getElem hj]
  simp only [List.getElem?_set, List.length_set]
  by_cases h1 : j = m
  · subst h1; simp [hj]
  · by_cases h2 : i = m
    · subst h2; simp [h1, hi, Ne.symm h1]
    · simp [h1, h2, Ne.symm h1, Ne.symm h2]

theorem keyAt_swap (key : logWithIdx → Nat) {h : logHeap} {i j : Nat} (hi : i < h.length)
    (hj : j < h.length) (m : Nat) :
    keyAt key (logHeap.Swap h i j) m
      = if m = j then keyAt key h i else if m = i then keyAt key h j else keyAt key h m := by
  unfold keyAt
  rw [swap_getElem? hi hj]
  split_ifs <;> rfl

theorem swap_perm {h : logHeap} {i j : Nat} (hi : i < h.length) (hj : j < h.length) :
    (logHeap.Swap h i j).Perm h := by
  rw [List.perm_iff_count]
  intro x
  unfold logHeap.Swap
  rw [List.getElem?_eq_getElem hi, List.getElem?_eq_getElem hj]
  simp only
  rw [List.count_set _ _ _ _ (by simpa using hj), List.count_set _ _ _ _ hi]
  have h1 : (if h[i] == x then 1 else 0) ≤ List.count x h := by
    split
    · rename_i hx
      have : h[i] = x := by simpa using hx
      exact List.count_pos_iff.mpr (this ▸ List.getElem_mem _)
    · omega
  by_cases hij : i = j
  · subst hij
    simp only [List.getElem_set_self]
    omega
  · rw [List.getElem_set_ne hij]
    omega

theorem heapFrom_of_downInv_leaf {key : logWithIdx → Nat} {h : logHeap} {lo i n : Nat}
    (hinv : DownInv key h lo i n)
    (hleaf : ∀ c, c < n → (c = 2 * i + 1 ∨ c = 2 * i + 2) → keyAt key h i ≤ keyAt key h c) :
    HeapFrom key h lo n := by
  intro p c hp hc hpc
  by_cases hpi : p = i
  · subst hpi; exact hleaf c hc hpc
  · exact hinv.1 p c hp hpi hc hpc

theorem heapDown_spec {key : logWithIdx → Nat} {Good : logWithIdx → Prop}
    (hk : KeyOrdered key Good) (lo n : Nat) :
    ∀ (budget : Nat) (h : logHeap) (i : Nat), n ≤ h.length → (∀ x ∈ h, Good x) → lo ≤ i →
      n ≤ budget + i → DownInv key h lo i n →
      HeapFrom key (heapDown budget h i n) lo n ∧ (heapDown budget h i n).Perm h ∧
        ∀ m, n ≤ m → (heapDown budget h i n)[m]? = h[m]? := by
  intro budget
  induction budget with
  | zero =>
    intro h i _ _ _ hb hinv
    refine ⟨heapFrom_of_downInv_leaf hinv ?_, List.Perm.refl _, fun _ _ => rfl⟩
    intro c hc hci
    omega
  | succ b ih =>
    intro h i hn hg hlo hb hinv
    rw [heapDown]
    by_cases h1 : 2 * i + 1 ≥ n
    · rw [if_pos h1]
      refine ⟨heapFrom_of_downInv_leaf hinv ?_, List.Perm.refl _, fun _ _ => rfl⟩
      intro c hc hci
      omega
    · rw [if_neg h1]
      simp only []
      have hi : i < h.length := by omega
      have hj1 : 2 * i + 1 < h.length := by omega
      -- the smaller child
      obtain ⟨j, hjdef, hjc, hjn, hjmin⟩ : ∃ j,
          (if 2 * i + 1 + 1 < n ∧ logHeap.Less h (2 * i + 1 + 1) (2 * i + 1) = true
            then 2 * i + 1 + 1 else 2 * i + 1) = j ∧
          (j = 2 * i + 1 ∨ j = 2 * i + 2) ∧ j < n ∧
          ∀ c, c < n → (c = 2 * i + 1 ∨ c = 2 * i + 2) → keyAt key h j ≤ keyAt key h c := by
        by_cases h2 : 2 * i + 1 + 1 < n ∧ logHeap.Less h (2 * i + 1 + 1) (2 * i + 1) = true
        · refine ⟨2 * i + 1 + 1, by simp [h2], Or.inr rfl, h2.1, ?_⟩
          have hl := h2.2
          rw [less_eq_key hk hg (by omega) hj1] at hl
          have hl' : keyAt key h (2 * i + 1 + 1) < keyAt key h (2 * i + 1) := by simpa using hl
          intro c _ hci
          rcases hci with rfl | rfl
          · omega
          · have e : 2 * i + 1 + 1 = 2 * i + 2 := rfl
            rw [e]
        · refine ⟨2 * i + 1, by simp [h2], Or.inl rfl, by omega, ?_⟩
          intro c hc hci
          rcases hci with rfl | rfl
          · exact Nat.le_refl _
          · have hl : ¬ logHeap.Less h (2 * i + 1 + 1) (2 * i + 1) = true := fun hl => h2 ⟨hc, hl⟩
            rw [less_eq_key hk hg (by omega) hj1] at hl
            have hl' : ¬ keyAt key h (2 * i + 1 + 1) < keyAt key h (2 * i + 1) := by simpa using hl
            have e : 2 * i + 1 + 1 = 2 * i + 2 := rfl
            rw [e] at hl'
            omega
      rw [hjdef]
      have hjl : j < h.length := by omega
      by_cases h3 : logHeap.Less h j i = true
      · rw [if_neg (by simp [h3])]
        have hlt : keyAt key h j < keyAt key h i := by
          rw [less_eq_key hk hg hjl hi] at h3
          simpa using h3
        have hperm := swap_perm hi hjl
        have hinv' : DownInv key (logHeap.Swap h i j) lo j n := by
          constructor
          · intro p c hp hpj hc hpc
            rw [keyAt_swap key hi hjl, keyAt_swap key hi hjl]
            by_cases hpi : p = i
            · subst hpi
              have := hjmin c hc hpc
              split_ifs <;> omega
            · have hcj : c ≠ j := by omega
              have h0 := hinv.1 p c hp hpi hc hpc
              by_cases hci : c = i
              · subst hci
                have := hinv.2 p j hp hpc hjn hjc
                split_ifs <;> omega
              · split_ifs <;> omega
          · intro p c hp hjp hc hcj
            have hpi : p = i := by omega
            subst hpi
            have := hinv.1 j c (by omega) (by omega) hc hcj
            rw [keyAt_swap key hi hjl, keyAt_swap key hi hjl]
            split_ifs <;> omega
        obtain ⟨r1, r2, r3⟩ := ih (logHeap.Swap h i j) j (by rw [swap_length]; exact hn)
          (fun x hx => hg x (hperm.subset hx)) (by omega) (by omega) hinv'
        refine ⟨r1, r2.trans hperm, ?_⟩
        intro m hm
        rw [r3 m hm, swap_getElem? hi hjl]
        have : m ≠ j := by omega
        have : m ≠ i := by omega
        simp [*]
      · rw [if_pos (by simp [h3])]
        refine ⟨heapFrom_of_downInv_leaf hinv ?_, List.Perm.refl _, fun _ _ => rfl⟩
        intro c hc hci
        have hge : ¬ keyAt key h j < keyAt key h i := by
          rw [less_eq_key hk hg hjl hi] at h3
          simpa using h3
        have := hjmin c hc hci
        omega

theorem heapUp_spec {key : logWithIdx → Nat} {Good : logWithIdx → Prop}
    (hk : KeyOrdered key Good) :
    ∀ (budget : Nat) (h : logHeap) (j : Nat), j < h.length → (∀ x ∈ h, Good x) → j ≤ budget →
      UpInv key h j →
      HeapFrom key (heapUp budget h j) 0 h.length ∧ (heapUp budget h j).Perm h := by
  intro budget
  induction budget with
  | zero =>
    intro h j _ _ hb hinv
    refine ⟨?_, List.Perm.refl _⟩
    intro p c _ hc hpc
    exact hinv.1 p c hc (by omega) hpc
  | succ b ih =>
    intro h j hj hg hb hinv
    rw [heapUp]
    show HeapFrom key (if (j - 1) / 2 = j ∨ (!logHeap.Less h j ((j - 1) / 2)) = true then h
      else heapUp b (logHeap.Swap h ((j - 1) / 2) j) ((j - 1) / 2)) 0 h.length ∧
      (if (j - 1) / 2 = j ∨ (!logHeap.Less h j ((j - 1) / 2)) = true then h
      else heapUp b (logHeap.Swap h ((j - 1) / 2) j) ((j - 1) / 2)).Perm h
    have hi : (j - 1) / 2 < h.length := by omega
    by_cases h1 : (j - 1) / 2 = j ∨ (!logHeap.Less h j ((j - 1) / 2)) = true
    · rw [if_pos h1]
      refine ⟨?_, List.Perm.refl _⟩
      intro p c _ hc hpc
      by_cases hcj : c = j
      · subst hcj
        have hp : p = (c - 1) / 2 := by omega
        rcases h1 with h1 | h1
        · omega
        · rw [less_eq_key hk hg hj hi] at h1
          have h1' : ¬ keyAt key h c < keyAt key h ((c - 1) / 2) := by simpa using h1
          rw [hp]
          omega
      · exact hinv.1 p c hc hcj hpc
    · rw [if_neg h1]
      have h2 : (j - 1) / 2 ≠ j := fun e => h1 (Or.inl e)
      have h3 : logHeap.Less h j ((j - 1) / 2) = true := by
        by_contra hn
        exact h1 (Or.inr (by simp [hn]))
      rw [less_eq_key hk hg hj hi] at h3
      have hlt : keyAt key h j < keyAt key h ((j - 1) / 2) := by simpa using h3
      have hjpos : 0 < j := by omega
      have hperm := swap_perm hi hj
      have hinv' : UpInv key (logHeap.Swap h ((j - 1) / 2) j) ((j - 1) / 2) := by
        constructor
        · intro p c hc hci hpc
          rw [swap_length] at hc
          rw [keyAt_swap key hi hj, keyAt_swap key hi hj]
          by_cases hcj : c = j
          · subst hcj
            have hp : p = (c - 1) / 2 := by omega
            subst hp
            split_ifs <;> omega
          · have h0 := hinv.1 p c hc hcj hpc
            by_cases hpj : p = j
            · subst hpj
              have := hinv.2 ((p - 1) / 2) c (by omega) hc hpc
              split_ifs <;> omega
            · by_cases hpi : p = (j - 1) / 2
              · rw [hpi] at h0 ⊢
                split_ifs <;> omega
              · split_ifs
                omega
        · intro p c hip hc hci
          rw [swap_length] at hc
          rw [keyAt_swap key hi hj, keyAt_swap key hi hj]
          have h0 := hinv.1 p ((j - 1) / 2) hi h2 hip
          by_cases hcj : c = j
          · subst hcj
            split_ifs <;> omega
          · have := hinv.1 ((j - 1) / 2) c hc hcj hci
            split_ifs <;> omega
      obtain ⟨r1, r2⟩ := ih (logHeap.Swap h ((j - 1) / 2) j) ((j - 1) / 2)
        (by rw [swap_length]; exact hi) (fun x hx => hg x (hperm.subset hx)) (by omega) hinv'
      rw [swap_length] at r1
      exact ⟨r1, r2.trans hperm⟩

theorem isHeap_root_le {key : logWithIdx → Nat} {h : logHeap} (hh : IsHeap key h) :
    ∀ i, i < h.length → keyAt key h 0 ≤ keyAt key h i := by
  intro i
  induction i using Nat.strong_induction_on with
  | _ i ih =>
    intro hi
    by_cases h0 : i = 0
    · subst h0; exact Nat.le_refl _
    · have h1 := ih ((i - 1) / 2) (by omega) (by omega)
      have h2 := hh ((i - 1) / 2) i (Nat.zero_le _) hi (by omega)
      omega

theorem isHeap_nil (key : logWithIdx → Nat) : IsHeap key [] := by
  intro p c _ hc _
  simp at hc

theorem heapInitLoop_spec {key : logWithIdx → Nat} {Good : logWithIdx → Prop}
    (hk : KeyOrdered key Good) (n : Nat) :
    ∀ (k : Nat) (h : logHeap), n = h.length → (∀ x ∈ h, Good x) → HeapFrom key h k n →
      HeapFrom key (heapInitLoop n k h) 0 n ∧ (heapInitLoop n k h).Perm h := by
  intro k
  induction k with
  | zero =>
    intro h _ _ hh
    exact ⟨hh, List.Perm.refl _⟩
  | succ k ih =>
    intro h hn hg hh
    rw [heapInitLoop]
    have hinv : DownInv key h k k n := by
      constructor
      · intro p c hp hpk hc hpc
        exact hh p c (by omega) hc hpc
      · intro p c hp hkp _ _
        omega
    obtain ⟨r1, r2, _⟩ := heapDown_spec hk k n n h k (by omega) hg (Nat.le_refl _) (by omega) hinv
    obtain ⟨s1, s2⟩ := ih (heapDown n h k n) (by rw [r2.length_eq]; exact hn)
      (fun x hx => hg x (r2.subset hx)) r1
    exact ⟨s1, s2.trans r2⟩

theorem heapInit_spec {key : logWithIdx → Nat} {Good : logWithIdx → Prop}
    (hk : KeyOrdered key Good) (h : logHeap) (hg : ∀ x ∈ h, Good x) :
    IsHeap key (heapInit h) ∧ (heapInit h).Perm h := by
  have hh : HeapFrom key h (h.length / 2) h.length := by
    intro p c hp hc hpc
    omega
  obtain ⟨r1, r2⟩ := heapInitLoop_spec hk h.length (h.length / 2) h rfl hg hh
  refine ⟨?_, r2⟩
  unfold IsHeap heapInit logHeap.Len
  rw [r2.length_eq]
  exact r1

theorem keyAt_append_left (key : logWithIdx → Nat) (h : logHeap) (x : logWithIdx) {i : Nat}
    (hi : i < h.length) : keyAt key (h ++ [x]) i = keyAt key h i := by
  unfold keyAt
  rw [List.getElem?_append_left hi]

theorem heapPush_spec {key : logWithIdx → Nat} {Good : logWithIdx → Prop}
    (hk : KeyOrdered key Good) (h : logHeap) (x : logWithIdx) (hg : ∀ y ∈ h, Good y)
    (hx : Good x) (hh : IsHeap key h) :
    IsHeap key (heapPush h x) ∧ (heapPush h x).Perm (x :: h) := by
  have hinv : UpInv key (h ++ [x]) h.length := by
    constructor
    · intro p c hc hcn hpc
      have hc' : c < h.length := by
        simp at hc
        omega
      rw [keyAt_append_left key h x hc', keyAt_append_left key h x (by omega)]
      exact hh p c (Nat.zero_le _) hc' hpc
    · intro p c _ hc hcj
      simp at hc
      omega
  have hg' : ∀ y ∈ h ++ [x], Good y := by
    intro y hy
    rcases List.mem_append.mp hy with hy | hy
    · exact hg y hy
    · simp at hy
      subst hy
      exact hx
  obtain ⟨r1, r2⟩ := heapUp_spec hk (h.length + 1) (h ++ [x]) h.length (by simp) hg'
    (by omega) hinv
  have e : heapPush h x = heapUp (h.length + 1) (h ++ [x]) h.length := by
    simp [heapPush, logHeap.Len, logHeap.Push]
  rw [e]
  refine ⟨?_, r2.trans (List.perm_append_singleton x h)⟩
  unfold IsHeap
  rw [r2.length_eq]
  exact r1

theorem heapPop_spec {key : logWithIdx → Nat} {Good : logWithIdx → Prop}
    (hk : KeyOrdered key Good) (h : logHeap) (hg : ∀ y ∈ h, Good y) (hh : IsHeap key h)
    (hne : h ≠ []) :
    ∃ item h1, heapPop h = some (item, h1) ∧ (item :: h1).Perm h ∧ IsHeap key h1 ∧
      ∀ y ∈ h, key item ≤ key y := by
  have hlen : 0 < h.length := List.length_pos.mpr hne
  have hn : h.length - 1 < h.length := by omega
  have hperm := swap_perm hlen hn
  have hinv : DownInv key (logHeap.Swap h 0 (h.length - 1)) 0 0 (h.length - 1) := by
    constructor
    · intro p c _ hp hc hpc
      rw [keyAt_swap key hlen hn, keyAt_swap key hlen hn]
      have := hh p c (Nat.zero_le _) (by omega) hpc
      split_ifs <;> omega
    · intro p c _ hp _ _
      omega
  obtain ⟨r1, r2, r3⟩ := heapDown_spec hk 0 (h.length - 1) (h.length - 1)
    (logHeap.Swap h 0 (h.length - 1)) 0 (by rw [swap_length]; omega)
    (fun x hx => hg x (hperm.subset hx)) (Nat.le_refl _) (by omega) hinv
  have e : heapPop h
      = logHeap.Pop (heapDown (h.length - 1) (logHeap.Swap h 0 (h.length - 1)) 0 (h.length - 1)) := rfl
  generalize heapDown (h.length - 1) (logHeap.Swap h 0 (h.length - 1)) 0 (h.length - 1) = r
    at e r1 r2 r3
  have hrlen : r.length = h.length := by rw [r2.length_eq, swap_length]
  have hlast : r.getLast? = some (h[0]) := by
    rw [List.getLast?_eq_getElem?, hrlen, r3 _ (Nat.le_refl _), swap_getElem? hlen hn]
    simp
  have hpop : logHeap.Pop r = some (h[0], r.dropLast) := by
    unfold logHeap.Pop
    rw [hlast]
  refine ⟨h[0], r.dropLast, by rw [e, hpop], ?_, ?_, ?_⟩
  · have e2 : r.dropLast ++ [h[0]] = r := List.dropLast_append_getLast? _ (by rw [hlast]; rfl)
    have : (h[0] :: r.dropLast).Perm r := by
      rw [← e2]
      simp [List.perm_append_singleton]
      exact (List.perm_append_singleton _ _).symm
    exact this.trans (r2.trans hperm)
  · intro p c _ hc hpc
    have hc' : c < h.length - 1 := by
      simp at hc
      omega
    have k1 : ∀ m, m < h.length - 1 → keyAt key r.dropLast m = keyAt key r m := by
      intro m hm
      unfold keyAt
      rw [List.getElem?_dropLast, if_pos (by omega)]
    rw [k1 c hc', k1 p (by omega)]
    exact r1 p c (Nat.zero_le _) hc' hpc
  · intro y hy
    obtain ⟨m, hm⟩ := List.mem_iff_getElem?.mp hy
    have hml : m < h.length := by
      rcases List.getElem?_eq_some_iff.mp hm with ⟨hml, _⟩
      exact hml
    have := isHeap_root_le hh m hml
    unfold keyAt at this
    rw [hm, List.getElem?_eq_getElem hlen] at this
    exact this

/-! ## One iteration of the delivery loop over sorted readers -/

theorem sortedFrom_mono {Good : RedoLog → Prop} {ts : RedoLog → Nat} {lo lo1 : Nat}
    (hle : lo1 ≤ lo) : ∀ {r : fileReader}, SortedFrom Good ts lo r → SortedFrom Good ts lo1 r
  | [], _ => trivial
  | .ok _ :: _, hr => ⟨hr.1, Nat.le_trans hle hr.2.1, hr.2.2⟩
  | .error _ :: _, hr => hr.elim

theorem sortedFrom_cases {Good : RedoLog → Prop} {ts : RedoLog → Nat} {lo : Nat}
    {r : fileReader} (hr : SortedFrom Good ts lo r) :
    r = [] ∨ ∃ a rest, r = .ok a :: rest ∧ Good a ∧ lo ≤ ts a ∧ SortedFrom Good ts (ts a) rest := by
  match r, hr with
  | [], _ => exact Or.inl rfl
  | .ok a :: rest, hr => exact Or.inr ⟨a, rest, rfl, hr.1, hr.2.1, hr.2.2⟩
  | .error _ :: _, hr => exact hr.elim

theorem readAt_eq {readers : List fileReader} {i : Nat} {r : fileReader}
    (hr : readers[i]? = some r) :
    readAt readers i = some ((fileReader.Read r).1, readers.set i (fileReader.Read r).2) := by
  unfold readAt
  rw [hr]

theorem streamInv_set {Good : RedoLog → Prop} {ts : RedoLog → Nat} {readers : List fileReader}
    {h h1 : logHeap} {i : Nat} {r rest : fileReader} {lo : Nat}
    (hinv : StreamInv Good ts readers h) (hsub : ∀ e ∈ h1, e ∈ h)
    (hh : IsHeap (fun e => ts e.data) h1) (hr : readers[i]? = some r)
    (hrest : SortedFrom Good ts lo rest)
    (hle : ∀ e ∈ h1, e.idx = i → SortedFrom Good ts (ts e.data) r →
      SortedFrom Good ts (ts e.data) rest) :
    StreamInv Good ts (readers.set i rest) h1 := by
  refine ⟨?_, ?_, hh⟩
  · intro r1 hr1
    rcases List.mem_or_eq_of_mem_set hr1 with hr1 | hr1
    · exact hinv.1 r1 hr1
    · rw [hr1]; exact sortedFrom_mono (Nat.zero_le _) hrest
  · intro e he
    obtain ⟨hg, r1, hr1, hs1⟩ := hinv.2.1 e (hsub e he)
    refine ⟨hg, ?_⟩
    by_cases hei : e.idx = i
    · refine ⟨rest, ?_, ?_⟩
      · rw [hei, List.getElem?_set]
        have hlt : i < readers.length := by
          rcases List.getElem?_eq_some_iff.mp hr with ⟨hlt, _⟩
          exact hlt
        simp [hlt]
      · apply hle e he hei
        rw [hei, hr] at hr1
        cases hr1
        exact hs1
    · exact ⟨r1, by rw [List.getElem?_set_ne (Ne.symm hei)]; exact hr1, hs1⟩

theorem deliver_step {Good : RedoLog → Prop} {ts : RedoLog → Nat}
    (hk : KeyOrdered (fun e => ts e.data) (fun e => Good e.data))
    {readers : List fileReader} {h : logHeap} (hinv : StreamInv Good ts readers h)
    (hne : h ≠ []) :
    ∃ item h1 r, heapPop h = some (item, h1) ∧ (item :: h1).Perm h ∧
      (∀ y ∈ h, ts item.data ≤ ts y.data) ∧ StreamInv Good ts readers h1 ∧
      readers[item.idx]? = some r ∧
      ((r = [] ∧ readAt readers item.idx = some (.error .EOF, readers.set item.idx []) ∧
          StreamInv Good ts (readers.set item.idx []) h1) ∨
       (∃ a rest, r = .ok a :: rest ∧
          readAt readers item.idx = some (.ok a, readers.set item.idx rest) ∧
          ts item.data ≤ ts a ∧
          (heapPush h1 { idx := item.idx, data := a }).Perm ({ idx := item.idx, data := a } :: h1) ∧
          StreamInv Good ts (readers.set item.idx rest)
            (heapPush h1 { idx := item.idx, data := a }))) := by
  obtain ⟨item, h1, hpop, hperm, hh1, hmin⟩ :=
    heapPop_spec hk h (fun y hy => (hinv.2.1 y hy).1) hinv.2.2 hne
  have hsub : ∀ e ∈ h1, e ∈ h := fun e he => hperm.subset (List.mem_cons_of_mem _ he)
  have hitem : item ∈ h := hperm.subset (List.mem_cons_self _ _)
  obtain ⟨_, r, hr, hsr⟩ := hinv.2.1 item hitem
  have hinv1 : StreamInv Good ts readers h1 :=
    ⟨hinv.1, fun e he => hinv.2.1 e (hsub e he), hh1⟩
  refine ⟨item, h1, r, hpop, hperm, hmin, hinv1, hr, ?_⟩
  rcases sortedFrom_cases hsr with hnil | ⟨a, rest, hcons, hga, hle, hrest⟩
  · left
    refine ⟨hnil, ?_, ?_⟩
    · rw [readAt_eq hr, hnil]; rfl
    · exact @streamInv_set Good ts readers h h1 item.idx r [] 0 hinv hsub hh1 hr trivial
        (fun _ _ _ _ => trivial)
  · right
    refine ⟨a, rest, hcons, ?_, hle, ?_⟩
    · rw [readAt_eq hr, hcons]; rfl
    · have hset : StreamInv Good ts (readers.set item.idx rest) h1 := by
        refine streamInv_set hinv hsub hh1 hr hrest ?_
        intro e _ _ hs
        rw [hcons] at hs
        exact sortedFrom_mono hs.2.1 hrest
      obtain ⟨p1, p2⟩ := heapPush_spec hk h1 { idx := item.idx, data := a }
        (fun y hy => (hset.2.1 y hy).1) hga hset.2.2
      refine ⟨p2, hset.1, ?_, p1⟩
      intro e he
      rcases List.mem_cons.mp (p2.subset he) with he | he
      · subst he
        refine ⟨hga, rest, ?_, hrest⟩
        have hlt : item.idx < readers.length := by
          rcases List.getElem?_eq_some_iff.mp hr with ⟨hlt, _⟩
          exact hlt
        simp [List.getElem?_set, hlt]
      · exact hset.2.1 e he

/-! ## A batch is sorted -/

theorem deliverLoop_sorted {β : Type} (sel : RedoLog → β) (tsb : β → Nat)
    {Good : RedoLog → Prop}
    (hk : KeyOrdered (fun e => tsb (sel e.data)) (fun e => Good e.data))
    (startTs maxNumberOfEvents : Nat) :
    ∀ (budget : Nat) (readers : List fileReader) (h : logHeap) (ret : List β) (i : Nat),
      StreamInv Good (fun r => tsb (sel r)) readers h →
      ret.Pairwise (fun x y => tsb x ≤ tsb y) →
      (∀ x ∈ ret, ∀ e ∈ h, tsb x ≤ tsb (sel e.data)) →
      ∃ out,
        (deliverLoop sel tsb startTs maxNumberOfEvents budget readers h ret i).ret = .ok out ∧
        out.Pairwise (fun x y => tsb x ≤ tsb y) ∧
        StreamInv Good (fun r => tsb (sel r))
          (deliverLoop sel tsb startTs maxNumberOfEvents budget readers h ret i).readers
          (deliverLoop sel tsb startTs maxNumberOfEvents budget readers h ret i).heap := by
  intro budget
  induction budget with
  | zero =>
    intro readers h ret i hinv hret _
    exact ⟨ret, rfl, hret, hinv⟩
  | succ b ih =>
    intro readers h ret i hinv hret hbound
    rw [deliverLoop]
    by_cases hc : logHeap.Len h ≠ 0 ∧ i < maxNumberOfEvents
    · rw [if_pos hc]
      have hne : h ≠ [] := by
        intro e
        rw [e] at hc
        exact hc.1 rfl
      obtain ⟨item, h1, r, hpop, hperm, hmin, hinv1, _, hcase⟩ := deliver_step hk hinv hne
      have hsub : ∀ e ∈ h1, e ∈ h := fun e he => hperm.subset (List.mem_cons_of_mem _ he)
      have hitem : item ∈ h := hperm.subset (List.mem_cons_self _ _)
      rw [hpop]
      simp only []
      by_cases hd : tsb (sel item.data) ≤ startTs
      · rw [if_pos hd]
        exact ih readers h1 ret i hinv1 hret (fun x hx e he => hbound x hx e (hsub e he))
      · rw [if_neg hd]
        have hret1 : (ret ++ [sel item.data]).Pairwise (fun x y => tsb x ≤ tsb y) := by
          rw [List.pairwise_append]
          refine ⟨hret, List.pairwise_singleton _ _, ?_⟩
          intro x hx y hy
          simp at hy
          subst hy
          exact hbound x hx item hitem
        rcases hcase with ⟨_, hread, hinv2⟩ | ⟨a, rest, _, hread, hle, hpp, hinv2⟩
        · rw [hread]
          simp only [ne_eq, not_true_eq_false, if_false]
          apply ih _ h1 _ _ hinv2 hret1
          intro x hx e he
          rcases List.mem_append.mp hx with hx | hx
          · exact hbound x hx e (hsub e he)
          · simp at hx
            subst hx
            exact hmin e (hsub e he)
        · rw [hread]
          simp only []
          apply ih _ _ _ _ hinv2 hret1
          intro x hx e he
          have hx1 : tsb x ≤ tsb (sel item.data) := by
            rcases List.mem_append.mp hx with hx | hx
            · exact hbound x hx item hitem
            · simp at hx
              subst hx
              exact Nat.le_refl _
          rcases List.mem_cons.mp (hpp.subset he) with he | he
          · subst he
            exact Nat.le_trans hx1 hle
          · exact Nat.le_trans hx1 (hmin e (hsub e he))
    · rw [if_neg hc]
      exact ⟨ret, rfl, hret, hinv⟩

/-! ## Priming the heap over sorted readers -/

theorem primeLoop_inv {Good : RedoLog → Prop} {ts : RedoLog → Nat} :
    ∀ (k i : Nat) (readers : List fileReader) (h : logHeap), i + k = readers.length →
      (∀ r ∈ readers, SortedFrom Good ts 0 r) →
      (∀ e ∈ h, e.idx < i ∧ Good e.data ∧
        ∃ r, readers[e.idx]? = some r ∧ SortedFrom Good ts (ts e.data) r) →
      ∃ readers1 h1, primeLoop k i readers h = (readers1, h1, none) ∧
        (∀ r ∈ readers1, SortedFrom Good ts 0 r) ∧
        (∀ e ∈ h1, Good e.data ∧
          ∃ r, readers1[e.idx]? = some r ∧ SortedFrom Good ts (ts e.data) r) := by
  intro k
  induction k with
  | zero =>
    intro i readers h _ ha hb
    exact ⟨readers, h, rfl, ha, fun e he => (hb e he).2⟩
  | succ k ih =>
    intro i readers h hlen ha hb
    have hi : i < readers.length := by omega
    have hr : readers[i]? = some readers[i] := List.getElem?_eq_getElem hi
    have hsr : SortedFrom Good ts 0 readers[i] := ha _ (List.getElem_mem _)
    have hset : ∀ rest : fileReader, SortedFrom Good ts 0 rest →
        (∀ r ∈ readers.set i rest, SortedFrom Good ts 0 r) ∧
        (∀ e ∈ h, e.idx < i + 1 ∧ Good e.data ∧
          ∃ r, (readers.set i rest)[e.idx]? = some r ∧ SortedFrom Good ts (ts e.data) r) := by
      intro rest hrest
      constructor
      · intro r1 hr1
        rcases List.mem_or_eq_of_mem_set hr1 with hr1 | hr1
        · exact ha r1 hr1
        · rw [hr1]; exact hrest
      · intro e he
        obtain ⟨h1, h2, r1, h3, h4⟩ := hb e he
        refine ⟨by omega, h2, r1, ?_, h4⟩
        rw [List.getElem?_set_ne (by omega)]
        exact h3
    rw [primeLoop, readAt_eq hr]
    rcases sortedFrom_cases hsr with hnil | ⟨a, rest, hcons, hga, _, hrest⟩
    · rw [hnil]
      simp only [fileReader.Read, ne_eq, not_true_eq_false, if_false]
      obtain ⟨s1, s2⟩ := hset [] trivial
      exact ih (i + 1) _ h (by simp; omega) s1 s2
    · rw [hcons]
      simp only [fileReader.Read]
      obtain ⟨s1, s2⟩ := hset rest (sortedFrom_mono (Nat.zero_le _) hrest)
      refine ih (i + 1) _ _ (by simp; omega) s1 ?_
      intro e he
      rcases List.mem_append.mp he with he | he
      · exact s2 e he
      · simp at he
        subst he
        refine ⟨by simp, hga, rest, ?_, hrest⟩
        simp [List.getElem?_set, hi]

theorem readNext_sorted {β : Type} (sel : RedoLog → β) (tsb : β → Nat)
    {Good : RedoLog → Prop}
    (hk : KeyOrdered (fun e => tsb (sel e.data)) (fun e => Good e.data))
    (startTs maxNumberOfEvents : Nat) (readers : List fileReader) (h : logHeap)
    (hinv : StreamInv Good (fun r => tsb (sel r)) readers h) :
    ∃ out,
      (readNext sel tsb startTs maxNumberOfEvents readers h).ret = .ok out ∧
      out.Pairwise (fun x y => tsb x ≤ tsb y) ∧
      StreamInv Good (fun r => tsb (sel r))
        (readNext sel tsb startTs maxNumberOfEvents readers h).readers
        (readNext sel tsb startTs maxNumberOfEvents readers h).heap := by
  unfold readNext
  by_cases h0 : logHeap.Len h = 0
  · rw [if_pos h0]
    have hnil : h = [] := List.length_eq_zero.mp h0
    subst hnil
    obtain ⟨readers1, h1, hp, ha, hb⟩ := @primeLoop_inv Good
      (fun r => tsb (sel r)) readers.length 0 readers [] (by simp) hinv.1
      (fun e he => by simp at he)
    rw [hp]
    simp only []
    obtain ⟨i1, i2⟩ := heapInit_spec hk h1 (fun e he => (hb e he).1)
    apply deliverLoop_sorted sel tsb hk
    · exact ⟨ha, fun e he => hb e (i2.subset he), i1⟩
    · exact List.Pairwise.nil
    · intro x hx
      simp at hx
  · rw [if_neg h0]
    apply deliverLoop_sorted sel tsb hk _ _ _ _ _ _ _ hinv List.Pairwise.nil
    intro x hx
    simp at hx

/-! ## Batches of a `LogReader` over sorted files -/

theorem keyOrdered_row :
    KeyOrdered (fun e => e.data.Row.Row.CommitTs) (fun e => IsRowLog e.data) := by
  intro a b hg
  unfold lessEntry
  exact if_neg hg

theorem keyOrdered_ddl :
    KeyOrdered (fun e => e.data.DDL.DDL.CommitTs) (fun e => IsDDLLog e.data) := by
  intro a b hg
  unfold lessEntry
  exact if_pos hg

theorem sortedFrom_fileOf {Good : RedoLog → Prop} {ts : RedoLog → Nat} :
    ∀ (recs : List RedoLog) (lo : Nat), (∀ a ∈ recs, Good a) →
      recs.Pairwise (fun a b => ts a ≤ ts b) → (∀ a ∈ recs, lo ≤ ts a) →
      SortedFrom Good ts lo (fileOf recs)
  | [], _, _, _, _ => trivial
  | a :: rest, _, hg, hp, hlo =>
    ⟨hg a (List.mem_cons_self _ _), hlo a (List.mem_cons_self _ _),
      sortedFrom_fileOf rest (ts a) (fun x hx => hg x (List.mem_cons_of_mem _ hx))
        (List.Pairwise.of_cons hp) (fun _ hx => List.rel_of_pairwise_cons hp hx)⟩

theorem streamInv_fresh {Good : RedoLog → Prop} {ts : RedoLog → Nat}
    (files : List (List RedoLog))
    (hf : ∀ f ∈ files, (∀ r ∈ f, Good r) ∧ f.Pairwise (fun a b => ts a ≤ ts b)) :
    StreamInv Good ts (files.map fileOf) [] := by
  refine ⟨?_, fun e he => by simp at he, isHeap_nil _⟩
  intro r hr
  obtain ⟨f, hfm, rfl⟩ := List.mem_map.mp hr
  exact sortedFrom_fileOf f 0 (hf f hfm).1 (hf f hfm).2 (fun _ _ => Nat.zero_le _)

theorem facadeInv_afterReset (startTs endTs : Nat) (rowFiles ddlFiles : List (List RedoLog))
    (hrow : ∀ f ∈ rowFiles, SortedRowFile f) (hddl : ∀ f ∈ ddlFiles, SortedDDLFile f) :
    FacadeInv (afterReset startTs endTs rowFiles ddlFiles) :=
  ⟨streamInv_fresh rowFiles hrow, streamInv_fresh ddlFiles hddl⟩

theorem facadeInv_ReadNextLog {l : LogReader} (hl : FacadeInv l) (n : Nat) :
    FacadeInv (ReadNextLog false l n).1 ∧
    ∃ batch, (ReadNextLog false l n).2 = .ok batch ∧
      batch.Pairwise (fun x y => x.Row.CommitTs ≤ y.Row.CommitTs) := by
  obtain ⟨out, h1, h2, h3⟩ := readNext_sorted RedoLog.Row (fun e => e.Row.CommitTs)
    keyOrdered_row l.cfg.startTs n l.rowReader l.rowHeap hl.1
  exact ⟨⟨h3, hl.2⟩, out, h1, h2⟩

theorem facadeInv_ReadNextDDL {l : LogReader} (hl : FacadeInv l) (n : Nat) :
    FacadeInv (ReadNextDDL false l n).1 ∧
    ∃ batch, (ReadNextDDL false l n).2 = .ok batch ∧
      batch.Pairwise (fun x y => x.DDL.CommitTs ≤ y.DDL.CommitTs) := by
  obtain ⟨out, h1, h2, h3⟩ := readNext_sorted RedoLog.DDL (fun e => e.DDL.CommitTs)
    keyOrdered_ddl l.cfg.startTs n l.ddlReader l.ddlHeap hl.2
  exact ⟨⟨hl.1, h3⟩, out, h1, h2⟩

theorem facadeInv_runCalls : ∀ (calls : List Call) (l : LogReader), FacadeInv l →
    FacadeInv (runCalls l calls)
  | [], _, hl => hl
  | .NextLog n :: cs, _, hl => facadeInv_runCalls cs _ (facadeInv_ReadNextLog hl n).1
  | .NextDDL n :: cs, _, hl => facadeInv_runCalls cs _ (facadeInv_ReadNextDDL hl n).1

/-- C1. Over row files (and DDL files) whose records are in non-decreasing
commit timestamp order, after `ResetReader` and any sequence of earlier calls,
one call of `ReadNextLog` (of `ReadNextDDL`) with any cap returns, without
error, a batch that is non-decreasing in `CommitTs`. -/
theorem ReadNext_batch_nondecreasing (startTs endTs : Nat)
    (rowFiles ddlFiles : List (List RedoLog))
    (hrow : ∀ f ∈ rowFiles, SortedRowFile f) (hddl : ∀ f ∈ ddlFiles, SortedDDLFile f)
    (calls : List Call) (maxNumberOfEvents : Nat) :
    (∃ batch,
      (ReadNextLog false (runCalls (afterReset startTs endTs rowFiles ddlFiles) calls)
        maxNumberOfEvents).2 = .ok batch ∧
      batch.Pairwise (fun x y => x.Row.CommitTs ≤ y.Row.CommitTs)) ∧
    (∃ batch,
      (ReadNextDDL false (runCalls (afterReset startTs endTs rowFiles ddlFiles) calls)
        maxNumberOfEvents).2 = .ok batch ∧
      batch.Pairwise (fun x y => x.DDL.CommitTs ≤ y.DDL.CommitTs)) :=
  have hinv := facadeInv_runCalls calls _
    (facadeInv_afterReset startTs endTs rowFiles ddlFiles hrow hddl)
  ⟨(facadeInv_ReadNextLog hinv maxNumberOfEvents).2,
    (facadeInv_ReadNextDDL hinv maxNumberOfEvents).2⟩

/-! ## The window of the events returned -/

theorem deliverLoop_above_start {β : Type} (sel : RedoLog → β) (tsb : β → Nat)
    (startTs maxNumberOfEvents : Nat) :
    ∀ (budget : Nat) (readers : List fileReader) (h : logHeap) (ret : List β) (i : Nat),
      (∀ x ∈ ret, startTs < tsb x) →
      ∀ out, (deliverLoop sel tsb startTs maxNumberOfEvents budget readers h ret i).ret = .ok out →
        ∀ x ∈ out, startTs < tsb x := by
  intro budget
  induction budget with
  | zero =>
    intro readers h ret i hret out hout
    simp only [deliverLoop, Except.ok.injEq] at hout
    subst hout
    exact hret
  | succ b ih =>
    intro readers h ret i hret out hout
    rw [deliverLoop] at hout
    split at hout
    · split at hout
      · simp at hout
      · split at hout
        · exact ih _ _ _ _ hret out hout
        · rename_i item h1 _ hd
          have hret1 : ∀ x ∈ ret ++ [sel item.data], startTs < tsb x := by
            intro x hx
            rcases List.mem_append.mp hx with hx | hx
            · exact hret x hx
            · simp at hx
              subst hx
              omega
          split at hout
          · simp at hout
          · split at hout
            · simp at hout
            · exact ih _ _ _ _ hret1 out hout
          · exact ih _ _ _ _ hret1 out hout
    · simp only [Except.ok.injEq] at hout
      subst hout
      exact hret

theorem readNext_above_start {β : Type} (sel : RedoLog → β) (tsb : β → Nat)
    (startTs maxNumberOfEvents : Nat) (readers : List fileReader) (h : logHeap)
    (out : List β) (hout : (readNext sel tsb startTs maxNumberOfEvents readers h).ret = .ok out) :
    ∀ x ∈ out, startTs < tsb x := by
  unfold readNext at hout
  split at hout
  · split at hout
    · simp at hout
    · exact deliverLoop_above_start sel tsb startTs maxNumberOfEvents _ _ _ _ _
        (fun x hx => by simp at hx) out hout
  · exact deliverLoop_above_start sel tsb startTs maxNumberOfEvents _ _ _ _ _
      (fun x hx => by simp at hx) out hout

/-! ## Batches across calls, dropped records, ties and errors -/

/-- C1, at the two files of the scenarios, after a first call with cap 3. -/
theorem ReadNext_batch_nondecreasing_witness :
    (∃ batch,
      (ReadNextLog false (runCalls (afterReset 0 100 [fileA, fileB] [[ddlLog 7 0, ddlLog 9 0]])
        [Call.NextLog 3]) 10).2 = .ok batch ∧
      batch.Pairwise (fun x y => x.Row.CommitTs ≤ y.Row.CommitTs)) ∧
    (∃ batch,
      (ReadNextDDL false (runCalls (afterReset 0 100 [fileA, fileB] [[ddlLog 7 0, ddlLog 9 0]])
        [Call.NextLog 3]) 10).2 = .ok batch ∧
      batch.Pairwise (fun x y => x.DDL.CommitTs ≤ y.DDL.CommitTs)) :=
  ReadNext_batch_nondecreasing 0 100 [fileA, fileB] [[ddlLog 7 0, ddlLog 9 0]]
    (by simp [SortedRowFile, IsRowLog, rowLog, fileA, fileB])
    (by simp [SortedDDLFile, IsDDLLog, ddlLog]) [Call.NextLog 3] 10

/-- C2. With the row files 5, 20, 40 and 30, 50 and `startTs = 15`, the first
call of `ReadNextLog` returns the commit timestamps 30, 50 and the second call
returns 20, 40: the record 5 is dropped without its reader being read again,
so that 20 and 40 are only found when the emptied heap is primed anew. -/
theorem ReadNextLog_calls_not_monotone :
    (ReadNextLog false (afterReset 15 100 [fileA, fileC] []) 10).2
      = .ok [rowEvent 30 0, rowEvent 50 0] ∧
    (ReadNextLog false (ReadNextLog false (afterReset 15 100 [fileA, fileC] []) 10).1 10).2
      = .ok [rowEvent 20 0, rowEvent 40 0] :=
  ⟨rfl, rfl⟩

/-- C3. With the row files 5, 20, 40 and 10, 30, 50 and `startTs = 15`, the
first call of `ReadNextLog` returns the empty batch: both heads are dropped and
neither reader is read again in that call.  Only a further call returns 20,
30, 40, 50. -/
theorem ReadNextLog_first_batch_empty :
    (ReadNextLog false (afterReset 15 35 [fileA, fileB] []) 10).2 = .ok [] ∧
    (ReadNextLog false (ReadNextLog false (afterReset 15 35 [fileA, fileB] []) 10).1 10).2
      = .ok [rowEvent 20 0, rowEvent 30 0, rowEvent 40 0, rowEvent 50 0] :=
  ⟨rfl, rfl⟩

/-- C4, as stated, fails: after `ResetReader(0, 10)` a row file that holds a
record with the commit timestamp 50 yields that record, above `endTs`. -/
theorem ReadNextLog_above_endTs :
    ¬ (∀ evs, (ReadNextLog false (afterReset 0 10 [[rowLog 50 0]] []) 10).2 = .ok evs →
        ∀ e ∈ evs, 0 < e.Row.CommitTs ∧ e.Row.CommitTs ≤ 10) := by
  intro hall
  have h := hall [rowEvent 50 0] rfl (rowEvent 50 0) (List.mem_singleton.mpr rfl)
  exact absurd h.2 (by decide)

/-- C4, amended. Every event that `ReadNextLog` or `ReadNextDDL` returns, in
any state of the `LogReader` and whatever the file readers hold, has a commit
timestamp above the `startTs` recorded by `ResetReader`. -/
theorem ReadNext_events_above_startTs (ctxDone : Bool) (l : LogReader)
    (maxNumberOfEvents : Nat) :
    (∀ evs, (ReadNextLog ctxDone l maxNumberOfEvents).2 = .ok evs →
      ∀ e ∈ evs, l.cfg.startTs < e.Row.CommitTs) ∧
    (∀ evs, (ReadNextDDL ctxDone l maxNumberOfEvents).2 = .ok evs →
      ∀ e ∈ evs, l.cfg.startTs < e.DDL.CommitTs) := by
  constructor
  · intro evs hevs
    unfold ReadNextLog at hevs
    split at hevs
    · simp at hevs
    · exact readNext_above_start RedoLog.Row (fun e => e.Row.CommitTs) _ _ _ _ evs hevs
  · intro evs hevs
    unfold ReadNextDDL at hevs
    split at hevs
    · simp at hevs
    · exact readNext_above_start RedoLog.DDL (fun e => e.DDL.CommitTs) _ _ _ _ evs hevs

/-- C4, amended, at the files of the scenarios with the window (15, 35]: the
second call returns 20, 30, 40, 50, all above 15. -/
theorem ReadNext_events_above_startTs_witness :
    ∀ e ∈ [rowEvent 20 0, rowEvent 30 0, rowEvent 40 0, rowEvent 50 0],
      (ReadNextLog false (afterReset 15 35 [fileA, fileB] []) 10).1.cfg.startTs < e.Row.CommitTs :=
  (ReadNext_events_above_startTs false
    (ReadNextLog false (afterReset 15 35 [fileA, fileB] []) 10).1 10).1 _ rfl

/-- C6, as stated, fails: reader 0 holds the commit timestamps 1, 5 and reader
1 holds 5, every record carrying the index of its reader as `body`; the batch
is 1 (reader 0), 5 (reader 1), 5 (reader 0), which is not sorted by
(commit timestamp, reader index). -/
theorem ReadNextLog_tie_not_by_index :
    (ReadNextLog false (afterReset 0 100 [[rowLog 1 0, rowLog 5 0], [rowLog 5 1]] []) 10).2
      = .ok [rowEvent 1 0, rowEvent 5 1, rowEvent 5 0] ∧
    ¬ [rowEvent 1 0, rowEvent 5 1, rowEvent 5 0].Pairwise
        (fun x y => x.Row.CommitTs < y.Row.CommitTs ∨
          (x.Row.CommitTs = y.Row.CommitTs ∧ x.Row.body ≤ y.Row.body)) :=
  ⟨rfl, by decide⟩

/-- C6, amended. The heap compares commit timestamps only, never the reader
index of an entry; over sorted files every batch of `ReadNextLog` (of
`ReadNextDDL`) is sorted by commit timestamp, ties in no particular order of
the readers. -/
theorem ReadNext_batch_sorted_by_commitTs_only (startTs endTs : Nat)
    (rowFiles ddlFiles : List (List RedoLog))
    (hrow : ∀ f ∈ rowFiles, SortedRowFile f) (hddl : ∀ f ∈ ddlFiles, SortedDDLFile f)
    (calls : List Call) (maxNumberOfEvents : Nat) :
    (∀ (a b : RedoLog) (i j i1 j1 : Nat),
      lessEntry { idx := i, data := a } { idx := j, data := b }
        = lessEntry { idx := i1, data := a } { idx := j1, data := b }) ∧
    (∃ batch,
      (ReadNextLog false (runCalls (afterReset startTs endTs rowFiles ddlFiles) calls)
        maxNumberOfEvents).2 = .ok batch ∧
      batch.Pairwise (fun x y => x.Row.CommitTs ≤ y.Row.CommitTs)) ∧
    (∃ batch,
      (ReadNextDDL false (runCalls (afterReset startTs endTs rowFiles ddlFiles) calls)
        maxNumberOfEvents).2 = .ok batch ∧
      batch.Pairwise (fun x y => x.DDL.CommitTs ≤ y.DDL.CommitTs)) :=
  have hinv := facadeInv_runCalls calls _
    (facadeInv_afterReset startTs endTs rowFiles ddlFiles hrow hddl)
  ⟨fun _ _ _ _ _ _ => rfl, (facadeInv_ReadNextLog hinv maxNumberOfEvents).2,
    (facadeInv_ReadNextDDL hinv maxNumberOfEvents).2⟩

/-- C6, amended, at two readers with a tie at the commit timestamp 5. -/
theorem ReadNext_batch_sorted_by_commitTs_only_witness :
    (∀ (a b : RedoLog) (i j i1 j1 : Nat),
      lessEntry { idx := i, data := a } { idx := j, data := b }
        = lessEntry { idx := i1, data := a } { idx := j1, data := b }) ∧
    (∃ batch,
      (ReadNextLog false (runCalls (afterReset 0 100 [[rowLog 1 0, rowLog 5 0], [rowLog 5 1]]
        [[ddlLog 3 0]]) []) 10).2 = .ok batch ∧
      batch.Pairwise (fun x y => x.Row.CommitTs ≤ y.Row.CommitTs)) ∧
    (∃ batch,
      (ReadNextDDL false (runCalls (afterReset 0 100 [[rowLog 1 0, rowLog 5 0], [rowLog 5 1]]
        [[ddlLog 3 0]]) []) 10).2 = .ok batch ∧
      batch.Pairwise (fun x y => x.DDL.CommitTs ≤ y.DDL.CommitTs)) :=
  ReadNext_batch_sorted_by_commitTs_only 0 100 [[rowLog 1 0, rowLog 5 0], [rowLog 5 1]]
    [[ddlLog 3 0]] (by simp [SortedRowFile, IsRowLog, rowLog])
    (by simp [SortedDDLFile, IsDDLLog, ddlLog]) [] 10

/-! ## A reader error ends the call -/

theorem primeLoop_fails (i : Nat) (e : GoError) (rest : fileReader) (he : e ≠ .EOF) :
    ∀ (k i0 : Nat) (readers : List fileReader) (h : logHeap), i0 ≤ i → i < i0 + k →
      readers[i]? = some (.error e :: rest) →
      (∀ j r, i0 ≤ j → j < i → readers[j]? = some r → NextReadOk r) →
      ∃ readers1 h1, primeLoop k i0 readers h = (readers1, h1, some e) := by
  intro k
  induction k with
  | zero =>
    intro i0 readers h h1 h2 _ _
    omega
  | succ k ih =>
    intro i0 readers h h1 h2 hi hok
    have hil : i < readers.length := by
      rcases List.getElem?_eq_some_iff.mp hi with ⟨hil, _⟩
      exact hil
    rw [primeLoop]
    by_cases h0 : i0 = i
    · subst h0
      rw [readAt_eq hi]
      simp only [fileReader.Read, ne_eq, he, not_false_eq_true, if_true]
      exact ⟨_, _, rfl⟩
    · have hlt : i0 < readers.length := by omega
      have hr : readers[i0]? = some readers[i0] := List.getElem?_eq_getElem hlt
      have hkeep : ∀ (r1 : fileReader),
          (readers.set i0 r1)[i]? = some (.error e :: rest) ∧
          ∀ j r, i0 + 1 ≤ j → j < i → (readers.set i0 r1)[j]? = some r → NextReadOk r := by
        intro r1
        constructor
        · rw [List.getElem?_set_ne h0]; exact hi
        · intro j r hj1 hj2 hjr
          rw [List.getElem?_set_ne (by omega)] at hjr
          exact hok j r (by omega) hj2 hjr
      rw [readAt_eq hr]
      have hok0 := hok i0 readers[i0] (Nat.le_refl _) (by omega) hr
      generalize readers[i0] = r0 at hok0
      match r0, hok0 with
      | [], _ =>
        simp only [fileReader.Read, ne_eq, not_true_eq_false, if_false]
        exact ih (i0 + 1) _ h (by omega) (by omega) (hkeep []).1 (hkeep []).2
      | .ok a :: rest0, _ =>
        simp only [fileReader.Read]
        exact ih (i0 + 1) _ _ (by omega) (by omega) (hkeep rest0).1 (hkeep rest0).2
      | .error e2 :: rest0, hok0 =>
        have he2 : e2 = .EOF := hok0 e2 rest0 rfl
        subst he2
        simp only [fileReader.Read, ne_eq, not_true_eq_false, if_false]
        exact ih (i0 + 1) _ h (by omega) (by omega) (hkeep rest0).1 (hkeep rest0).2

theorem readNext_prime_fails {β : Type} (sel : RedoLog → β) (tsb : β → Nat)
    (startTs maxNumberOfEvents : Nat) (readers : List fileReader) (i : Nat) (e : GoError)
    (rest : fileReader) (he : e ≠ .EOF) (hi : readers[i]? = some (.error e :: rest))
    (hok : ∀ j r, j < i → readers[j]? = some r → NextReadOk r) :
    (readNext sel tsb startTs maxNumberOfEvents readers []).ret = .error e := by
  have hil : i < readers.length := by
    rcases List.getElem?_eq_some_iff.mp hi with ⟨hil, _⟩
    exact hil
  obtain ⟨readers1, h1, hp⟩ := primeLoop_fails i e rest he readers.length 0 readers []
    (Nat.zero_le _) (by omega) hi (fun j r _ hj hr => hok j r hj hr)
  unfold readNext
  rw [if_pos (show logHeap.Len [] = 0 from rfl), hp]

theorem deliverLoop_refill_fails {β : Type} (sel : RedoLog → β) (tsb : β → Nat)
    (startTs maxNumberOfEvents budget : Nat) (readers : List fileReader) (h : logHeap)
    (ret : List β) (n : Nat) (item : logWithIdx) (h1 : logHeap) (e : GoError)
    (rest : fileReader) (he : e ≠ .EOF) (hlen : logHeap.Len h ≠ 0)
    (hn : n < maxNumberOfEvents) (hpop : heapPop h = some (item, h1))
    (hwin : startTs < tsb (sel item.data))
    (hr : readers[item.idx]? = some (.error e :: rest)) :
    (deliverLoop sel tsb startTs maxNumberOfEvents (budget + 1) readers h ret n).ret
      = .error e := by
  rw [deliverLoop, if_pos ⟨hlen, hn⟩, hpop]
  simp only []
  rw [if_neg (by omega), readAt_eq hr]
  simp only [fileReader.Read, ne_eq, he, not_false_eq_true, if_true]

theorem readAt_append (done todo : List fileReader) (r : fileReader) :
    readAt (done ++ r :: todo) done.length =
      some ((fileReader.Read r).1, done ++ (fileReader.Read r).2 :: todo) := by
  have hr : (done ++ r :: todo)[done.length]? = some r := by
    rw [List.getElem?_append_right (Nat.le_refl _), Nat.sub_self]
    exact List.getElem?_cons_zero
  rw [readAt_eq hr]
  simp

theorem primeLoop_fails_state (e : GoError) (rest : fileReader) (he : e ≠ .EOF) :
    ∀ (i : Nat) (todo done : List fileReader) (h : logHeap) (k : Nat), i < k →
      todo[i]? = some (.error e :: rest) →
      (∀ j r, j < i → todo[j]? = some r → NextReadOk r) →
      primeLoop k done.length (done ++ todo) h =
        (done ++ readFirst (i + 1) todo, h ++ primedEntries i done.length todo, some e) := by
  intro i
  induction i with
  | zero =>
    intro todo done h k hk hi _
    obtain ⟨k1, rfl⟩ : ∃ k1, k = k1 + 1 := ⟨k - 1, by omega⟩
    cases todo with
    | nil => simp at hi
    | cons r todo1 =>
      have hr : r = .error e :: rest := by simpa using hi
      subst hr
      rw [primeLoop, readAt_append]
      simp only [fileReader.Read, ne_eq, he, not_false_eq_true, if_true]
      simp [readFirst, primedEntries, fileReader.Read]
  | succ i ih =>
    intro todo done h k hk hi hok
    obtain ⟨k1, rfl⟩ : ∃ k1, k = k1 + 1 := ⟨k - 1, by omega⟩
    cases todo with
    | nil => simp at hi
    | cons r todo1 =>
      have hi1 : todo1[i]? = some (.error e :: rest) := by simpa using hi
      have hok1 : ∀ j r1, j < i → todo1[j]? = some r1 → NextReadOk r1 := by
        intro j r1 hj hr1
        exact hok (j + 1) r1 (by omega) (by simpa using hr1)
      have hok0 : NextReadOk r := hok 0 r (by omega) (by simp)
      have hlen : ∀ x : fileReader, (done ++ [x]).length = done.length + 1 := by
        intro x; simp
      rw [primeLoop, readAt_append]
      match r, hok0 with
      | [], _ =>
        simp only [fileReader.Read, ne_eq, not_true_eq_false, if_false]
        have := ih todo1 (done ++ [[]]) h k1 (by omega) hi1 hok1
        rw [hlen, List.append_assoc] at this
        rw [List.singleton_append] at this
        rw [this]
        simp [readFirst, primedEntries, fileReader.Read]
      | .ok a :: rest0, _ =>
        simp only [fileReader.Read]
        have := ih todo1 (done ++ [rest0]) (h ++ [{ idx := done.length, data := a }]) k1
          (by omega) hi1 hok1
        rw [hlen, List.append_assoc] at this
        rw [List.singleton_append] at this
        rw [this]
        simp [readFirst, primedEntries, fileReader.Read]
      | .error e2 :: rest0, hok0 =>
        have he2 : e2 = .EOF := hok0 e2 rest0 rfl
        subst he2
        simp only [fileReader.Read, ne_eq, not_true_eq_false, if_false]
        have := ih todo1 (done ++ [rest0]) h k1 (by omega) hi1 hok1
        rw [hlen, List.append_assoc] at this
        rw [List.singleton_append] at this
        rw [this]
        simp [readFirst, primedEntries, fileReader.Read]

theorem readNext_prime_fails_state {β : Type} (sel : RedoLog → β) (tsb : β → Nat)
    (startTs maxNumberOfEvents : Nat) (readers : List fileReader) (i : Nat) (e : GoError)
    (rest : fileReader) (he : e ≠ .EOF) (hi : readers[i]? = some (.error e :: rest))
    (hok : ∀ j r, j < i → readers[j]? = some r → NextReadOk r) :
    readNext sel tsb startTs maxNumberOfEvents readers [] =
      { readers := readFirst (i + 1) readers, heap := primedEntries i 0 readers,
        ret := .error e } := by
  have hil : i < readers.length := by
    rcases List.getElem?_eq_some_iff.mp hi with ⟨hil, _⟩
    exact hil
  have hp := primeLoop_fails_state e rest he i readers [] [] readers.length hil hi hok
  simp only [List.length_nil, List.nil_append] at hp
  unfold readNext
  rw [if_pos (show logHeap.Len [] = 0 from rfl), hp]

theorem deliverLoop_refill_fails_state {β : Type} (sel : RedoLog → β) (tsb : β → Nat)
    (startTs maxNumberOfEvents budget : Nat) (readers : List fileReader) (h : logHeap)
    (ret : List β) (n : Nat) (item : logWithIdx) (h1 : logHeap) (e : GoError)
    (rest : fileReader) (he : e ≠ .EOF) (hlen : logHeap.Len h ≠ 0)
    (hn : n < maxNumberOfEvents) (hpop : heapPop h = some (item, h1))
    (hwin : startTs < tsb (sel item.data))
    (hr : readers[item.idx]? = some (.error e :: rest)) :
    deliverLoop sel tsb startTs maxNumberOfEvents (budget + 1) readers h ret n =
      { readers := readers.set item.idx rest, heap := h1, ret := .error e } := by
  rw [deliverLoop, if_pos ⟨hlen, hn⟩, hpop]
  simp only []
  rw [if_neg (by omega), readAt_eq hr]
  simp only [fileReader.Read, ne_eq, he, not_false_eq_true, if_true]

/-- C7, as stated, fails: the second row reader fails while the heap is
primed; the call returns the error, and the heap, empty before the call, now
holds the record read from the first reader. -/
theorem ReadNextLog_error_changes_heap :
    (ReadNextLog false failingReader 10).2 = .error (.other 1) ∧
    (ReadNextLog false failingReader 10).1.rowHeap ≠ failingReader.rowHeap :=
  ⟨rfl, by decide⟩

/-- C7, amended. A non-EOF error of a file reader ends the call with that
error and without events, and nothing is restored.  When the heap is primed
(the heap is empty and reader `i` is the first one whose `Read` fails), for
`ReadNextLog` and for `ReadNextDDL`: the heap holds the entries appended for
the readers before `i` that returned a record, the readers `0..i` are each one
`Read` further (reader `i` past its error), and the rest of the `LogReader` is
as before.  At every iteration of the delivery loop of either stream whose
refill `Read` fails: the popped entry stays popped (the heap is the one after
the pop), the failing reader is past its error, and the events collected by
the call are not returned. -/
theorem ReadNext_reader_error_ends_call (l : LogReader) (maxNumberOfEvents i : Nat)
    (e : GoError) (rest : fileReader) (he : e ≠ .EOF) :
    (l.rowHeap = [] → l.rowReader[i]? = some (.error e :: rest) →
      (∀ j r, j < i → l.rowReader[j]? = some r → NextReadOk r) →
      (ReadNextLog false l maxNumberOfEvents).2 = .error e ∧
      (ReadNextLog false l maxNumberOfEvents).1 =
        { l with rowReader := readFirst (i + 1) l.rowReader
                 rowHeap := primedEntries i 0 l.rowReader }) ∧
    (l.ddlHeap = [] → l.ddlReader[i]? = some (.error e :: rest) →
      (∀ j r, j < i → l.ddlReader[j]? = some r → NextReadOk r) →
      (ReadNextDDL false l maxNumberOfEvents).2 = .error e ∧
      (ReadNextDDL false l maxNumberOfEvents).1 =
        { l with ddlReader := readFirst (i + 1) l.ddlReader
                 ddlHeap := primedEntries i 0 l.ddlReader }) ∧
    (∀ (β : Type) (sel : RedoLog → β) (tsb : β → Nat) (startTs budget : Nat)
      (readers : List fileReader) (h : logHeap) (ret : List β) (n : Nat) (item : logWithIdx)
      (h1 : logHeap), logHeap.Len h ≠ 0 → n < maxNumberOfEvents →
      heapPop h = some (item, h1) → startTs < tsb (sel item.data) →
      readers[item.idx]? = some (.error e :: rest) →
      deliverLoop sel tsb startTs maxNumberOfEvents (budget + 1) readers h ret n =
        { readers := readers.set item.idx rest, heap := h1, ret := .error e }) := by
  refine ⟨?_, ?_, ?_⟩
  · intro h0 hi hok
    have hs := readNext_prime_fails_state RedoLog.Row (fun e => e.Row.CommitTs) l.cfg.startTs
      maxNumberOfEvents l.rowReader i e rest he hi hok
    unfold ReadNextLog
    rw [if_neg (by simp), h0, hs]
    exact ⟨rfl, rfl⟩
  · intro h0 hi hok
    have hs := readNext_prime_fails_state RedoLog.DDL (fun e => e.DDL.CommitTs) l.cfg.startTs
      maxNumberOfEvents l.ddlReader i e rest he hi hok
    unfold ReadNextDDL
    rw [if_neg (by simp), h0, hs]
    exact ⟨rfl, rfl⟩
  · intro β sel tsb startTs budget readers h ret n item h1 hlen hn hpop hwin hr
    exact deliverLoop_refill_fails_state sel tsb startTs maxNumberOfEvents budget readers h ret
      n item h1 e rest he hlen hn hpop hwin hr

/-- C7, amended, at a reader that fails while the heap is primed and at a
reader that fails when the loop refills the heap. -/
theorem ReadNext_reader_error_ends_call_witness :
    ((ReadNextLog false failingReader 10).2 = .error (.other 1) ∧
      (ReadNextLog false failingReader 10).1 =
        { failingReader with
          rowReader := [[], []]
          rowHeap := [{ idx := 0, data := rowLog 5 0 }] }) ∧
    deliverLoop RedoLog.Row (fun e => e.Row.CommitTs) 0 10 (0 + 1) [[.error (.other 1)]]
      [{ idx := 0, data := rowLog 5 0 }] [] 0 =
        { readers := [[]], heap := [], ret := .error (.other 1) } :=
  ⟨(ReadNext_reader_error_ends_call failingReader 10 1 (.other 1) [] (by decide)).1 rfl rfl
      (fun j r hj hr => by
        have hj0 : j = 0 := by omega
        subst hj0
        have hr1 : r = fileOf [rowLog 5 0] := by
          simpa [failingReader] using hr.symm
        subst hr1
        intro e rest h
        simp [fileOf] at h),
    (ReadNext_reader_error_ends_call failingReader 10 1 (.other 1) [] (by decide)).2.2
      RedoRowChangedEvent RedoLog.Row (fun e => e.Row.CommitTs) 0 0 [[.error (.other 1)]]
      [{ idx := 0, data := rowLog 5 0 }] [] 0 { idx := 0, data := rowLog 5 0 } []
      (by decide) (by decide) rfl (by decide) rfl⟩

/-! ## Cap and resume -/

theorem flatten_set_perm {α : Type} : ∀ (readers : List (List α)) (i : Nat) (x : α)
    (rest : List α), readers[i]? = some (x :: rest) →
    readers.flatten.Perm (x :: (readers.set i rest).flatten)
  | [], _, _, _, h => by simp at h
  | r :: rs, 0, x, rest, h => by
    simp at h
    subst h
    simp
  | r :: rs, i + 1, x, rest, h => by
    simp at h
    have ih := flatten_set_perm rs i x rest h
    simp only [List.set_cons_succ, List.flatten_cons]
    exact (List.Perm.append_left r ih).trans List.perm_middle

theorem set_nil_of_getElem? {α : Type} : ∀ (readers : List (List α)) (i : Nat),
    readers[i]? = some [] → readers.set i [] = readers
  | [], _, _ => rfl
  | r :: rs, 0, h => by
    simp at h
    subst h
    rfl
  | r :: rs, i + 1, h => by
    simp at h
    simp [set_nil_of_getElem? rs i h]

theorem popRefill_step {Good : RedoLog → Prop} {ts : RedoLog → Nat}
    (hk : KeyOrdered (fun e => ts e.data) (fun e => Good e.data)) {startTs : Nat}
    {readers : List fileReader} {h : logHeap} (hinv : StreamInv Good ts readers h)
    (hnd : NoDrop ts startTs readers h) (hcov : Cover readers h) (hne : h ≠ []) :
    ∃ item h0 readers1 h1,
      heapPop h = some (item, h0) ∧ startTs < ts item.data ∧
      ((readAt readers item.idx = some (.error .EOF, readers1) ∧ h1 = h0) ∨
        (∃ a, readAt readers item.idx = some (.ok a, readers1) ∧
          h1 = heapPush h0 { idx := item.idx, data := a })) ∧
      popRefill readers h = some (item, readers1, h1) ∧
      StreamInv Good ts readers1 h1 ∧ NoDrop ts startTs readers1 h1 ∧ Cover readers1 h1 ∧
      h1.length ≤ h.length ∧ h0.length + 1 = h.length ∧
      (Except.ok item.data :: held readers1 h1).Perm (held readers h) := by
  obtain ⟨item, h0, r, hpop, hperm, _, _, hr, hcase⟩ := deliver_step hk hinv hne
  have hsub : ∀ e ∈ h0, e ∈ h := fun e he => hperm.subset (List.mem_cons_of_mem _ he)
  have hitem : item ∈ h := hperm.subset (List.mem_cons_self _ _)
  have hlen0 : h0.length + 1 = h.length := by
    have := hperm.length_eq
    simpa using this
  have hmapperm : (Except.ok item.data :: h0.map (fun e => Except.ok e.data)).Perm
      (h.map (fun e => (Except.ok e.data : Except GoError RedoLog))) := by
    have := hperm.map (fun e => (Except.ok e.data : Except GoError RedoLog))
    simpa using this
  have hrmem : r ∈ readers := List.getElem?_mem hr
  rcases hcase with ⟨hnil, hread, hinv2⟩ | ⟨a, rest, hcons, hread, _, hpp, hinv2⟩
  · have hsame : readers.set item.idx [] = readers :=
      set_nil_of_getElem? readers item.idx (by rw [hr, hnil])
    rw [hsame] at hread hinv2
    refine ⟨item, h0, readers, h0, hpop, hnd.1 item hitem, Or.inl ⟨hread, rfl⟩, ?_, hinv2,
      ⟨fun e he => hnd.1 e (hsub e he), hnd.2⟩, ?_, by omega, hlen0, ?_⟩
    · unfold popRefill
      rw [hpop]
      simp only []
      rw [hread]
    · intro i r1 hr1 hne1
      obtain ⟨e, he, hei⟩ := hcov i r1 hr1 hne1
      rcases List.mem_cons.mp (hperm.symm.subset he) with heq | hin
      · subst heq
        rw [hei] at hr
        rw [hr] at hr1
        cases hr1
        exact absurd hnil hne1
      · exact ⟨e, hin, hei⟩
    · unfold held
      exact List.Perm.append_right _ hmapperm
  · have hra : Except.ok a ∈ r := by rw [hcons]; exact List.mem_cons_self _ _
    refine ⟨item, h0, readers.set item.idx rest, heapPush h0 { idx := item.idx, data := a },
      hpop, hnd.1 item hitem, Or.inr ⟨a, hread, rfl⟩, ?_, hinv2, ⟨?_, ?_⟩, ?_, ?_, hlen0, ?_⟩
    · unfold popRefill
      rw [hpop]
      simp only []
      rw [hread]
    · intro e he
      rcases List.mem_cons.mp (hpp.subset he) with heq | hin
      · subst heq
        exact hnd.2 r hrmem a hra
      · exact hnd.1 e (hsub e hin)
    · intro r1 hr1 b hb
      rcases List.mem_or_eq_of_mem_set hr1 with hr1 | hr1
      · exact hnd.2 r1 hr1 b hb
      · subst hr1
        exact hnd.2 r hrmem b (by rw [hcons]; exact List.mem_cons_of_mem _ hb)
    · intro i r1 hr1 hne1
      by_cases hi : i = item.idx
      · exact ⟨_, hpp.symm.subset (List.mem_cons_self _ _), hi.symm⟩
      · rw [List.getElem?_set_ne (Ne.symm hi)] at hr1
        obtain ⟨e, he, hei⟩ := hcov i r1 hr1 hne1
        rcases List.mem_cons.mp (hperm.symm.subset he) with heq | hin
        · subst heq
          exact absurd hei.symm hi
        · exact ⟨e, hpp.symm.subset (List.mem_cons_of_mem _ hin), hei⟩
    · have := hpp.length_eq
      simp at this
      omega
    · unfold held
      have hflat := flatten_set_perm readers item.idx (Except.ok a) rest (by rw [hr, hcons])
      have hpm := hpp.map (fun e => (Except.ok e.data : Except GoError RedoLog))
      simp only [List.map_cons] at hpm
      have h1 : (Except.ok item.data ::
          ((heapPush h0 { idx := item.idx, data := a }).map (fun e => Except.ok e.data) ++
            (readers.set item.idx rest).flatten)).Perm
          (Except.ok item.data :: (Except.ok a :: (h0.map (fun e => Except.ok e.data) ++
            (readers.set item.idx rest).flatten))) :=
        List.Perm.cons _ (List.Perm.append_right _ hpm)
      have h2 : (h.map (fun e => (Except.ok e.data : Except GoError RedoLog)) ++
          readers.flatten).Perm
          (Except.ok item.data :: (Except.ok a :: (h0.map (fun e => Except.ok e.data) ++
            (readers.set item.idx rest).flatten))) := by
        refine (List.Perm.append hmapperm.symm hflat).trans ?_
        simp only [List.cons_append]
        exact List.Perm.cons _ List.perm_middle
      exact h1.trans h2.symm

theorem popRefill_nil (readers : List fileReader) : popRefill readers [] = none := rfl

theorem takeN_of_none {readers : List fileReader} {h : logHeap}
    (hn : popRefill readers h = none) : ∀ c, takeN c readers h = ([], readers, h)
  | 0 => rfl
  | c + 1 => by rw [takeN, hn]

theorem takeN_length_le : ∀ (c : Nat) (readers : List fileReader) (h : logHeap),
    (takeN c readers h).1.length ≤ c
  | 0, _, _ => Nat.le_refl _
  | c + 1, readers, h => by
    rw [takeN]
    split
    · exact Nat.zero_le _
    · simp only [List.length_cons]
      exact Nat.succ_le_succ (takeN_length_le c _ _)

theorem takeN_full_or_none : ∀ (c : Nat) (readers : List fileReader) (h : logHeap),
    (takeN c readers h).1.length = c ∨
      popRefill (takeN c readers h).2.1 (takeN c readers h).2.2 = none
  | 0, _, _ => Or.inl rfl
  | c + 1, readers, h => by
    rw [takeN]
    split
    · rename_i hn
      exact Or.inr hn
    · rename_i item readers1 h1 _
      rcases takeN_full_or_none c readers1 h1 with hl | hn
      · left
        simp only [List.length_cons, hl]
      · exact Or.inr hn

theorem takeN_split : ∀ (c1 c2 : Nat) (readers : List fileReader) (h : logHeap),
    takeN (c1 + c2) readers h =
      ((takeN c1 readers h).1 ++
          (takeN c2 (takeN c1 readers h).2.1 (takeN c1 readers h).2.2).1,
        (takeN c2 (takeN c1 readers h).2.1 (takeN c1 readers h).2.2).2)
  | 0, c2, readers, h => by
    rw [Nat.zero_add]
    rfl
  | c1 + 1, c2, readers, h => by
    have e : c1 + 1 + c2 = (c1 + c2) + 1 := by omega
    rw [e, takeN, takeN]
    cases hp : popRefill readers h with
    | none =>
      simp only []
      rw [takeN_of_none hp c2]
      rfl
    | some x =>
      obtain ⟨item, readers1, h1⟩ := x
      simp only []
      rw [takeN_split c1 c2 readers1 h1]
      rfl

theorem takeN_take_of_le {c c1 : Nat} (hle : c ≤ c1) (readers : List fileReader) (h : logHeap) :
    (takeN c readers h).1 = (takeN c1 readers h).1.take c := by
  obtain ⟨d, rfl⟩ := Nat.exists_eq_add_of_le hle
  rw [takeN_split c d readers h]
  simp only []
  rcases takeN_full_or_none c readers h with hl | hn
  · rw [List.take_left' hl]
  · rw [takeN_of_none hn d]
    simp only [List.append_nil]
    rw [List.take_of_length_le (takeN_length_le c readers h)]

theorem takeN_inv {Good : RedoLog → Prop} {ts : RedoLog → Nat}
    (hk : KeyOrdered (fun e => ts e.data) (fun e => Good e.data)) {startTs : Nat} :
    ∀ (c : Nat) (readers : List fileReader) (h : logHeap), StreamInv Good ts readers h →
      NoDrop ts startTs readers h → Cover readers h →
      StreamInv Good ts (takeN c readers h).2.1 (takeN c readers h).2.2 ∧
      NoDrop ts startTs (takeN c readers h).2.1 (takeN c readers h).2.2 ∧
      Cover (takeN c readers h).2.1 (takeN c readers h).2.2 ∧
      ((takeN c readers h).1.map (fun e : logWithIdx => Except.ok e.data) ++
        held (takeN c readers h).2.1 (takeN c readers h).2.2).Perm (held readers h)
  | 0, _, _, hinv, hnd, hcov => ⟨hinv, hnd, hcov, List.Perm.refl _⟩
  | c + 1, readers, h, hinv, hnd, hcov => by
    by_cases hne : h = []
    · subst hne
      rw [takeN_of_none (popRefill_nil readers)]
      exact ⟨hinv, hnd, hcov, List.Perm.refl _⟩
    · obtain ⟨item, h0, readers1, h1, _, _, _, hpr, i1, i2, i3, _, _, hperm⟩ :=
        popRefill_step hk hinv hnd hcov hne
      rw [takeN, hpr]
      simp only []
      obtain ⟨j1, j2, j3, j4⟩ := takeN_inv hk c readers1 h1 i1 i2 i3
      refine ⟨j1, j2, j3, ?_⟩
      simp only [List.map_cons, List.cons_append]
      exact (List.Perm.cons _ j4).trans hperm

theorem deliverLoop_eq_takeN {β : Type} (sel : RedoLog → β) (tsb : β → Nat)
    {Good : RedoLog → Prop}
    (hk : KeyOrdered (fun e => tsb (sel e.data)) (fun e => Good e.data))
    (startTs maxNumberOfEvents : Nat) :
    ∀ (budget : Nat) (readers : List fileReader) (h : logHeap) (ret : List β) (i : Nat),
      StreamInv Good (fun r => tsb (sel r)) readers h →
      NoDrop (fun r => tsb (sel r)) startTs readers h → Cover readers h →
      h.length + (maxNumberOfEvents - i) ≤ budget →
      deliverLoop sel tsb startTs maxNumberOfEvents budget readers h ret i =
        { readers := (takeN (maxNumberOfEvents - i) readers h).2.1
          heap := (takeN (maxNumberOfEvents - i) readers h).2.2
          ret := .ok (ret ++ (takeN (maxNumberOfEvents - i) readers h).1.map
            (fun e => sel e.data)) } := by
  intro budget
  induction budget with
  | zero =>
    intro readers h ret i _ _ _ hb
    have h0 : maxNumberOfEvents - i = 0 := by omega
    rw [h0]
    simp [deliverLoop, takeN]
  | succ b ih =>
    intro readers h ret i hinv hnd hcov hb
    rw [deliverLoop]
    by_cases hc : logHeap.Len h ≠ 0 ∧ i < maxNumberOfEvents
    · rw [if_pos hc]
      have hne : h ≠ [] := by
        intro e
        rw [e] at hc
        exact hc.1 rfl
      obtain ⟨item, h0, readers1, h1, hpop, hwin, hcase, hpr, i1, i2, i3, hl1, hl0, _⟩ :=
        popRefill_step hk hinv hnd hcov hne
      have hm : maxNumberOfEvents - i = (maxNumberOfEvents - (i + 1)) + 1 := by omega
      rw [hm, takeN, hpr, hpop]
      simp only []
      rw [if_neg (by omega)]
      rcases hcase with ⟨hread, hh⟩ | ⟨a, hread, hh⟩
      · rw [hread]
        simp only [ne_eq, not_true_eq_false, if_false]
        subst hh
        rw [ih readers1 h1 _ (i + 1) i1 i2 i3 (by omega)]
        simp
      · rw [hread]
        simp only []
        rw [← hh, ih readers1 h1 _ (i + 1) i1 i2 i3 (by omega)]
        simp
    · rw [if_neg hc]
      by_cases hne : h = []
      · subst hne
        rw [takeN_of_none (popRefill_nil readers)]
        simp
      · have h0 : maxNumberOfEvents - i = 0 := by
          have : ¬ i < maxNumberOfEvents := by
            intro hlt
            apply hc
            refine ⟨?_, hlt⟩
            intro hz
            exact hne (List.length_eq_zero.mp hz)
          omega
        rw [h0]
        simp [takeN]

theorem primeLoop_cover {Good : RedoLog → Prop} {ts : RedoLog → Nat} :
    ∀ (k i : Nat) (readers : List fileReader) (h : logHeap), i + k = readers.length →
      (∀ r ∈ readers, SortedFrom Good ts 0 r) →
      (∀ j r, j < i → readers[j]? = some r → r ≠ [] → ∃ e ∈ h, e.idx = j) →
      ∀ readers1 h1 err, primeLoop k i readers h = (readers1, h1, err) →
        Cover readers1 h1 ∧ (held readers1 h1).Perm (held readers h) := by
  intro k
  induction k with
  | zero =>
    intro i readers h hlen _ hcov readers1 h1 err hp
    simp only [primeLoop, Prod.mk.injEq] at hp
    obtain ⟨rfl, rfl, _⟩ := hp
    refine ⟨?_, List.Perm.refl _⟩
    intro j r hj hne
    have hjl : j < readers.length := by
      rcases List.getElem?_eq_some_iff.mp hj with ⟨hjl, _⟩
      exact hjl
    exact hcov j r (by omega) hj hne
  | succ k ih =>
    intro i readers h hlen ha hcov readers1 h1 err hp
    have hi : i < readers.length := by omega
    have hr : readers[i]? = some readers[i] := List.getElem?_eq_getElem hi
    have hsr : SortedFrom Good ts 0 readers[i] := ha _ (List.getElem_mem _)
    rw [primeLoop, readAt_eq hr] at hp
    rcases sortedFrom_cases hsr with hnil | ⟨a, rest, hcons, _, _, hrest⟩
    · rw [hnil] at hp hr
      simp only [fileReader.Read, ne_eq, not_true_eq_false, if_false] at hp
      rw [set_nil_of_getElem? readers i hr] at hp
      refine ih (i + 1) readers h (by omega) ha ?_ readers1 h1 err hp
      intro j r hj hjr hne
      by_cases hji : j = i
      · subst hji
        rw [hr] at hjr
        cases hjr
        exact absurd rfl hne
      · exact hcov j r (by omega) hjr hne
    · rw [hcons] at hp hr
      simp only [fileReader.Read] at hp
      have ha1 : ∀ r ∈ readers.set i rest, SortedFrom Good ts 0 r := by
        intro r1 hr1
        rcases List.mem_or_eq_of_mem_set hr1 with hr1 | hr1
        · exact ha r1 hr1
        · rw [hr1]; exact sortedFrom_mono (Nat.zero_le _) hrest
      obtain ⟨c1, c2⟩ := ih (i + 1) (readers.set i rest) (h ++ [{ idx := i, data := a }])
        (by simp; omega) ha1 (by
          intro j r hj hjr hne
          by_cases hji : j = i
          · exact ⟨_, List.mem_append_right _ (List.mem_singleton.mpr rfl), hji.symm⟩
          · rw [List.getElem?_set_ne (Ne.symm hji)] at hjr
            obtain ⟨e, he, hei⟩ := hcov j r (by omega) hjr hne
            exact ⟨e, List.mem_append_left _ he, hei⟩) readers1 h1 err hp
      refine ⟨c1, c2.trans ?_⟩
      unfold held
      have hflat := flatten_set_perm readers i (Except.ok a) rest hr
      simp only [List.map_append, List.map_cons, List.map_nil, List.append_assoc,
        List.singleton_append]
      exact List.Perm.append_left _ hflat.symm

theorem primeLoop_all_empty {readers : List fileReader} (hall : ∀ r ∈ readers, r = []) :
    ∀ (k i : Nat) (h : logHeap), i + k ≤ readers.length →
      primeLoop k i readers h = (readers, h, none)
  | 0, _, _, _ => rfl
  | k + 1, i, h, hlen => by
    have hi : i < readers.length := by omega
    have hr : readers[i]? = some [] := by
      rw [List.getElem?_eq_getElem hi, hall _ (List.getElem_mem _)]
    rw [primeLoop, readAt_eq hr]
    simp only [fileReader.Read, ne_eq, not_true_eq_false, if_false]
    rw [set_nil_of_getElem? readers i hr]
    exact primeLoop_all_empty hall k (i + 1) h (by omega)

theorem heapInit_nil : heapInit [] = [] := rfl

theorem readNext_eq_takeN {β : Type} (sel : RedoLog → β) (tsb : β → Nat)
    {Good : RedoLog → Prop}
    (hk : KeyOrdered (fun e => tsb (sel e.data)) (fun e => Good e.data))
    (startTs c : Nat) (readers : List fileReader) (h : logHeap)
    (hinv : StreamInv Good (fun r => tsb (sel r)) readers h)
    (hnd : NoDrop (fun r => tsb (sel r)) startTs readers h) (hcov : Cover readers h) :
    readNext sel tsb startTs c readers h =
      { readers := (takeN c readers h).2.1
        heap := (takeN c readers h).2.2
        ret := .ok ((takeN c readers h).1.map (fun e => sel e.data)) } := by
  unfold readNext
  by_cases h0 : logHeap.Len h = 0
  · rw [if_pos h0]
    have hnil : h = [] := List.length_eq_zero.mp h0
    subst hnil
    have hall : ∀ r ∈ readers, r = [] := by
      intro r hr
      obtain ⟨i, hi⟩ := List.mem_iff_getElem?.mp hr
      by_contra hne
      obtain ⟨e, he, _⟩ := hcov i r hi hne
      simp at he
    rw [primeLoop_all_empty hall readers.length 0 [] (by omega)]
    simp only [heapInit_nil]
    rw [deliverLoop_eq_takeN sel tsb hk startTs c _ readers [] [] 0 hinv hnd hcov (by simp)]
    simp
  · rw [if_neg h0]
    rw [deliverLoop_eq_takeN sel tsb hk startTs c _ readers h [] 0 hinv hnd hcov (by simp)]
    simp

theorem readNext_fresh {β : Type} (sel : RedoLog → β) (tsb : β → Nat)
    {Good : RedoLog → Prop}
    (hk : KeyOrdered (fun e => tsb (sel e.data)) (fun e => Good e.data))
    (startTs : Nat) (readers : List fileReader)
    (hs : ∀ r ∈ readers, SortedFrom Good (fun r => tsb (sel r)) 0 r)
    (hw : ∀ r ∈ readers, ∀ a, Except.ok a ∈ r → startTs < tsb (sel a)) :
    ∃ readers1 h1, StreamInv Good (fun r => tsb (sel r)) readers1 h1 ∧
      NoDrop (fun r => tsb (sel r)) startTs readers1 h1 ∧ Cover readers1 h1 ∧
      (held readers1 h1).Perm readers.flatten ∧
      ∀ c, readNext sel tsb startTs c readers [] =
        { readers := (takeN c readers1 h1).2.1
          heap := (takeN c readers1 h1).2.2
          ret := .ok ((takeN c readers1 h1).1.map (fun e => sel e.data)) } := by
  obtain ⟨readers1, hp, hprime, ha, hb⟩ := @primeLoop_inv Good (fun r => tsb (sel r))
    readers.length 0 readers [] (by simp) hs (fun e he => by simp at he)
  obtain ⟨hcov, hperm⟩ := @primeLoop_cover Good (fun r => tsb (sel r)) readers.length 0 readers
    [] (by simp) hs (fun j r hj _ _ => by omega) readers1 hp none hprime
  obtain ⟨i1, i2⟩ := heapInit_spec hk hp (fun e he => (hb e he).1)
  have hheld : (held readers1 (heapInit hp)).Perm (held readers1 hp) := by
    unfold held
    exact List.Perm.append_right _ (i2.map _)
  have hperm2 : (held readers1 (heapInit hp)).Perm readers.flatten := by
    refine hheld.trans (hperm.trans ?_)
    simp [held]
  have hmem : ∀ a, Except.ok a ∈ held readers1 (heapInit hp) → startTs < tsb (sel a) := by
    intro a hmem
    obtain ⟨r, hr, har⟩ := List.mem_flatten.mp (hperm2.subset hmem)
    exact hw r hr a har
  have hinv : StreamInv Good (fun r => tsb (sel r)) readers1 (heapInit hp) :=
    ⟨ha, fun e he => hb e (i2.subset he), i1⟩
  have hnd : NoDrop (fun r => tsb (sel r)) startTs readers1 (heapInit hp) := by
    constructor
    · intro e he
      apply hmem
      unfold held
      exact List.mem_append_left _ (List.mem_map.mpr ⟨e, he, rfl⟩)
    · intro r hr a har
      apply hmem
      unfold held
      exact List.mem_append_right _ (List.mem_flatten.mpr ⟨r, hr, har⟩)
  have hcov2 : Cover readers1 (heapInit hp) := by
    intro i r hi hne
    obtain ⟨e, he, hei⟩ := hcov i r hi hne
    exact ⟨e, i2.symm.subset he, hei⟩
  refine ⟨readers1, heapInit hp, hinv, hnd, hcov2, hperm2, ?_⟩
  intro c
  unfold readNext
  rw [if_pos (show logHeap.Len [] = 0 from rfl), hprime]
  simp only []
  have hlen : hp.length = (heapInit hp).length := i2.length_eq.symm
  rw [deliverLoop_eq_takeN sel tsb hk startTs c _ readers1 (heapInit hp) [] 0 hinv hnd hcov2
    (by omega)]
  simp

theorem held_nil_of_heap_nil {readers : List fileReader} (hcov : Cover readers []) :
    held readers [] = [] := by
  have hall : ∀ r ∈ readers, r = [] := by
    intro r hr
    obtain ⟨i, hi⟩ := List.mem_iff_getElem?.mp hr
    by_contra hne
    obtain ⟨e, he, _⟩ := hcov i r hi hne
    simp at he
  unfold held
  simp only [List.map_nil, List.nil_append]
  apply List.eq_nil_iff_forall_not_mem.mpr
  intro x hx
  obtain ⟨r, hr, hxr⟩ := List.mem_flatten.mp hx
  rw [hall r hr] at hxr
  simp at hxr

theorem filterMap_okOf_map (l : List RedoLog) :
    (l.map (fun a => (Except.ok a : Except GoError RedoLog))).filterMap okOf = l := by
  induction l with
  | nil => rfl
  | cons a rest ih => simp [okOf, ih]

theorem cap_and_resume {β : Type} (sel : RedoLog → β) (tsb : β → Nat)
    {Good : RedoLog → Prop}
    (hk : KeyOrdered (fun e => tsb (sel e.data)) (fun e => Good e.data))
    (startTs : Nat) (readers : List fileReader)
    (hs : ∀ r ∈ readers, SortedFrom Good (fun r => tsb (sel r)) 0 r)
    (hw : ∀ r ∈ readers, ∀ a, Except.ok a ∈ r → startTs < tsb (sel a))
    (capN c1 c2 : Nat) (hcap : readers.flatten.length ≤ capN) :
    ∃ M : List β, M.length = readers.flatten.length ∧
      M.Perm ((readers.flatten.filterMap okOf).map sel) ∧
      (readNext sel tsb startTs capN readers []).ret = .ok M ∧
      (readNext sel tsb startTs c1 readers []).ret = .ok (M.take c1) ∧
      (readNext sel tsb startTs c2 (readNext sel tsb startTs c1 readers []).readers
        (readNext sel tsb startTs c1 readers []).heap).ret = .ok ((M.drop c1).take c2) := by
  obtain ⟨readers1, h1, hinv, hnd, hcov, hperm, hrun⟩ :=
    readNext_fresh sel tsb hk startTs readers hs hw
  obtain ⟨e1, e2, e3, e4⟩ := takeN_inv hk capN readers1 h1 hinv hnd hcov
  -- after a run with the cap `capN` nothing is held any more
  have hend : (takeN capN readers1 h1).2.2 = [] := by
    by_contra hne
    obtain ⟨item, h0, readers2, h2, _, _, _, hpr, _, _, _, _, _, _⟩ :=
      popRefill_step hk e1 e2 e3 hne
    rcases takeN_full_or_none capN readers1 h1 with hl | hn
    · have hlen := (e4.trans hperm).length_eq
      simp only [List.length_append, List.length_map, held] at hlen
      have : (takeN capN readers1 h1).2.2.length = 0 := by omega
      exact hne (List.length_eq_zero.mp this)
    · rw [hn] at hpr
      cases hpr
  have hheld : held (takeN capN readers1 h1).2.1 (takeN capN readers1 h1).2.2 = [] := by
    rw [hend] at e3 ⊢
    exact held_nil_of_heap_nil e3
  rw [hheld, List.append_nil] at e4
  have hitems : ((takeN capN readers1 h1).1.map (fun e : logWithIdx => Except.ok e.data)).Perm
      readers.flatten := e4.trans hperm
  have hnone : popRefill (takeN capN readers1 h1).2.1 (takeN capN readers1 h1).2.2 = none := by
    rw [hend]
    rfl
  have htake : ∀ c, (takeN c readers1 h1).1 = (takeN capN readers1 h1).1.take c := by
    intro c
    by_cases hle : c ≤ capN
    · exact takeN_take_of_le hle readers1 h1
    · obtain ⟨d, rfl⟩ := Nat.exists_eq_add_of_le (Nat.le_of_not_le hle)
      rw [takeN_split capN d readers1 h1]
      simp only []
      rw [takeN_of_none hnone d]
      simp only [List.append_nil]
      rw [List.take_of_length_le]
      exact Nat.le_trans (takeN_length_le capN readers1 h1) (Nat.le_add_right _ _)
  have hlen : (takeN capN readers1 h1).1.length = readers.flatten.length := by
    have := hitems.length_eq
    simpa using this
  refine ⟨(takeN capN readers1 h1).1.map (fun e => sel e.data), by simpa using hlen, ?_, ?_,
    ?_, ?_⟩
  · have h2 := (hitems.filterMap okOf).map sel
    have h3 : ((takeN capN readers1 h1).1.map
        (fun e : logWithIdx => (Except.ok e.data : Except GoError RedoLog))).filterMap okOf
        = (takeN capN readers1 h1).1.map (fun e => e.data) := by
      have := filterMap_okOf_map ((takeN capN readers1 h1).1.map (fun e => e.data))
      simpa [List.map_map] using this
    rw [h3, List.map_map] at h2
    exact h2
  · rw [hrun capN]
  · rw [hrun c1, htake c1, List.map_take]
  · rw [hrun c1]
    simp only []
    obtain ⟨f1, f2, f3, _⟩ := takeN_inv hk c1 readers1 h1 hinv hnd hcov
    rw [readNext_eq_takeN sel tsb hk startTs c2 _ _ f1 f2 f3]
    simp only []
    have hsplit := takeN_split c1 c2 readers1 h1
    have hB : (takeN c2 (takeN c1 readers1 h1).2.1 (takeN c1 readers1 h1).2.2).1
        = ((takeN capN readers1 h1).1.drop c1).take c2 := by
      have h5 : (takeN (c1 + c2) readers1 h1).1 = (takeN c1 readers1 h1).1 ++
          (takeN c2 (takeN c1 readers1 h1).2.1 (takeN c1 readers1 h1).2.2).1 := by
        rw [hsplit]
      rw [htake (c1 + c2), htake c1] at h5
      have h6 := congrArg (List.drop ((takeN capN readers1 h1).1.take c1).length) h5
      rw [List.drop_left, List.drop_take] at h6
      rw [← h6]
      by_cases hc : c1 ≤ (takeN capN readers1 h1).1.length
      · rw [List.length_take, Nat.min_eq_left hc]
        congr 1
        omega
      · have hd1 : (takeN capN readers1 h1).1.drop c1 = [] :=
          List.drop_eq_nil_of_le (by omega)
        have hd2 : (takeN capN readers1 h1).1.drop
            ((takeN capN readers1 h1).1.take c1).length = [] := by
          apply List.drop_eq_nil_of_le
          rw [List.length_take]
          omega
        rw [hd1, hd2]
        simp
    rw [hB, List.map_take, List.map_drop]

theorem flatten_map_fileOf (files : List (List RedoLog)) :
    (files.map fileOf).flatten = files.flatten.map (fun a => Except.ok a) := by
  induction files with
  | nil => rfl
  | cons f rest ih => simp [fileOf, ih]

/-- C5. Cap and resume.  Over sorted row files that hold `N` records in all,
every one above `startTs`, a single call of `ReadNextLog` with a cap of at
least `N` on the freshly reset reader returns a batch `M` that holds exactly
the `N` records; for all `c1`, `c2`, `ReadNextLog(c1)` returns the first
`min c1 N` elements of `M` and a following `ReadNextLog(c2)` returns the next
`min c2 (N - min c1 N)` elements of `M`. -/
theorem ReadNextLog_cap_and_resume (startTs endTs : Nat)
    (rowFiles ddlFiles : List (List RedoLog)) (hrow : ∀ f ∈ rowFiles, SortedRowFile f)
    (hwin : ∀ f ∈ rowFiles, ∀ r ∈ f, startTs < r.Row.Row.CommitTs)
    (capN c1 c2 : Nat) (hcap : rowFiles.flatten.length ≤ capN) :
    ∃ M : List RedoRowChangedEvent,
      (ReadNextLog false (afterReset startTs endTs rowFiles ddlFiles) capN).2 = .ok M ∧
      M.length = rowFiles.flatten.length ∧
      M.Perm (rowFiles.flatten.map RedoLog.Row) ∧
      (ReadNextLog false (afterReset startTs endTs rowFiles ddlFiles) c1).2
        = .ok (M.take (min c1 rowFiles.flatten.length)) ∧
      (ReadNextLog false
          (ReadNextLog false (afterReset startTs endTs rowFiles ddlFiles) c1).1 c2).2
        = .ok ((M.drop (min c1 rowFiles.flatten.length)).take
            (min c2 (rowFiles.flatten.length - min c1 rowFiles.flatten.length))) := by
  have hs : ∀ r ∈ rowFiles.map fileOf,
      SortedFrom IsRowLog (fun r => r.Row.Row.CommitTs) 0 r :=
    (streamInv_fresh rowFiles hrow).1
  have hw : ∀ r ∈ rowFiles.map fileOf, ∀ a, Except.ok a ∈ r → startTs < a.Row.Row.CommitTs := by
    intro r hr a ha
    obtain ⟨f, hf, rfl⟩ := List.mem_map.mp hr
    have : a ∈ f := by
      simpa [fileOf] using ha
    exact hwin f hf a this
  have hflen : (rowFiles.map fileOf).flatten.length = rowFiles.flatten.length := by
    rw [flatten_map_fileOf, List.length_map]
  obtain ⟨M, m1, m2, m3, m4, m5⟩ := cap_and_resume RedoLog.Row (fun e => e.Row.CommitTs)
    keyOrdered_row startTs (rowFiles.map fileOf) hs hw capN c1 c2 (by rw [hflen]; exact hcap)
  rw [hflen] at m1
  rw [flatten_map_fileOf, filterMap_okOf_map] at m2
  refine ⟨M, m3, m1, m2, ?_, ?_⟩
  · have e : M.take (min c1 rowFiles.flatten.length) = M.take c1 := by
      rw [List.take_eq_take, m1]
      omega
    rw [e]
    exact m4
  · have e : (M.drop (min c1 rowFiles.flatten.length)).take
        (min c2 (rowFiles.flatten.length - min c1 rowFiles.flatten.length))
        = (M.drop c1).take c2 := by
      by_cases hc : c1 ≤ rowFiles.flatten.length
      · rw [Nat.min_eq_left hc, List.take_eq_take, List.length_drop, m1]
        omega
      · have hd1 : M.drop c1 = [] := List.drop_eq_nil_of_le (by omega)
        have hd2 : M.drop (min c1 rowFiles.flatten.length) = [] :=
          List.drop_eq_nil_of_le (by omega)
        rw [hd1, hd2]
        simp
    rw [e]
    exact m5

/-- C5, at the files A = 5, 20, 40 and B = 10, 30, 50 with `startTs = 0`: the
cap 10 gives 5, 10, 20, 30, 40, 50; the cap 3 and then the cap 10 give 5, 10,
20 and then 30, 40, 50. -/
theorem ReadNextLog_cap_and_resume_witness :
    (∃ M : List RedoRowChangedEvent,
      (ReadNextLog false (afterReset 0 100 [fileA, fileB] []) 10).2 = .ok M ∧
      M.length = [fileA, fileB].flatten.length ∧
      M.Perm ([fileA, fileB].flatten.map RedoLog.Row) ∧
      (ReadNextLog false (afterReset 0 100 [fileA, fileB] []) 3).2
        = .ok (M.take (min 3 [fileA, fileB].flatten.length)) ∧
      (ReadNextLog false (ReadNextLog false (afterReset 0 100 [fileA, fileB] []) 3).1 10).2
        = .ok ((M.drop (min 3 [fileA, fileB].flatten.length)).take
            (min 10 ([fileA, fileB].flatten.length - min 3 [fileA, fileB].flatten.length)))) ∧
    (ReadNextLog false (afterReset 0 100 [fileA, fileB] []) 10).2
      = .ok [rowEvent 5 0, rowEvent 10 0, rowEvent 20 0, rowEvent 30 0, rowEvent 40 0,
          rowEvent 50 0] ∧
    (ReadNextLog false (afterReset 0 100 [fileA, fileB] []) 3).2
      = .ok [rowEvent 5 0, rowEvent 10 0, rowEvent 20 0] ∧
    (ReadNextLog false (ReadNextLog false (afterReset 0 100 [fileA, fileB] []) 3).1 10).2
      = .ok [rowEvent 30 0, rowEvent 40 0, rowEvent 50 0] :=
  ⟨ReadNextLog_cap_and_resume 0 100 [fileA, fileB] []
      (by simp [SortedRowFile, IsRowLog, rowLog, fileA, fileB])
      (by simp [rowLog, fileA, fileB]) 10 3 10 (by decide),
    rfl, rfl, rfl⟩

/-! ## Reading undoes the writer's framing -/

theorem int64Wrap_id (x : Int) (h1 : -(2 ^ 63) ≤ x) (h2 : x < 2 ^ 63) : int64Wrap x = x := by
  unfold int64Wrap int64OfUint64 uint64OfInt64
  have hm : (0 : Int) ≤ x % 2 ^ 64 := Int.emod_nonneg _ (by decide)
  have hlt : x % 2 ^ 64 < 2 ^ 64 := Int.emod_lt_of_pos _ (by decide)
  have hn : (((x % 2 ^ 64).toNat % 2 ^ 64 : Nat) : Int) = x % 2 ^ 64 := by omega
  split_ifs with hc
  · rw [hn]; omega
  · rw [hn]; omega

theorem Read_unfold (UnmarshalMsg : List UInt8 → Except GoError RedoLog) (r : reader) :
    reader.Read UnmarshalMsg r =
      match readInt64 r.br r.fault with
      | (.error err, rest) =>
        if err = .EOF then (.error err, { r with br := rest })
        else (.error (.ErrRedoFileOp err), { r with br := rest })
      | (.ok lenField, rest) =>
        match ioReadFull rest r.fault
            ((decodeFrameSize lenField).1 + (decodeFrameSize lenField).2).toNat with
        | (.error err, rest1) =>
          if err = .EOF ∨ err = .ErrUnexpectedEOF then (.error .EOF, { r with br := rest1 })
          else (.error (.ErrRedoFileOp err), { r with br := rest1 })
        | (.ok data, rest1) =>
          match UnmarshalMsg (data.take (decodeFrameSize lenField).1.toNat) with
          | .error err =>
            if reader.isTornEntry r data then (.error .EOF, { r with br := rest1 })
            else (.error (.ErrRedoFileOp err), { r with br := rest1 })
          | .ok redoLog =>
            (.ok redoLog,
              { r with
                br := rest1
                lastValidOff :=
                  int64Wrap (r.lastValidOff + ((frameSizeBytes : Int) +
                    (decodeFrameSize lenField).1 + (decodeFrameSize lenField).2)) }) := by
  unfold reader.Read reader.ReadAlloc
  rcases readInt64 r.br r.fault with ⟨res, rest⟩
  cases res with
  | error err => rfl
  | ok lenField => simp

theorem ReadAlloc_granted (canMake : Nat → Bool)
    (UnmarshalMsg : List UInt8 → Except GoError RedoLog) (r : reader)
    (h : r.br.length < 8 ∨ canMake (payloadSize r.br) = true) :
    reader.ReadAlloc canMake UnmarshalMsg r = reader.Read UnmarshalMsg r := by
  unfold reader.Read reader.ReadAlloc readInt64 ioReadFull
  by_cases hhdr : 8 ≤ r.br.length
  · have hc : canMake (payloadSize r.br) = true := by
      rcases h with h | h
      · omega
      · exact h
    unfold payloadSize at hc
    rw [if_pos hhdr]
    simp [hc]
  · rw [if_neg hhdr]
    cases r.fault with
    | none => by_cases h0 : r.br.length = 0 <;> simp [h0]
    | some e => by_cases he : e = GoError.EOF <;> simp [he]

theorem length_putUint64 (v : Nat) : (putUint64 v).length = 8 := by
  simp [putUint64]

theorem leUint64_putUint64 (v : Nat) (hv : v < 2 ^ 64) : leUint64 (putUint64 v) = v := by
  have e : ∀ x : Nat, (UInt8.ofNat (x % 256)).toNat = x % 256 := by
    intro x
    exact UInt8.toNat_ofNat_of_lt (Nat.mod_lt _ (by decide))
  simp only [putUint64, leUint64, List.range, List.range.loop, List.map_cons, List.map_nil,
    List.foldr_cons, List.foldr_nil, e]
  norm_num
  omega

theorem uint64_int64_roundtrip (u : Nat) (hu : u < 2 ^ 64) :
    uint64OfInt64 (int64OfUint64 u) = u := by
  unfold uint64OfInt64 int64OfUint64
  rw [Nat.mod_eq_of_lt hu]
  split
  · omega
  · omega

theorem ioReadFull_append (bs rest : List UInt8) (fault : Option GoError) :
    ioReadFull (bs ++ rest) fault bs.length = (.ok bs, rest) := by
  unfold ioReadFull
  rw [if_pos (by simp)]
  simp

theorem readInt64_putUint64 (v : Nat) (hv : v < 2 ^ 64) (rest : List UInt8)
    (fault : Option GoError) :
    readInt64 (putUint64 v ++ rest) fault = (.ok (int64OfUint64 v), rest) := by
  unfold readInt64
  have h := ioReadFull_append (putUint64 v) rest fault
  rw [length_putUint64] at h
  rw [h]
  simp only [leUint64_putUint64 v hv]

theorem mask56 : ((0xff <<< 56) ^^^ (2 ^ 64 - 1) : Nat) = 2 ^ 56 - 1 := by decide

theorem encodeFrameSize_val (n : Nat) (hn : n < 2 ^ 56) :
    (encodeFrameSize n).1 =
      if (8 - n % 8) % 8 ≠ 0 then n + (128 + (8 - n % 8) % 8) * 2 ^ 56 else n := by
  unfold encodeFrameSize
  simp only []
  split
  · rename_i hp
    have hp7 : (8 - n % 8) % 8 < 8 := Nat.mod_lt _ (by decide)
    have h128 : (0x80 ||| (8 - n % 8) % 8) = 128 + (8 - n % 8) % 8 := by
      generalize (8 - n % 8) % 8 = p at hp7
      interval_cases p <;> rfl
    rw [h128, Nat.lor_comm, Nat.shiftLeft_eq, Nat.mul_comm,
      ← Nat.mul_add_lt_is_or hn]
    omega
  · rfl

theorem decode_encode (n : Nat) (hn : n < 2 ^ 56) :
    (encodeFrameSize n).1 < 2 ^ 64 ∧
    decodeFrameSize (int64OfUint64 (encodeFrameSize n).1)
      = ((n : Int), (((encodeFrameSize n).2 : Nat) : Int)) := by
  have hval := encodeFrameSize_val n hn
  have hp7 : (8 - n % 8) % 8 < 8 := Nat.mod_lt _ (by decide)
  have hpad : (encodeFrameSize n).2 = (8 - n % 8) % 8 := rfl
  generalize (encodeFrameSize n).1 = L at hval
  generalize (8 - n % 8) % 8 = p at hval hp7 hpad
  have hL : L < 2 ^ 64 := by
    split at hval <;> omega
  refine ⟨hL, ?_⟩
  unfold decodeFrameSize
  simp only [uint64_int64_roundtrip L hL, mask56, Nat.and_pow_two_sub_one_eq_mod]
  have h7 : ∀ x : Nat, x &&& 7 = x % 8 := fun x => Nat.and_pow_two_sub_one_eq_mod x 3
  rw [h7, Nat.shiftRight_eq_div_pow, hpad]
  unfold int64OfUint64
  split at hval
  · subst hval
    have h1 : (n + (128 + p) * 2 ^ 56) % 2 ^ 56 = n := by omega
    have h2 : (n + (128 + p) * 2 ^ 56) / 2 ^ 56 % 8 = p := by omega
    have h3 : ¬ (n + (128 + p) * 2 ^ 56) % 2 ^ 64 < 2 ^ 63 := by omega
    rw [h1, h2]
    simp only [h3, if_false]
    have h4 : n % 2 ^ 64 < 2 ^ 63 := by omega
    have h5 : p % 2 ^ 64 < 2 ^ 63 := by omega
    simp only [h4, h5, if_true]
    have h6 : (((n + (128 + p) * 2 ^ 56) % 2 ^ 64 : Nat) : Int) - 2 ^ 64 < 0 := by omega
    simp only [h6, if_true]
    have h7 : n % 2 ^ 64 = n := by omega
    have h8 : p % 2 ^ 64 = p := by omega
    rw [h7, h8]
  · subst hval
    rename_i hp0
    have hp0' : p = 0 := by omega
    subst hp0'
    have h1 : L % 2 ^ 56 = L := by omega
    have h4 : L % 2 ^ 64 < 2 ^ 63 := by omega
    have h7 : L % 2 ^ 64 = L := by omega
    rw [h1]
    simp only [h4, if_true, h7]
    have h8 : L < 2 ^ 63 := by omega
    have h6 : ¬ ((L : Nat) : Int) < 0 := by omega
    simp only [h8, if_true, h6, if_false]
    rfl

theorem Read_frame (UnmarshalMsg : List UInt8 → Except GoError RedoLog)
    (rec pad rest : List UInt8) (fault : Option GoError) (off : Int) (x : RedoLog)
    (hum : UnmarshalMsg rec = .ok x) (hn : rec.length < 2 ^ 56)
    (hpad : pad.length = (encodeFrameSize rec.length).2) :
    reader.Read UnmarshalMsg { br := encodeFrame rec pad ++ rest, fault := fault, lastValidOff := off }
      = (.ok x, { br := rest, fault := fault,
                  lastValidOff :=
                    int64Wrap (off + (8 + (rec.length : Int) + (pad.length : Int))) }) := by
  obtain ⟨hL, hdec⟩ := decode_encode rec.length hn
  have e1 : encodeFrame rec pad ++ rest
      = putUint64 (encodeFrameSize rec.length).1 ++ ((rec ++ pad) ++ rest) := by
    simp [encodeFrame]
  have e2 : ((rec.length : Int) + ((encodeFrameSize rec.length).2 : Int)).toNat
      = (rec ++ pad).length := by
    rw [List.length_append, hpad]
    omega
  rw [Read_unfold]
  simp only []
  rw [e1, readInt64_putUint64 _ hL]
  simp only [hdec]
  rw [e2, ioReadFull_append]
  simp only [Int.toNat_ofNat, List.take_left, hum, hpad, frameSizeBytes]
  rfl

theorem readMany_frames (UnmarshalMsg : List UInt8 → Except GoError RedoLog)
    (marshal : RedoLog → List UInt8) :
    ∀ (frames : List (RedoLog × List UInt8)) (off : Int),
      (∀ f ∈ frames, UnmarshalMsg (marshal f.1) = .ok f.1 ∧ (marshal f.1).length < 2 ^ 56 ∧
        f.2.length = (encodeFrameSize (marshal f.1).length).2) →
      ∃ off1, readMany UnmarshalMsg frames.length
          { br := (frames.map (fun f => encodeFrame (marshal f.1) f.2)).flatten, fault := none,
            lastValidOff := off }
        = (frames.map (fun f => Except.ok f.1),
            { br := [], fault := none, lastValidOff := off1 })
  | [], off, _ => ⟨off, rfl⟩
  | f :: rest, off, h => by
    obtain ⟨h1, h2, h3⟩ := h f (List.mem_cons_self _ _)
    obtain ⟨off1, ih⟩ := readMany_frames UnmarshalMsg marshal rest
      (int64Wrap (off + (8 + ((marshal f.1).length : Int) + (f.2.length : Int))))
      (fun g hg => h g (List.mem_cons_of_mem _ hg))
    refine ⟨off1, ?_⟩
    simp only [List.map_cons, List.flatten_cons, List.length_cons, readMany]
    rw [Read_frame UnmarshalMsg (marshal f.1) f.2 _ none off f.1 h1 h2 h3]
    simp only []
    rw [ih]

theorem Read_at_end (UnmarshalMsg : List UInt8 → Except GoError RedoLog) (off : Int) :
    (reader.Read UnmarshalMsg { br := [], fault := none, lastValidOff := off }).1
      = .error .EOF := rfl

/-- C8. Reading undoes the writer's framing: when a file is the concatenation
of the frames of the records `r1..rn` (the 8-byte little-endian length field
of `encodeFrameSize`, the serialized record - shorter than `2^56` bytes, as is
every Go slice -, the pad bytes) and deserializing undoes serializing on these
records, `n` successive calls of `Read` on a fresh reader return `r1..rn` in
order without error, and the next `Read` returns `io.EOF`. -/
theorem Read_undoes_framing (UnmarshalMsg : List UInt8 → Except GoError RedoLog)
    (marshal : RedoLog → List UInt8) (frames : List (RedoLog × List UInt8))
    (h : ∀ f ∈ frames, UnmarshalMsg (marshal f.1) = .ok f.1 ∧ (marshal f.1).length < 2 ^ 56 ∧
      f.2.length = (encodeFrameSize (marshal f.1).length).2) :
    (readMany UnmarshalMsg frames.length
        { br := (frames.map (fun f => encodeFrame (marshal f.1) f.2)).flatten, fault := none,
          lastValidOff := 0 }).1 = frames.map (fun f => Except.ok f.1) ∧
    (reader.Read UnmarshalMsg
      (readMany UnmarshalMsg frames.length
        { br := (frames.map (fun f => encodeFrame (marshal f.1) f.2)).flatten, fault := none,
          lastValidOff := 0 }).2).1 = .error .EOF := by
  obtain ⟨off1, e⟩ := readMany_frames UnmarshalMsg marshal frames 0 h
  rw [e]
  exact ⟨rfl, Read_at_end UnmarshalMsg off1⟩

/-- C8, at a file with the two records 7 and 11, each serialized in two bytes
and padded with six bytes. -/
theorem Read_undoes_framing_witness :
    (readMany unmarshal2 2
        { br := ([(rowLog 7 1, ([0, 0, 0, 0, 0, 0] : List UInt8)),
            (rowLog 11 2, [0, 0, 0, 0, 0, 0])].map
              (fun f => encodeFrame (marshal2 f.1) f.2)).flatten,
          fault := none, lastValidOff := 0 }).1
      = [Except.ok (rowLog 7 1), Except.ok (rowLog 11 2)] ∧
    (reader.Read unmarshal2
      (readMany unmarshal2 2
        { br := ([(rowLog 7 1, ([0, 0, 0, 0, 0, 0] : List UInt8)),
            (rowLog 11 2, [0, 0, 0, 0, 0, 0])].map
              (fun f => encodeFrame (marshal2 f.1) f.2)).flatten,
          fault := none, lastValidOff := 0 }).2).1 = .error .EOF :=
  Read_undoes_framing unmarshal2 marshal2
    [(rowLog 7 1, [0, 0, 0, 0, 0, 0]), (rowLog 11 2, [0, 0, 0, 0, 0, 0])]
    (fun f hf => by
      simp only [List.mem_cons, List.mem_singleton, List.not_mem_nil, or_false] at hf
      rcases hf with rfl | rfl
      · exact ⟨rfl, by decide, rfl⟩
      · exact ⟨rfl, by decide, rfl⟩)

/-! ## A short read of the payload -/

/-- C10, as stated, fails: the file ends after a whole length field that
announces 8 payload bytes and 3 non-zero payload bytes; `Read` returns
`io.EOF`, although neither the partial payload nor the zero-filled buffer has
an all-zero chunk. -/
theorem Read_short_payload_not_torn :
    (reader.Read unmarshal2 shortReader).1 = .error .EOF ∧
    (reader.ReadAlloc (fun n => decide (n ≤ maxAlloc)) unmarshal2 shortReader).1 =
      .error .EOF ∧
    reader.isTornEntry shortReader [1, 2, 3] = false ∧
    reader.isTornEntry shortReader [1, 2, 3, 0, 0, 0, 0, 0] = false :=
  ⟨rfl, rfl, rfl, rfl⟩

theorem ReadAlloc_header (canMake : Nat → Bool)
    (UnmarshalMsg : List UInt8 → Except GoError RedoLog) (r : reader)
    (hhdr : 8 ≤ r.br.length) :
    reader.ReadAlloc canMake UnmarshalMsg r =
      if canMake (payloadSize r.br) = false then
        (.error .makeFailure, { r with br := r.br.drop 8 })
      else reader.Read UnmarshalMsg r := by
  by_cases hc : canMake (payloadSize r.br) = false
  · rw [if_pos hc]
    unfold payloadSize at hc
    unfold reader.ReadAlloc readInt64 ioReadFull
    rw [if_pos hhdr]
    simp only []
    rw [if_pos hc]
  · rw [if_neg hc]
    exact ReadAlloc_granted canMake UnmarshalMsg r (Or.inr (by simpa using hc))

theorem Read_short_payload_granted (UnmarshalMsg : List UInt8 → Except GoError RedoLog)
    (r : reader) (hhdr : 8 ≤ r.br.length) (hshort : (r.br.drop 8).length < payloadSize r.br) :
    (r.fault = none → (reader.Read UnmarshalMsg r).1 = .error .EOF) ∧
    (∀ e, r.fault = some e → e ≠ .EOF → e ≠ .ErrUnexpectedEOF →
      (reader.Read UnmarshalMsg r).1 = .error (.ErrRedoFileOp e)) ∧
    (reader.Read UnmarshalMsg r).2.lastValidOff = r.lastValidOff := by
  have hint : readInt64 r.br r.fault
      = (.ok (int64OfUint64 (leUint64 (r.br.take 8))), r.br.drop 8) := by
    unfold readInt64 ioReadFull
    rw [if_pos hhdr]
  have hnot : ¬ payloadSize r.br ≤ (r.br.drop 8).length := by omega
  unfold payloadSize at hnot
  rw [Read_unfold]
  rw [hint]
  simp only []
  unfold ioReadFull
  rw [if_neg hnot]
  cases hf : r.fault with
  | none =>
    by_cases h0 : (r.br.drop 8).length = 0
    · rw [if_pos h0]
      simp
    · rw [if_neg h0]
      simp
  | some e =>
    simp only []
    refine ⟨?_, ?_, ?_⟩
    · intro h
      cases h
    · intro e1 he1 h1 h2
      cases he1
      simp [h1, h2]
    · split <;> rfl

/-- C10, amended. After a whole 8-byte length field, `Read` first makes the
buffer of `recBytes + padBytes` bytes.  When `make` cannot give it (`canMake`
is false for that size: above `maxAlloc`, or no memory), the call ends in the
run-time failure of `make` and reads no payload byte.  When the buffer is made
and the file ends before `recBytes + padBytes` payload bytes, `Read` returns
`io.EOF` whatever the partial payload holds, without consulting `isTornEntry`;
when instead the read of the payload fails with another error `e` of the file,
`Read` returns `ErrRedoFileOp` wrapping `e`.  In all these cases no record is
produced and `lastValidOff` is unchanged. -/
theorem Read_short_payload (canMake : Nat → Bool)
    (UnmarshalMsg : List UInt8 → Except GoError RedoLog) (r : reader)
    (hhdr : 8 ≤ r.br.length) :
    (canMake (payloadSize r.br) = false →
      (reader.ReadAlloc canMake UnmarshalMsg r).1 = .error .makeFailure ∧
      (reader.ReadAlloc canMake UnmarshalMsg r).2.br = r.br.drop 8 ∧
      (reader.ReadAlloc canMake UnmarshalMsg r).2.lastValidOff = r.lastValidOff) ∧
    (canMake (payloadSize r.br) = true → (r.br.drop 8).length < payloadSize r.br →
      (r.fault = none → (reader.ReadAlloc canMake UnmarshalMsg r).1 = .error .EOF) ∧
      (∀ e, r.fault = some e → e ≠ .EOF → e ≠ .ErrUnexpectedEOF →
        (reader.ReadAlloc canMake UnmarshalMsg r).1 = .error (.ErrRedoFileOp e)) ∧
      (reader.ReadAlloc canMake UnmarshalMsg r).2.lastValidOff = r.lastValidOff) := by
  rw [ReadAlloc_header canMake UnmarshalMsg r hhdr]
  refine ⟨fun hc => ?_, fun hc hshort => ?_⟩
  · rw [if_pos hc]
    exact ⟨rfl, rfl, rfl⟩
  · rw [if_neg (by simp [hc])]
    exact Read_short_payload_granted UnmarshalMsg r hhdr hshort

/-- C10, amended, witness: with `make` failing above `maxAlloc`, the reader
whose file ends three bytes into a payload of eight returns `io.EOF`, and the
reader on the eight bytes `0xff`, which announce `2^56 + 6` payload bytes, ends
in the failure of `make`. -/
theorem Read_short_payload_witness :
    (reader.ReadAlloc (fun n => decide (n ≤ maxAlloc)) unmarshal2 shortReader).1 =
      .error .EOF ∧
    (reader.ReadAlloc (fun n => decide (n ≤ maxAlloc)) unmarshal2 shortReader).2.lastValidOff =
      shortReader.lastValidOff ∧
    payloadSize ffReader.br = 2 ^ 56 + 6 ∧
    (reader.ReadAlloc (fun n => decide (n ≤ maxAlloc)) unmarshal2 ffReader).1 =
      .error .makeFailure ∧
    (reader.ReadAlloc (fun n => decide (n ≤ maxAlloc)) unmarshal2 ffReader).2.br = [] :=
  have h1 := (Read_short_payload (fun n => decide (n ≤ maxAlloc)) unmarshal2 shortReader
    (by decide)).2 (by decide) (by decide)
  have h2 := (Read_short_payload (fun n => decide (n ≤ maxAlloc)) unmarshal2 ffReader
    (by decide)).1 (by decide)
  ⟨h1.1 rfl, h1.2.2, by decide, h2.1, h2.2.1⟩

/-! ## Torn entries -/

theorem cutAt_head (cut : Nat → Bool) : ∀ (xs : List UInt8) (pos : Nat),
    ∃ c cs, cutAt cut pos xs = c :: cs ∧ (xs ≠ [] → c ≠ [])
  | [], _ => ⟨[], [], rfl, fun h => absurd rfl h⟩
  | x :: xs, pos => by
    obtain ⟨c, cs, hc, _⟩ := cutAt_head cut xs (pos + 1)
    rw [cutAt, hc]
    simp only []
    split
    · exact ⟨[x], c :: cs, rfl, fun _ => by simp⟩
    · exact ⟨x :: c, cs, rfl, fun _ => by simp⟩

theorem cutAt_sector (cut : Nat → Bool) : ∀ (xs : List UInt8) (pos d : Nat), 1 ≤ d →
    (∀ q, pos < q → q < pos + d → cut q = false) → cut (pos + d) = true →
    (xs ≠ [] → xs.length ≤ d →
      (cutAt cut pos xs).filter (fun c => !c.isEmpty) = [xs]) ∧
    (d < xs.length →
      (cutAt cut pos xs).filter (fun c => !c.isEmpty)
        = xs.take d :: (cutAt cut (pos + d) (xs.drop d)).filter (fun c => !c.isEmpty))
  | [], _, _, _, _, _ => ⟨fun h => absurd rfl h, fun h => by simp at h⟩
  | x :: xs, pos, d, hd, hno, hcut => by
    obtain ⟨c, cs, hc, hcne⟩ := cutAt_head cut xs (pos + 1)
    rw [cutAt, hc]
    simp only []
    by_cases hd1 : d = 1
    · subst hd1
      rw [if_pos hcut]
      constructor
      · intro _ hlen
        have hxs : xs = [] := by
          apply List.length_eq_zero.mp
          have : xs.length + 1 ≤ 1 := hlen
          omega
        subst hxs
        simp [cutAt] at hc
        obtain ⟨rfl, rfl⟩ := hc
        simp
      · intro _
        rw [← hc]
        simp
    · have hnc : cut (pos + 1) = false := hno (pos + 1) (by omega) (by omega)
      rw [if_neg (by simp [hnc])]
      have ih := cutAt_sector cut xs (pos + 1) (d - 1) (by omega)
        (fun q h1 h2 => hno q (by omega) (by omega))
        (by rw [show pos + 1 + (d - 1) = pos + d by omega]; exact hcut)
      rw [hc] at ih
      by_cases hxs : xs = []
      · subst hxs
        simp [cutAt] at hc
        obtain ⟨rfl, rfl⟩ := hc
        constructor
        · intro _ _
          simp
        · intro hlt
          have : d < 0 + 1 := hlt
          omega
      · have hcn := hcne hxs
        have hfil : (c :: cs).filter (fun c => !c.isEmpty)
            = c :: cs.filter (fun c => !c.isEmpty) := by
          cases c with
          | nil => exact absurd rfl hcn
          | cons _ _ => simp
        rw [hfil] at ih
        constructor
        · intro _ hlen
          have hlen1 : xs.length + 1 ≤ d := hlen
          have h1 := ih.1 hxs (by omega)
          simp only [List.cons.injEq] at h1
          simp [h1.1, h1.2]
        · intro hlt
          have hlt1 : d < xs.length + 1 := hlt
          have h1 := ih.2 (by omega)
          simp only [List.cons.injEq] at h1
          have e1 : (x :: xs).take d = x :: xs.take (d - 1) := by
            obtain ⟨k, rfl⟩ : ∃ k, d = k + 1 := ⟨d - 1, by omega⟩
            simp
          have e2 : (x :: xs).drop d = xs.drop (d - 1) := by
            obtain ⟨k, rfl⟩ : ∃ k, d = k + 1 := ⟨d - 1, by omega⟩
            simp
          rw [e1, e2, show pos + d = pos + 1 + (d - 1) by omega]
          simp [h1.1, h1.2]

theorem splitSectors_eq (data : List UInt8) (base : Int) (hbase : 0 ≤ base)
    (hmax : base + (data.length : Int) < 2 ^ 63) :
    ∀ (budget curOff : Nat) (chunks : List (List UInt8)), data.length - curOff ≤ budget →
      splitSectors data budget (base + (curOff : Int)) curOff chunks
        = chunks ++ (cutAt (fun p => decide ((base + (p : Int)) % 512 = 0)) curOff
            (data.drop curOff)).filter (fun c => !c.isEmpty) := by
  intro budget
  induction budget with
  | zero =>
    intro curOff chunks hb
    rw [splitSectors, List.drop_eq_nil_of_le (by omega)]
    simp [cutAt]
  | succ b ih =>
    intro curOff chunks hb
    rw [splitSectors]
    by_cases hlt : curOff < data.length
    · rw [if_pos hlt]
      simp only [MinSectorSize]
      have htm : Int.tmod (base + (curOff : Int)) ((512 : Nat) : Int)
          = (base + (curOff : Int)) % 512 :=
        Int.tmod_eq_emod (by omega) (by decide)
      rw [htm]
      obtain ⟨d, hd, hd1, hdcut, hdno⟩ : ∃ d : Nat,
          ((512 : Nat) : Int) - (base + (curOff : Int)) % 512 = (d : Int) ∧ 1 ≤ d ∧
          (base + ((curOff + d : Nat) : Int)) % 512 = 0 ∧
          ∀ q : Nat, curOff < q → q < curOff + d → (base + (q : Int)) % 512 ≠ 0 := by
        refine ⟨(512 - (base + (curOff : Int)) % 512).toNat, ?_, ?_, ?_, ?_⟩
        · omega
        · omega
        · omega
        · intro q h1 h2
          omega
      rw [hd]
      have hxs : (data.drop curOff).length = data.length - curOff := List.length_drop _ _
      have hne : data.drop curOff ≠ [] := by
        intro e
        rw [e] at hxs
        simp at hxs
        omega
      have hsec := cutAt_sector (fun p => decide ((base + (p : Int)) % 512 = 0))
        (data.drop curOff) curOff d hd1
        (fun q h1 h2 => by simpa using hdno q h1 h2) (by simpa using hdcut)
      have htake : (data.drop curOff).take (data.length - curOff) = data.drop curOff :=
        List.take_of_length_le (by omega)
      have hend : data.drop (curOff + (data.length - curOff)) = [] :=
        List.drop_eq_nil_of_le (by omega)
      by_cases hbig : (d : Int) > (data.length : Int) - (curOff : Int)
      · rw [if_pos hbig]
        have e1 : ((data.length : Int) - (curOff : Int)).toNat = data.length - curOff := by omega
        have e2 : int64Wrap (base + (curOff : Int) + ((data.length : Int) - (curOff : Int)))
            = base + ((curOff + (data.length - curOff) : Nat) : Int) := by
          rw [int64Wrap_id _ (by omega) (by omega)]
          omega
        rw [e1, e2, ih (curOff + (data.length - curOff)) _ (by omega), hend, htake,
          hsec.1 hne (by omega)]
        simp [cutAt]
      · rw [if_neg hbig]
        have e1 : (d : Int).toNat = d := by omega
        have e2 : int64Wrap (base + (curOff : Int) + (d : Int))
            = base + ((curOff + d : Nat) : Int) := by
          rw [int64Wrap_id _ (by omega) (by omega)]
          omega
        rw [e1, e2, ih (curOff + d) _ (by omega)]
        by_cases heq : d = data.length - curOff
        · rw [heq, hend, htake, ← heq, hsec.1 hne (by omega)]
          simp [cutAt]
        · rw [hsec.2 (by omega), List.drop_drop]
          simp [Nat.add_comm]
    · rw [if_neg hlt, List.drop_eq_nil_of_le (by omega)]
      simp [cutAt]

theorem isTornEntry_eq_tornBySectors (r : reader) (payload : List UInt8)
    (hoff : 0 ≤ r.lastValidOff)
    (hmax : r.lastValidOff + 8 + (payload.length : Int) < 2 ^ 63) :
    reader.isTornEntry r payload = tornBySectors r.lastValidOff payload := by
  have h := splitSectors_eq payload (r.lastValidOff + 8) (by omega) hmax payload.length 0 []
    (by omega)
  unfold reader.isTornEntry tornBySectors
  simp only [frameSizeBytes]
  have e : int64Wrap (r.lastValidOff + ((8 : Nat) : Int))
      = r.lastValidOff + 8 + ((0 : Nat) : Int) := by
    rw [int64Wrap_id _ (by omega) (by omega)]
    omega
  rw [e, h]
  simp

/-- C9. For every payload and every `lastValidOff >= 0` such that the file
offsets of the payload are `int64` values (`lastValidOff + 8 + len(payload) <
2^63`, true of every file that can exist), `isTornEntry` holds exactly when,
after the payload is cut at every position `p` with `lastValidOff + 8 + p` a
multiple of 512, one of the resulting non-empty chunks consists of zero bytes
only. -/
theorem isTornEntry_iff_zero_sector (r : reader) (payload : List UInt8)
    (hoff : 0 ≤ r.lastValidOff)
    (hmax : r.lastValidOff + 8 + (payload.length : Int) < 2 ^ 63) :
    reader.isTornEntry r payload = true ↔
      ∃ c ∈ cutAt (fun p => decide ((r.lastValidOff + 8 + (p : Int)) % 512 = 0)) 0 payload,
        c ≠ [] ∧ ∀ v ∈ c, v = 0 := by
  rw [isTornEntry_eq_tornBySectors r payload hoff hmax]
  unfold tornBySectors
  simp only [List.any_eq_true, List.mem_filter, List.all_eq_true, beq_iff_eq,
    Bool.not_eq_true', List.isEmpty_eq_false]
  constructor
  · rintro ⟨c, ⟨hc, hne⟩, hz⟩
    exact ⟨c, hc, hne, hz⟩
  · rintro ⟨c, hc, hne, hz⟩
    exact ⟨c, ⟨hc, hne⟩, hz⟩

/-- C9, at a payload of six bytes that starts four bytes before a sector
boundary and whose last two bytes, the second sector chunk, are zero. -/
theorem isTornEntry_iff_zero_sector_witness :
    reader.isTornEntry { br := [], fault := none, lastValidOff := 500 } [1, 2, 3, 4, 0, 0] = true ↔
      ∃ c ∈ cutAt (fun p => decide (((500 : Int) + 8 + (p : Int)) % 512 = 0)) 0
          [1, 2, 3, 4, 0, 0],
        c ≠ [] ∧ ∀ v ∈ c, v = 0 :=
  isTornEntry_iff_zero_sector { br := [], fault := none, lastValidOff := 500 }
    [1, 2, 3, 4, 0, 0] (by decide) (by decide)

set_option maxRecDepth 100000 in
/-- Why C9 bounds the offsets: at `lastValidOff = 2^63 - 1` the `int64`
addition `lastValidOff + frameSizeBytes` wraps to a negative offset, Go's `%`
is then negative, and the payload of 505 bytes `1` and a zero byte is one
chunk of 506 bytes, not torn, where the cut at the multiples of 512 gives
chunks of 505 bytes and 1 byte, the second all zero. -/
theorem isTornEntry_int64_wraps :
    reader.isTornEntry { br := [], fault := none, lastValidOff := 2 ^ 63 - 1 }
      (List.replicate 505 1 ++ [0]) = false ∧
    splitSectors (List.replicate 505 1 ++ [0]) 506 (int64Wrap (2 ^ 63 - 1 + 8)) 0 []
      = [List.replicate 505 1 ++ [0]] ∧
    tornBySectors (2 ^ 63 - 1) (List.replicate 505 1 ++ [0]) = true :=
  ⟨by decide, by decide, by decide⟩

/-! ## The sizes that `decodeFrameSize` returns -/

theorem and7 (x : Nat) : x &&& 7 = x % 8 := Nat.and_pow_two_sub_one_eq_mod x 3

theorem decodeFrameSize_val (lenField : Int) :
    (decodeFrameSize lenField).1 = ((uint64OfInt64 lenField % 2 ^ 56 : Nat) : Int) ∧
    (decodeFrameSize lenField).2
      = if lenField < 0 then ((uint64OfInt64 lenField / 2 ^ 56 % 8 : Nat) : Int) else 0 := by
  unfold decodeFrameSize
  simp only [mask56, Nat.and_pow_two_sub_one_eq_mod, and7, Nat.shiftRight_eq_div_pow]
  unfold int64OfUint64
  have h1 : uint64OfInt64 lenField % 2 ^ 56 % 2 ^ 64 < 2 ^ 63 := by omega
  have h2 : uint64OfInt64 lenField / 2 ^ 56 % 8 % 2 ^ 64 < 2 ^ 63 := by omega
  have h3 : uint64OfInt64 lenField % 2 ^ 56 % 2 ^ 64 = uint64OfInt64 lenField % 2 ^ 56 := by
    omega
  have h4 : uint64OfInt64 lenField / 2 ^ 56 % 8 % 2 ^ 64
      = uint64OfInt64 lenField / 2 ^ 56 % 8 := by omega
  have h5 : uint64OfInt64 lenField % 2 ^ 56 < 2 ^ 63 := by omega
  have h6 : uint64OfInt64 lenField / 2 ^ 56 % 8 < 2 ^ 63 := by omega
  simp only [h3, h4, h5, h6, if_true]
  trivial

/-- C13. For every length field, `decodeFrameSize` returns as `recBytes` the
low 56 bits of the field read as an unsigned value, and as `padBytes` 0 when
the field is non-negative and `(field >> 56) & 0x7` when it is negative; hence
`0 <= recBytes < 2^56`, `0 <= padBytes <= 7`, and `recBytes + padBytes` is
never negative. -/
theorem decodeFrameSize_sizes (lenField : Int) :
    (decodeFrameSize lenField).1 = ((uint64OfInt64 lenField % 2 ^ 56 : Nat) : Int) ∧
    (decodeFrameSize lenField).1 = lenField % 2 ^ 56 ∧
    (0 ≤ lenField → (decodeFrameSize lenField).2 = 0) ∧
    (lenField < 0 →
      (decodeFrameSize lenField).2 = ((uint64OfInt64 lenField / 2 ^ 56 % 8 : Nat) : Int) ∧
      (decodeFrameSize lenField).2 = lenField / 2 ^ 56 % 8) ∧
    0 ≤ (decodeFrameSize lenField).1 ∧ (decodeFrameSize lenField).1 < 2 ^ 56 ∧
    0 ≤ (decodeFrameSize lenField).2 ∧ (decodeFrameSize lenField).2 ≤ 7 ∧
    0 ≤ (decodeFrameSize lenField).1 + (decodeFrameSize lenField).2 := by
  obtain ⟨h1, h2⟩ := decodeFrameSize_val lenField
  have hu : ((uint64OfInt64 lenField : Nat) : Int) = lenField % 2 ^ 64 := by
    unfold uint64OfInt64
    omega
  rw [h1, h2]
  refine ⟨rfl, by omega, ?_, ?_, by omega, by omega, ?_, ?_, ?_⟩
  · intro h
    rw [if_neg (by omega)]
  · intro h
    rw [if_pos h]
    exact ⟨rfl, by omega⟩
  · split <;> omega
  · split <;> omega
  · split <;> omega

/-- C14. Frame-size round trip: for every record length `n < 2^56`, with
`p = (8 - n mod 8) mod 8`, the length field of the writer (`n` itself when
`p = 0`, otherwise `n` with the top byte set to `0x80 | p`) decodes to
`(n, p)`. -/
theorem decodeFrameSize_encodeFrameSize (n : Nat) (hn : n < 2 ^ 56) :
    (encodeFrameSize n).2 = (8 - n % 8) % 8 ∧
    (encodeFrameSize n).1 % 2 ^ 56 = n ∧
    (encodeFrameSize n).1 / 2 ^ 56
      = (if (8 - n % 8) % 8 = 0 then 0 else 0x80 ||| (8 - n % 8) % 8) ∧
    decodeFrameSize (int64OfUint64 (encodeFrameSize n).1)
      = ((n : Int), (((8 - n % 8) % 8 : Nat) : Int)) := by
  have hval := encodeFrameSize_val n hn
  have hp7 : (8 - n % 8) % 8 < 8 := Nat.mod_lt _ (by decide)
  refine ⟨rfl, ?_, ?_, (decode_encode n hn).2⟩
  · rw [hval]
    split <;> omega
  · rw [hval]
    have h128 : ∀ p : Nat, p < 8 → (0x80 ||| p) = 128 + p := by
      intro p hp
      interval_cases p <;> rfl
    rw [h128 _ hp7]
    by_cases hp0 : (8 - n % 8) % 8 = 0
    · rw [if_neg (by omega), if_pos hp0]
      omega
    · rw [if_pos hp0, if_neg hp0]
      omega

/-- C14, at a record of 5 bytes: 3 pad bytes. -/
theorem decodeFrameSize_encodeFrameSize_witness :
    (encodeFrameSize 5).2 = (8 - 5 % 8) % 8 ∧
    (encodeFrameSize 5).1 % 2 ^ 56 = 5 ∧
    (encodeFrameSize 5).1 / 2 ^ 56
      = (if (8 - 5 % 8) % 8 = 0 then 0 else 0x80 ||| (8 - 5 % 8) % 8) ∧
    decodeFrameSize (int64OfUint64 (encodeFrameSize 5).1)
      = (((5 : Nat) : Int), (((8 - 5 % 8) % 8 : Nat) : Int)) :=
  decodeFrameSize_encodeFrameSize 5 (by decide)

/-- C15, as stated, fails: the length field 5 decodes to `recBytes = 5`,
`padBytes = 0`, which is not 8-byte aligned, and `Read` reads such a frame
without complaint. -/
theorem Read_unaligned_frame :
    (reader.Read unmarshalTagged
      { br := putUint64 5 ++ [1, 7, 0, 0, 0], fault := none, lastValidOff := 0 }).1
      = .ok (rowLog 7 0) ∧
    decodeFrameSize (int64OfUint64 (leUint64 (putUint64 5))) = (5, 0) ∧
    ¬ ((decodeFrameSize (int64OfUint64 (leUint64 (putUint64 5)))).1 +
        (decodeFrameSize (int64OfUint64 (leUint64 (putUint64 5)))).2) % 8 = 0 :=
  ⟨rfl, rfl, by decide⟩

/-- C15, amended. For every length field that the writer's `encodeFrameSize`
produces (for a record shorter than `2^56` bytes) the decoded sizes are 8-byte
aligned: `(recBytes + padBytes) mod 8 = 0`. -/
theorem decodeFrameSize_aligned (n : Nat) (hn : n < 2 ^ 56) :
    ((decodeFrameSize (int64OfUint64 (encodeFrameSize n).1)).1 +
      (decodeFrameSize (int64OfUint64 (encodeFrameSize n).1)).2) % 8 = 0 := by
  rw [(decode_encode n hn).2]
  have hpad : (encodeFrameSize n).2 = (8 - n % 8) % 8 := rfl
  simp only [hpad]
  omega

/-- C15, amended, at a record of 5 bytes. -/
theorem decodeFrameSize_aligned_witness :
    ((decodeFrameSize (int64OfUint64 (encodeFrameSize 5).1)).1 +
      (decodeFrameSize (int64OfUint64 (encodeFrameSize 5).1)).2) % 8 = 0 :=
  decodeFrameSize_aligned 5 (by decide)

/-! ## What `Read` returns and how far it advances -/

theorem Read_whole_frame (UnmarshalMsg : List UInt8 → Except GoError RedoLog) (r : reader)
    (hhdr : 8 ≤ r.br.length) (hfull : payloadSize r.br ≤ (r.br.drop 8).length) :
    reader.Read UnmarshalMsg r =
      match UnmarshalMsg ((framePayload r.br).take (frameRecBytes r.br)) with
      | .error err =>
        if reader.isTornEntry r (framePayload r.br) then
          (.error .EOF, { r with br := (r.br.drop 8).drop (payloadSize r.br) })
        else (.error (.ErrRedoFileOp err), { r with br := (r.br.drop 8).drop (payloadSize r.br) })
      | .ok redoLog =>
        (.ok redoLog,
          { r with
            br := (r.br.drop 8).drop (payloadSize r.br)
            lastValidOff := int64Wrap (r.lastValidOff + ((frameSizeBytes : Int) +
              (decodeFrameSize (int64OfUint64 (leUint64 (r.br.take 8)))).1 +
              (decodeFrameSize (int64OfUint64 (leUint64 (r.br.take 8)))).2)) }) := by
  have hint : readInt64 r.br r.fault
      = (.ok (int64OfUint64 (leUint64 (r.br.take 8))), r.br.drop 8) := by
    unfold readInt64 ioReadFull
    rw [if_pos hhdr]
  have hfull1 := hfull
  unfold payloadSize at hfull1
  have hpay : ioReadFull (r.br.drop 8) r.fault
      ((decodeFrameSize (int64OfUint64 (leUint64 (r.br.take 8)))).1 +
        (decodeFrameSize (int64OfUint64 (leUint64 (r.br.take 8)))).2).toNat
      = (.ok (framePayload r.br), (r.br.drop 8).drop (payloadSize r.br)) := by
    unfold ioReadFull
    rw [if_pos hfull1]
    rfl
  rw [Read_unfold]
  rw [hint]
  simp only []
  rw [hpay]
  rfl

theorem Read_short_header (UnmarshalMsg : List UInt8 → Except GoError RedoLog) (r : reader)
    (hhdr : ¬ 8 ≤ r.br.length) :
    (∃ e, (reader.Read UnmarshalMsg r).1 = .error e) ∧
    (reader.Read UnmarshalMsg r).2.lastValidOff = r.lastValidOff := by
  rw [Read_unfold]
  unfold readInt64 ioReadFull
  rw [if_neg hhdr]
  cases r.fault with
  | none =>
    by_cases h0 : r.br.length = 0
    · rw [if_pos h0]
      exact ⟨⟨_, rfl⟩, rfl⟩
    · rw [if_neg h0]
      exact ⟨⟨_, rfl⟩, rfl⟩
  | some e =>
    simp only []
    split
    · exact ⟨⟨_, rfl⟩, rfl⟩
    · exact ⟨⟨_, rfl⟩, rfl⟩

theorem Read_short_payload_err (UnmarshalMsg : List UInt8 → Except GoError RedoLog)
    (r : reader) (hhdr : 8 ≤ r.br.length) (hshort : ¬ payloadSize r.br ≤ (r.br.drop 8).length) :
    (∃ e, (reader.Read UnmarshalMsg r).1 = .error e) ∧
    (reader.Read UnmarshalMsg r).2.lastValidOff = r.lastValidOff := by
  have hint : readInt64 r.br r.fault
      = (.ok (int64OfUint64 (leUint64 (r.br.take 8))), r.br.drop 8) := by
    unfold readInt64 ioReadFull
    rw [if_pos hhdr]
  unfold payloadSize at hshort
  rw [Read_unfold]
  rw [hint]
  simp only []
  unfold ioReadFull
  rw [if_neg hshort]
  cases r.fault with
  | none =>
    by_cases h0 : (r.br.drop 8).length = 0
    · rw [if_pos h0]
      exact ⟨⟨_, rfl⟩, rfl⟩
    · rw [if_neg h0]
      exact ⟨⟨_, rfl⟩, rfl⟩
  | some e =>
    simp only []
    split
    · exact ⟨⟨_, rfl⟩, rfl⟩
    · exact ⟨⟨_, rfl⟩, rfl⟩

/-- C11. When the length field and all `recBytes + padBytes` payload bytes are
read but deserializing the first `recBytes` bytes fails, `Read` returns
`io.EOF` if `isTornEntry` holds for the payload, and otherwise the
deserialization error wrapped as `ErrRedoFileOp`, which is not `io.EOF`. -/
theorem Read_deserialize_failure (UnmarshalMsg : List UInt8 → Except GoError RedoLog)
    (r : reader) (err : GoError) (hhdr : 8 ≤ r.br.length)
    (hfull : payloadSize r.br ≤ (r.br.drop 8).length)
    (hum : UnmarshalMsg ((framePayload r.br).take (frameRecBytes r.br)) = .error err) :
    (reader.isTornEntry r (framePayload r.br) = true →
      (reader.Read UnmarshalMsg r).1 = .error .EOF) ∧
    (reader.isTornEntry r (framePayload r.br) = false →
      (reader.Read UnmarshalMsg r).1 = .error (.ErrRedoFileOp err)) ∧
    GoError.ErrRedoFileOp err ≠ GoError.EOF := by
  rw [Read_whole_frame UnmarshalMsg r hhdr hfull, hum]
  refine ⟨?_, ?_, fun h => by cases h⟩
  · intro ht
    simp only [ht, if_true]
  · intro ht
    simp [ht]

set_option maxRecDepth 100000 in
/-- C11, at the scenarios of the spec: after the records 7 and 11 (242 bytes
each), a length field that announces 40 bytes, followed by 20 payload bytes
and by 20 zero bytes that start at the file offset 512, gives `io.EOF`; with
40 non-zero bytes instead it gives the wrapped deserialization error. -/
theorem Read_deserialize_failure_witness :
    ((reader.isTornEntry
        (readMany unmarshalTagged 2
          { br := frame242 7 ++ frame242 11 ++ tornTail, fault := none, lastValidOff := 0 }).2
        (framePayload (readMany unmarshalTagged 2
          { br := frame242 7 ++ frame242 11 ++ tornTail, fault := none,
            lastValidOff := 0 }).2.br) = true →
      (reader.Read unmarshalTagged
        (readMany unmarshalTagged 2
          { br := frame242 7 ++ frame242 11 ++ tornTail, fault := none,
            lastValidOff := 0 }).2).1 = .error .EOF) ∧
    (reader.isTornEntry
        (readMany unmarshalTagged 2
          { br := frame242 7 ++ frame242 11 ++ tornTail, fault := none, lastValidOff := 0 }).2
        (framePayload (readMany unmarshalTagged 2
          { br := frame242 7 ++ frame242 11 ++ tornTail, fault := none,
            lastValidOff := 0 }).2.br) = false →
      (reader.Read unmarshalTagged
        (readMany unmarshalTagged 2
          { br := frame242 7 ++ frame242 11 ++ tornTail, fault := none,
            lastValidOff := 0 }).2).1 = .error (.ErrRedoFileOp (.other 7))) ∧
    GoError.ErrRedoFileOp (.other 7) ≠ GoError.EOF) ∧
    (readMany unmarshalTagged 3
      { br := frame242 7 ++ frame242 11 ++ tornTail, fault := none, lastValidOff := 0 }).1
      = [.ok (rowLog 7 5), .ok (rowLog 11 5), .error .EOF] ∧
    (readMany unmarshalTagged 3
      { br := frame242 7 ++ frame242 11 ++ garbageTail, fault := none, lastValidOff := 0 }).1
      = [.ok (rowLog 7 5), .ok (rowLog 11 5), .error (.ErrRedoFileOp (.other 7))] :=
  ⟨Read_deserialize_failure unmarshalTagged
      (readMany unmarshalTagged 2
        { br := frame242 7 ++ frame242 11 ++ tornTail, fault := none, lastValidOff := 0 }).2
      (.other 7) (by decide) (by decide) rfl,
    rfl, rfl⟩

theorem Read_ok_consumed (UnmarshalMsg : List UInt8 → Except GoError RedoLog) (r : reader)
    (x : RedoLog) (hx : (reader.Read UnmarshalMsg r).1 = .ok x) :
    8 ≤ r.br.length ∧ payloadSize r.br ≤ (r.br.drop 8).length ∧
    (reader.Read UnmarshalMsg r).2.br = (r.br.drop 8).drop (payloadSize r.br) ∧
    (reader.Read UnmarshalMsg r).2.lastValidOff
      = int64Wrap (r.lastValidOff + (8 +
          (decodeFrameSize (int64OfUint64 (leUint64 (r.br.take 8)))).1 +
          (decodeFrameSize (int64OfUint64 (leUint64 (r.br.take 8)))).2)) := by
  by_cases hhdr : 8 ≤ r.br.length
  · by_cases hfull : payloadSize r.br ≤ (r.br.drop 8).length
    · refine ⟨hhdr, hfull, ?_, ?_⟩
      · rw [Read_whole_frame UnmarshalMsg r hhdr hfull] at hx ⊢
        cases hu : UnmarshalMsg ((framePayload r.br).take (frameRecBytes r.br)) with
        | error e =>
          rw [hu] at hx
          simp only [] at hx
          split at hx <;> cases hx
        | ok y => rfl
      · rw [Read_whole_frame UnmarshalMsg r hhdr hfull] at hx ⊢
        cases hu : UnmarshalMsg ((framePayload r.br).take (frameRecBytes r.br)) with
        | error e =>
          rw [hu] at hx
          simp only [] at hx
          split at hx <;> cases hx
        | ok y => rfl
    · obtain ⟨⟨e, he⟩, _⟩ := Read_short_payload_err UnmarshalMsg r hhdr hfull
      rw [he] at hx
      cases hx
  · obtain ⟨⟨e, he⟩, _⟩ := Read_short_header UnmarshalMsg r hhdr
    rw [he] at hx
    cases hx

theorem readMany_ok_offset (UnmarshalMsg : List UInt8 → Except GoError RedoLog) :
    ∀ (k : Nat) (r : reader) (xs : List RedoLog), 0 ≤ r.lastValidOff →
      r.lastValidOff + (r.br.length : Int) < 2 ^ 63 →
      (readMany UnmarshalMsg k r).1 = xs.map Except.ok →
      (readMany UnmarshalMsg k r).2.lastValidOff + ((readMany UnmarshalMsg k r).2.br.length : Int)
        = r.lastValidOff + (r.br.length : Int)
  | 0, _, _, _, _, _ => rfl
  | k + 1, r, xs, h0, hmax, h => by
    rw [readMany] at h ⊢
    simp only [] at h ⊢
    cases xs with
    | nil => simp at h
    | cons x rest =>
      simp only [List.map_cons, List.cons.injEq] at h
      obtain ⟨h1, h2⟩ := h
      obtain ⟨hhdr, hfull, hbr, hoff⟩ := Read_ok_consumed UnmarshalMsg r x h1
      have hb := decodeFrameSize_sizes (int64OfUint64 (leUint64 (r.br.take 8)))
      have hl : (r.br.drop 8).length = r.br.length - 8 := List.length_drop _ _
      have hlen : ((reader.Read UnmarshalMsg r).2.br.length : Int)
          = (r.br.length : Int) - 8 - (payloadSize r.br : Int) := by
        rw [hbr, List.length_drop, List.length_drop]
        omega
      have hps : (payloadSize r.br : Int)
          = (decodeFrameSize (int64OfUint64 (leUint64 (r.br.take 8)))).1 +
            (decodeFrameSize (int64OfUint64 (leUint64 (r.br.take 8)))).2 := by
        unfold payloadSize
        omega
      have hw : (reader.Read UnmarshalMsg r).2.lastValidOff
          = r.lastValidOff + 8 + (payloadSize r.br : Int) := by
        rw [hoff, int64Wrap_id _ (by omega) (by omega)]
        omega
      rw [readMany_ok_offset UnmarshalMsg k _ rest (by omega) (by omega) h2]
      omega

theorem ReadAlloc_cases (canMake : Nat → Bool)
    (UnmarshalMsg : List UInt8 → Except GoError RedoLog) (r : reader) :
    reader.ReadAlloc canMake UnmarshalMsg r = reader.Read UnmarshalMsg r ∨
    reader.ReadAlloc canMake UnmarshalMsg r =
      (.error .makeFailure, { r with br := r.br.drop 8 }) := by
  by_cases hhdr : 8 ≤ r.br.length
  · rw [ReadAlloc_header canMake UnmarshalMsg r hhdr]
    by_cases hc : canMake (payloadSize r.br) = false
    · rw [if_pos hc]; exact Or.inr rfl
    · rw [if_neg hc]; exact Or.inl rfl
  · exact Or.inl (ReadAlloc_granted canMake UnmarshalMsg r (Or.inl (by omega)))

theorem Read_error_offset (UnmarshalMsg : List UInt8 → Except GoError RedoLog) (r : reader)
    (e : GoError) (he : (reader.Read UnmarshalMsg r).1 = .error e) :
    (reader.Read UnmarshalMsg r).2.lastValidOff = r.lastValidOff := by
  by_cases hhdr : 8 ≤ r.br.length
  · by_cases hfull : payloadSize r.br ≤ (r.br.drop 8).length
    · rw [Read_whole_frame UnmarshalMsg r hhdr hfull] at he ⊢
      cases hu : UnmarshalMsg ((framePayload r.br).take (frameRecBytes r.br)) with
      | error e1 =>
        simp only []
        split <;> rfl
      | ok y =>
        rw [hu] at he
        cases he
    · exact (Read_short_payload_err UnmarshalMsg r hhdr hfull).2
  · exact (Read_short_header UnmarshalMsg r hhdr).2

/-- C12. Whether or not `make` gives the buffer (`canMake`): after `Read`,
`lastValidOff` is the one before plus exactly `8 + recBytes + padBytes` of the
decoded frame when `Read` succeeds (the `int64` sum, which is the exact sum
when the offsets are `int64` values: `0 ≤ lastValidOff` and the sum is below
`2^63`), and the one before when `Read` returns `io.EOF` or any other error
(also when it ends in the failure of `make`); hence after `k` successful reads
on a file whose offsets are `int64` values `lastValidOff` has advanced by the
number of bytes read, so that on a fresh reader it is the file offset that
follows the `k`-th record. -/
theorem Read_lastValidOff (UnmarshalMsg : List UInt8 → Except GoError RedoLog) (r : reader) :
    (∀ canMake x, (reader.ReadAlloc canMake UnmarshalMsg r).1 = .ok x →
      (reader.ReadAlloc canMake UnmarshalMsg r).2.lastValidOff
        = int64Wrap (r.lastValidOff + (8 +
            (decodeFrameSize (int64OfUint64 (leUint64 (r.br.take 8)))).1 +
            (decodeFrameSize (int64OfUint64 (leUint64 (r.br.take 8)))).2)) ∧
      (0 ≤ r.lastValidOff →
        r.lastValidOff + 8 + (decodeFrameSize (int64OfUint64 (leUint64 (r.br.take 8)))).1 +
            (decodeFrameSize (int64OfUint64 (leUint64 (r.br.take 8)))).2 < 2 ^ 63 →
        (reader.ReadAlloc canMake UnmarshalMsg r).2.lastValidOff
          = r.lastValidOff + 8 +
              (decodeFrameSize (int64OfUint64 (leUint64 (r.br.take 8)))).1 +
              (decodeFrameSize (int64OfUint64 (leUint64 (r.br.take 8)))).2)) ∧
    (∀ canMake e, (reader.ReadAlloc canMake UnmarshalMsg r).1 = .error e →
      (reader.ReadAlloc canMake UnmarshalMsg r).2.lastValidOff = r.lastValidOff) ∧
    (∀ (k : Nat) (xs : List RedoLog), 0 ≤ r.lastValidOff →
      r.lastValidOff + (r.br.length : Int) < 2 ^ 63 →
      (readMany UnmarshalMsg k r).1 = xs.map Except.ok →
      (readMany UnmarshalMsg k r).2.lastValidOff
        = r.lastValidOff + ((r.br.length : Int) -
            ((readMany UnmarshalMsg k r).2.br.length : Int))) := by
  refine ⟨?_, ?_, ?_⟩
  · intro canMake x hx
    rcases ReadAlloc_cases canMake UnmarshalMsg r with hc | hc
    · rw [hc] at hx ⊢
      obtain ⟨_, _, _, hoff⟩ := Read_ok_consumed UnmarshalMsg r x hx
      refine ⟨hoff, fun h0 hmax => ?_⟩
      have hb := decodeFrameSize_sizes (int64OfUint64 (leUint64 (r.br.take 8)))
      rw [hoff, int64Wrap_id _ (by omega) (by omega)]
      omega
    · rw [hc] at hx
      cases hx
  · intro canMake e he
    rcases ReadAlloc_cases canMake UnmarshalMsg r with hc | hc
    · rw [hc] at he ⊢
      exact Read_error_offset UnmarshalMsg r e he
    · rw [hc]
  · intro k xs h0 hmax h
    have := readMany_ok_offset UnmarshalMsg k r xs h0 hmax h
    omega

set_option maxRecDepth 100000 in
/-- C12, at the file of the records 7 and 11 (242 bytes each) and a torn
tail: after two successful reads `lastValidOff` is 484, and the third read,
which returns `io.EOF`, leaves it there. -/
theorem Read_lastValidOff_witness :
    (readMany unmarshalTagged 2
      { br := frame242 7 ++ frame242 11 ++ tornTail, fault := none, lastValidOff := 0 }).2.lastValidOff
      = 0 + (((frame242 7 ++ frame242 11 ++ tornTail).length : Int) -
          ((readMany unmarshalTagged 2
            { br := frame242 7 ++ frame242 11 ++ tornTail, fault := none,
              lastValidOff := 0 }).2.br.length : Int)) ∧
    (readMany unmarshalTagged 2
      { br := frame242 7 ++ frame242 11 ++ tornTail, fault := none, lastValidOff := 0 }).2.lastValidOff
      = 484 ∧
    (reader.Read unmarshalTagged
      (readMany unmarshalTagged 2
        { br := frame242 7 ++ frame242 11 ++ tornTail, fault := none,
          lastValidOff := 0 }).2).2.lastValidOff = 484 :=
  ⟨(Read_lastValidOff unmarshalTagged
      { br := frame242 7 ++ frame242 11 ++ tornTail, fault := none, lastValidOff := 0 }).2.2 2
      [rowLog 7 5, rowLog 11 5] (by decide) (by decide) rfl,
    rfl, rfl⟩

/-! ## File names: `shouldOpen` and `openSelectedFiles` -/

theorem shouldOpen_of_parse_ok (startTs endTs commitTs : Nat) (name wanted kind : List Char)
    (h : parseLogFileName name = .ok (commitTs, kind)) :
    shouldOpen startTs endTs name wanted =
      .ok (decide (kind = wanted ∧
        (filepathExt name = TmpEXT ∨ (startTs < commitTs ∧ commitTs ≤ endTs)))) := by
  unfold shouldOpen
  rw [h]
  simp only []
  by_cases hk : kind = wanted
  · rw [if_neg (by simpa using hk)]
    by_cases he : filepathExt name = TmpEXT
    · rw [if_pos he]; simp [hk, he]
    · rw [if_neg he]
      by_cases hw : commitTs > startTs ∧ commitTs ≤ endTs
      · rw [if_pos hw]; simp [hk, he, hw.1, hw.2]
      · rw [if_neg hw]
        have : ¬ (startTs < commitTs ∧ commitTs ≤ endTs) := hw
        simp [hk, he, this]
  · rw [if_pos hk]; simp [hk]

theorem shouldOpen_of_parse_error (startTs endTs : Nat) (name wanted : List Char) (err : GoError)
    (h : parseLogFileName name = .error err) :
    shouldOpen startTs endTs name wanted = .error err := by
  unfold shouldOpen
  rw [h]

theorem openLoop_skip (OpenFile : List Char → Except GoError openedFile)
    (startTs endTs : Nat) (name wanted : List Char) (err : GoError)
    (h : parseLogFileName name = .error err) (files : List (List Char))
    (logFiles : List openedFile) :
    openLoop OpenFile wanted startTs endTs (name :: files) logFiles =
      openLoop OpenFile wanted startTs endTs files logFiles := by
  rw [openLoop, shouldOpen_of_parse_error startTs endTs name wanted err h]

theorem openLoop_skip_inside (OpenFile : List Char → Except GoError openedFile)
    (startTs endTs : Nat) (name wanted : List Char) (err : GoError)
    (h : parseLogFileName name = .error err) (after : List (List Char)) :
    ∀ (before : List (List Char)) (logFiles : List openedFile),
      openLoop OpenFile wanted startTs endTs (before ++ name :: after) logFiles =
        openLoop OpenFile wanted startTs endTs (before ++ after) logFiles := by
  intro before
  induction before with
  | nil => intro logFiles; exact openLoop_skip OpenFile startTs endTs name wanted err h after logFiles
  | cons f before ih =>
    intro logFiles
    simp only [List.cons_append]
    rw [openLoop, openLoop]
    cases shouldOpen startTs endTs f wanted with
    | error e => exact ih logFiles
    | ok ret =>
      cases ret with
      | false => exact ih logFiles
      | true =>
        simp only [if_true]
        cases OpenFile f with
        | error e => rfl
        | ok file => exact ih (logFiles ++ [file])

/-- C16: for a name that parses to `(commitTs, kind)`, `shouldOpen` returns
`true` exactly when `kind` is the wanted kind and the extension of the name is
`.tmp` or `startTs < commitTs ≤ endTs`; for a name that does not parse it
returns the error, and the loop of `openSelectedFiles` then goes on with the
next entry as if the name were not in the directory. -/
theorem shouldOpen_window (startTs endTs : Nat) (name wanted : List Char) :
    (∀ commitTs kind, parseLogFileName name = .ok (commitTs, kind) →
      shouldOpen startTs endTs name wanted =
        .ok (decide (kind = wanted ∧
          (filepathExt name = TmpEXT ∨ (startTs < commitTs ∧ commitTs ≤ endTs))))) ∧
    (∀ err, parseLogFileName name = .error err →
      shouldOpen startTs endTs name wanted = .error err ∧
      ∀ (OpenFile : List Char → Except GoError openedFile)
        (before after : List (List Char)),
        openSelectedFiles (.ok (before ++ name :: after)) OpenFile wanted startTs endTs =
          openSelectedFiles (.ok (before ++ after)) OpenFile wanted startTs endTs) := by
  refine ⟨fun commitTs kind h => shouldOpen_of_parse_ok startTs endTs commitTs name wanted kind h,
    fun err h => ⟨shouldOpen_of_parse_error startTs endTs name wanted err h, ?_⟩⟩
  intro OpenFile before after
  exact openLoop_skip_inside OpenFile startTs endTs name wanted err h after before []

/-- C16, witness: `cap_cf_1_row_5.log` parses to commit timestamp 5 of kind
`row`; `cap_cf_meta.meta` does not parse and is skipped. -/
theorem shouldOpen_window_witness :
    shouldOpen 3 7 "cap_cf_1_row_5.log".toList DefaultRowLogFileName =
      .ok (decide (DefaultRowLogFileName = DefaultRowLogFileName ∧
        (filepathExt "cap_cf_1_row_5.log".toList = TmpEXT ∨ (3 < 5 ∧ 5 ≤ 7)))) ∧
    shouldOpen 3 7 "cap_cf_meta.meta".toList DefaultRowLogFileName =
      .error (.msg "bad log name, file name extension not match") :=
  ⟨(shouldOpen_window 3 7 "cap_cf_1_row_5.log".toList DefaultRowLogFileName).1 5
      DefaultRowLogFileName rfl,
   ((shouldOpen_window 3 7 "cap_cf_meta.meta".toList DefaultRowLogFileName).2 _ rfl).1⟩

/-! ## Selecting the remote files -/

theorem walkSelect_all_parse (fixedName : List Char) (walkErr : Option GoError) :
    ∀ (paths files : List (List Char)),
      (∀ p ∈ paths, ∃ r, parseLogFileName (filepathBase p) = .ok r) →
      walkSelect fixedName walkErr paths files =
        (files ++ paths.filter (hasKind fixedName), walkErr) := by
  intro paths
  induction paths with
  | nil => intro files _; simp [walkSelect]
  | cons p paths ih =>
    intro files h
    obtain ⟨⟨ts, name⟩, hr⟩ := h p (List.mem_cons_self _ _)
    have ih2 := fun fs => ih fs (fun q hq => h q (List.mem_cons_of_mem _ hq))
    rw [walkSelect, hr]
    simp only []
    by_cases hn : name = fixedName
    · rw [if_pos hn, ih2]
      have : hasKind fixedName p = true := by simp [hasKind, hr, hn]
      simp [List.filter_cons, this]
    · rw [if_neg hn, ih2]
      have : hasKind fixedName p = false := by simp [hasKind, hr, hn]
      simp [List.filter_cons, this]

theorem walkSelect_unparseable (fixedName : List Char) (walkErr : Option GoError) :
    ∀ (paths files : List (List Char)) (path : List Char) (err : GoError),
      path ∈ paths → parseLogFileName (filepathBase path) = .error err →
      ∃ fs p e, p ∈ paths ∧ parseLogFileName (filepathBase p) = .error e ∧
        walkSelect fixedName walkErr paths files = (fs, some e) := by
  intro paths
  induction paths with
  | nil => intro files path err hmem; simp at hmem
  | cons q paths ih =>
    intro files path err hmem hp
    cases hq : parseLogFileName (filepathBase q) with
    | error e =>
      exact ⟨files, q, e, List.mem_cons_self _ _, hq, by rw [walkSelect, hq]⟩
    | ok r =>
      obtain ⟨ts, name⟩ := r
      have hmem2 : path ∈ paths := by
        rcases List.mem_cons.1 hmem with h | h
        · subst h; rw [hq] at hp; cases hp
        · exact h
      rw [walkSelect, hq]
      simp only []
      by_cases hn : name = fixedName
      · rw [if_pos hn]
        obtain ⟨fs, p, e, h1, h2, h3⟩ := ih (files ++ [q]) path err hmem2 hp
        exact ⟨fs, p, e, List.mem_cons_of_mem _ h1, h2, h3⟩
      · rw [if_neg hn]
        obtain ⟨fs, p, e, h1, h2, h3⟩ := ih files path err hmem2 hp
        exact ⟨fs, p, e, List.mem_cons_of_mem _ h1, h2, h3⟩

/-- C18: when the walk of the store does not fail and every base name parses,
`selectDownLoadFile` returns the paths of the requested kind in walk order;
but a single entry whose base name does not parse (a `.meta` file, say) is
not skipped: the callback returns the parse error, the walk stops and
`selectDownLoadFile` fails with `ErrS3StorageAPI` wrapping that error, also
when the store itself does not fail. -/
theorem selectDownLoadFile_unparseable_fails (s3storage : ExternalStorage)
    (fixedName : List Char) :
    ((∀ p ∈ s3storage.walk, ∃ r, parseLogFileName (filepathBase p) = .ok r) →
      s3storage.walkErr = none →
      selectDownLoadFile s3storage fixedName =
        .ok (s3storage.walk.filter (hasKind fixedName))) ∧
    (∀ path err, path ∈ s3storage.walk →
      parseLogFileName (filepathBase path) = .error err →
      ∃ p e, p ∈ s3storage.walk ∧ parseLogFileName (filepathBase p) = .error e ∧
        selectDownLoadFile s3storage fixedName = .error (.ErrS3StorageAPI e)) := by
  constructor
  · intro h hw
    unfold selectDownLoadFile
    rw [walkSelect_all_parse fixedName s3storage.walkErr s3storage.walk [] h, hw]
    simp
  · intro path err hmem hp
    obtain ⟨fs, p, e, h1, h2, h3⟩ :=
      walkSelect_unparseable fixedName s3storage.walkErr s3storage.walk [] path err hmem hp
    refine ⟨p, e, h1, h2, ?_⟩
    unfold selectDownLoadFile
    rw [h3]

/-- C18, witness: a store that lists `a/cap_cf_meta.meta` and
`a/cap_cf_1_row_5.log` and does not fail; selecting the `row` files fails. -/
theorem selectDownLoadFile_unparseable_fails_witness :
    (∃ p e, p ∈ [remoteMeta, remoteRowLog] ∧ parseLogFileName (filepathBase p) = .error e ∧
      selectDownLoadFile ⟨[remoteMeta, remoteRowLog], none, fun _ => .ok []⟩
        DefaultRowLogFileName = .error (.ErrS3StorageAPI e)) ∧
    selectDownLoadFile ⟨[remoteMeta, remoteRowLog], none, fun _ => .ok []⟩
        DefaultRowLogFileName =
      .error (.ErrS3StorageAPI (.msg "bad log name, file name extension not match")) ∧
    selectDownLoadFile ⟨[remoteRowLog], none, fun _ => .ok []⟩ DefaultRowLogFileName =
      .ok [remoteRowLog] :=
  ⟨(selectDownLoadFile_unparseable_fails ⟨[remoteMeta, remoteRowLog], none, fun _ => .ok []⟩
      DefaultRowLogFileName).2 remoteMeta (.msg "bad log name, file name extension not match")
      (List.mem_cons_self _ _) rfl, rfl, rfl⟩

/-! ## The round trip of a file name -/

theorem digitChar_decimal (d : Nat) (h : d < 10) :
    isDecimalDigit (Nat.digitChar d) = true ∧ (Nat.digitChar d).toNat - 48 = d := by
  interval_cases d <;> decide

theorem toDigitsCore_digits : ∀ (f n : Nat) (ds : List Char),
    (∀ c ∈ ds, isDecimalDigit c = true) →
    ∀ c ∈ Nat.toDigitsCore 10 f n ds, isDecimalDigit c = true := by
  intro f
  induction f with
  | zero => intro n ds h; simpa [Nat.toDigitsCore] using h
  | succ f ih =>
    intro n ds h
    have hd : isDecimalDigit (Nat.digitChar (n % 10)) = true :=
      (digitChar_decimal (n % 10) (Nat.mod_lt _ (by decide))).1
    have hcons : ∀ c ∈ Nat.digitChar (n % 10) :: ds, isDecimalDigit c = true := by
      intro c hc
      rcases List.mem_cons.1 hc with h1 | h1
      · rw [h1]; exact hd
      · exact h c h1
    rw [Nat.toDigitsCore]
    by_cases h0 : n / 10 = 0
    · rw [if_pos h0]; exact hcons
    · rw [if_neg h0]; exact ih _ _ hcons

theorem toDigitsCore_ne_nil : ∀ (f n : Nat) (ds : List Char), 0 < f →
    Nat.toDigitsCore 10 f n ds ≠ [] := by
  intro f
  induction f with
  | zero => intro n ds h; omega
  | succ f ih =>
    intro n ds _
    rw [Nat.toDigitsCore]
    by_cases h0 : n / 10 = 0
    · rw [if_pos h0]; simp
    · rw [if_neg h0]
      cases f with
      | zero => simp [Nat.toDigitsCore]
      | succ f => exact ih _ _ (Nat.succ_pos _)

theorem toDigitsCore_value : ∀ (f n : Nat) (ds : List Char), n < f →
    (Nat.toDigitsCore 10 f n ds).foldl (fun acc c => acc * 10 + (c.toNat - 48)) 0 =
      ds.foldl (fun acc c => acc * 10 + (c.toNat - 48)) n := by
  intro f
  induction f with
  | zero => intro n ds h; omega
  | succ f ih =>
    intro n ds h
    have hd : (Nat.digitChar (n % 10)).toNat - 48 = n % 10 :=
      (digitChar_decimal (n % 10) (Nat.mod_lt _ (by decide))).2
    rw [Nat.toDigitsCore]
    by_cases h0 : n / 10 = 0
    · rw [if_pos h0]
      simp only [List.foldl_cons, hd]
      have : 0 * 10 + n % 10 = n := by omega
      rw [this]
    · rw [if_neg h0, ih _ _ (by omega)]
      simp only [List.foldl_cons, hd]
      have : n / 10 * 10 + n % 10 = n := by omega
      rw [this]

theorem decimal_digits (n : Nat) : ∀ c ∈ decimal n, isDecimalDigit c = true :=
  toDigitsCore_digits (n + 1) n [] (by simp)

theorem decimal_ne_nil (n : Nat) : decimal n ≠ [] :=
  toDigitsCore_ne_nil (n + 1) n [] (Nat.succ_pos _)

theorem decimalValue_decimal (n : Nat) : decimalValue (decimal n) = n := by
  unfold decimalValue decimal Nat.toDigits
  rw [toDigitsCore_value (n + 1) n [] (Nat.lt_succ_self _)]
  rfl

theorem digit_not_space (c : Char) (h : isDecimalDigit c = true) :
    isSpace c = false ∧ c ≠ '_' := by
  unfold isDecimalDigit at h
  have h2 : 48 ≤ c.toNat ∧ c.toNat ≤ 57 := by simpa using h
  constructor
  · unfold isSpace
    simp only [decide_eq_false_iff_not]
    omega
  · intro hc
    rw [hc] at h2
    revert h2
    decide

theorem not_space_ne_newline (c : Char) (h : isSpace c = false) : c ≠ '\n' := by
  intro hc
  rw [hc] at h
  revert h
  decide

theorem takeWhile_run (p : Char → Bool) : ∀ (w : List Char) (c : Char) (rest : List Char),
    (∀ x ∈ w, p x = true) → p c = false →
    (w ++ c :: rest).takeWhile p = w ∧ (w ++ c :: rest).dropWhile p = c :: rest := by
  intro w
  induction w with
  | nil => intro c rest _ hc; simp [List.takeWhile, List.dropWhile, hc]
  | cons x w ih =>
    intro c rest h hc
    have hx : p x = true := h x (List.mem_cons_self _ _)
    have := ih c rest (fun y hy => h y (List.mem_cons_of_mem _ hy)) hc
    simp [List.takeWhile, List.dropWhile, hx, this.1, this.2]

theorem SkipSpace_not_space (c : Char) (s : List Char) (h : isSpace c = false) :
    SkipSpace (c :: s) = .ok (c :: s) := by
  rw [SkipSpace, if_neg (not_space_ne_newline c h), h]
  rfl

theorem scanString_field (w rest : List Char) (hne : w ≠ [])
    (hw : ∀ c ∈ w, isSpace c = false) :
    scanString (w ++ ' ' :: rest) = .ok (w, ' ' :: rest) := by
  obtain ⟨x, t, rfl⟩ := List.exists_cons_of_ne_nil hne
  have hx : isSpace x = false := hw x (List.mem_cons_self _ _)
  have hrun := takeWhile_run (fun c => !isSpace c) (x :: t) ' ' rest
    (by intro y hy; simp [hw y hy]) (by decide)
  unfold scanString
  rw [List.cons_append, SkipSpace_not_space x _ hx]
  simp only []
  rw [if_neg (by simp)]
  rw [← List.cons_append, hrun.1, hrun.2]

theorem scanSpace_field (x : Char) (t : List Char) (hx : isSpace x = false) :
    scanSpace (' ' :: x :: t) = .ok (x :: t) := by
  rw [scanSpace]
  rw [if_neg (by decide), if_neg (by decide)]
  simp [List.dropWhile, hx]

theorem scanUint_decimal (n : Nat) (c : Char) (rest : List Char) (hn : n < 2 ^ 64)
    (hc : isDecimalDigit c = false) :
    scanUint (decimal n ++ c :: rest) = .ok (n, c :: rest) := by
  obtain ⟨x, t, hxt⟩ := List.exists_cons_of_ne_nil (decimal_ne_nil n)
  have hx : isSpace x = false :=
    (digit_not_space x (decimal_digits n x (by rw [hxt]; exact List.mem_cons_self _ _))).1
  have hrun := takeWhile_run isDecimalDigit (decimal n) c rest (decimal_digits n) hc
  unfold scanUint
  rw [hxt, List.cons_append, SkipSpace_not_space x _ hx]
  simp only []
  rw [if_neg (by simp)]
  rw [← List.cons_append, ← hxt, hrun.1, hrun.2, if_neg (decimal_ne_nil n),
    decimalValue_decimal, if_pos hn]

theorem scanLiteral_self : ∀ (lit rest : List Char), scanLiteral lit (lit ++ rest) = .ok rest := by
  intro lit
  induction lit with
  | nil => intro rest; cases rest <;> rfl
  | cons c lit ih => intro rest; rw [List.cons_append, scanLiteral, if_pos rfl]; exact ih rest

theorem filepathExt_log (pre : List Char) : filepathExt (pre ++ LogEXT) = LogEXT := by
  simp [filepathExt, LogEXT, extLoop]

theorem filepathExt_log_tmp (pre : List Char) :
    filepathExt (pre ++ (LogEXT ++ TmpEXT)) = TmpEXT := by
  simp [filepathExt, LogEXT, TmpEXT, extLoop]

theorem replaceUnderscores_id (w : List Char) (h : ∀ c ∈ w, c ≠ '_') :
    replaceUnderscores w = w := by
  unfold replaceUnderscores
  induction w with
  | nil => rfl
  | cons x w ih =>
    rw [List.map_cons, if_neg (h x (List.mem_cons_self _ _)),
      ih (fun c hc => h c (List.mem_cons_of_mem _ hc))]

theorem replaceUnderscores_append (a b : List Char) :
    replaceUnderscores (a ++ b) = replaceUnderscores a ++ replaceUnderscores b := by
  simp [replaceUnderscores]

theorem replaceUnderscores_cons (b : List Char) :
    replaceUnderscores ('_' :: b) = ' ' :: replaceUnderscores b := by
  simp [replaceUnderscores]

theorem replaceUnderscores_logFileName (captureID changefeedID kind ext : List Char)
    (createUnixSec commitTs : Nat)
    (h1 : ∀ c ∈ captureID, c ≠ '_') (h2 : ∀ c ∈ changefeedID, c ≠ '_')
    (h3 : ∀ c ∈ kind, c ≠ '_') (h4 : ∀ c ∈ ext, c ≠ '_') :
    replaceUnderscores (logFileName captureID changefeedID createUnixSec kind commitTs ext) =
      captureID ++ ' ' :: (changefeedID ++ ' ' :: (decimal createUnixSec ++ ' ' ::
        (kind ++ ' ' :: (decimal commitTs ++ ext)))) := by
  have hd : ∀ n, replaceUnderscores (decimal n) = decimal n := fun n =>
    replaceUnderscores_id _ (fun c hc => (digit_not_space c (decimal_digits n c hc)).2)
  unfold logFileName
  simp only [replaceUnderscores_append, replaceUnderscores_cons, hd,
    replaceUnderscores_id _ h1, replaceUnderscores_id _ h2, replaceUnderscores_id _ h3,
    replaceUnderscores_id _ h4, List.append_assoc, List.cons_append]

theorem scanLogName_writer (captureID changefeedID kind lit : List Char)
    (createUnixSec commitTs : Nat)
    (h1 : captureID ≠ []) (h1s : ∀ c ∈ captureID, isSpace c = false)
    (h2 : changefeedID ≠ []) (h2s : ∀ c ∈ changefeedID, isSpace c = false)
    (h3 : kind ≠ []) (h3s : ∀ c ∈ kind, isSpace c = false)
    (hsec : createUnixSec < 2 ^ 64) (hts : commitTs < 2 ^ 64)
    (rest : List Char) :
    scanLogName ('.' :: lit) (captureID ++ ' ' :: (changefeedID ++ ' ' ::
      (decimal createUnixSec ++ ' ' :: (kind ++ ' ' :: (decimal commitTs ++ '.' :: (lit ++ rest))))))
      = .ok (kind, commitTs) := by
  obtain ⟨x2, t2, rfl⟩ := List.exists_cons_of_ne_nil h2
  obtain ⟨x3, t3, rfl⟩ := List.exists_cons_of_ne_nil h3
  obtain ⟨xa, ta, ha⟩ := List.exists_cons_of_ne_nil (decimal_ne_nil createUnixSec)
  obtain ⟨xb, tb, hb⟩ := List.exists_cons_of_ne_nil (decimal_ne_nil commitTs)
  have hxa : isSpace xa = false :=
    (digit_not_space xa (decimal_digits _ xa (by rw [ha]; exact List.mem_cons_self _ _))).1
  have hxb : isSpace xb = false :=
    (digit_not_space xb (decimal_digits _ xb (by rw [hb]; exact List.mem_cons_self _ _))).1
  unfold scanLogName
  rw [scanString_field captureID _ h1 h1s]
  simp only [List.cons_append]
  rw [scanSpace_field x2 _ (h2s x2 (List.mem_cons_self _ _))]
  simp only []
  rw [← List.cons_append, scanString_field (x2 :: t2) _ h2 h2s]
  simp only []
  rw [ha, List.cons_append, scanSpace_field xa _ hxa]
  simp only []
  rw [← List.cons_append, ← ha, scanUint_decimal createUnixSec ' ' _ hsec (by decide)]
  simp only [List.cons_append]
  rw [scanSpace_field x3 _ (h3s x3 (List.mem_cons_self _ _))]
  simp only []
  rw [← List.cons_append, scanString_field (x3 :: t3) _ h3 h3s]
  simp only []
  rw [hb, List.cons_append, scanSpace_field xb _ hxb]
  simp only []
  rw [← List.cons_append, ← hb, scanUint_decimal commitTs '.' _ hts (by decide)]
  simp only []
  rw [← List.cons_append, scanLiteral_self]

/-- C17: the name the writer gives a log file parses back: for capture and
changefeed identifiers and a kind that are not empty and hold no underscore
and no space character, a creation time and a commit timestamp below `2 ^ 64`
and the extension `.log` or `.log.tmp`, `parseLogFileName` returns the commit
timestamp and the kind, and no error. -/
theorem parseLogFileName_logFileName (captureID changefeedID kind ext : List Char)
    (createUnixSec commitTs : Nat)
    (h1 : captureID ≠ [] ∧ ∀ c ∈ captureID, c ≠ '_' ∧ isSpace c = false)
    (h2 : changefeedID ≠ [] ∧ ∀ c ∈ changefeedID, c ≠ '_' ∧ isSpace c = false)
    (h3 : kind ≠ [] ∧ ∀ c ∈ kind, c ≠ '_' ∧ isSpace c = false)
    (hsec : createUnixSec < 2 ^ 64) (hts : commitTs < 2 ^ 64)
    (hext : ext = LogEXT ∨ ext = LogEXT ++ TmpEXT) :
    parseLogFileName (logFileName captureID changefeedID createUnixSec kind commitTs ext) =
      .ok (commitTs, kind) := by
  have hun : ∀ c ∈ ext, c ≠ '_' := by
    rcases hext with h | h <;> subst h <;> decide
  have hrep := replaceUnderscores_logFileName captureID changefeedID kind ext createUnixSec
    commitTs (fun c hc => (h1.2 c hc).1) (fun c hc => (h2.2 c hc).1)
    (fun c hc => (h3.2 c hc).1) hun
  have hname : ∃ pre, logFileName captureID changefeedID createUnixSec kind commitTs ext =
      pre ++ ext :=
    ⟨captureID ++ '_' :: changefeedID ++ '_' :: decimal createUnixSec ++ '_' :: kind ++
      '_' :: decimal commitTs, by simp [logFileName]⟩
  obtain ⟨pre, hpre⟩ := hname
  unfold parseLogFileName
  simp only []
  rw [hrep]
  rcases hext with h | h
  · subst h
    rw [hpre, filepathExt_log]
    rw [if_neg (by decide), if_neg (by decide)]
    have := scanLogName_writer captureID changefeedID kind ['l', 'o', 'g'] createUnixSec commitTs
      h1.1 (fun c hc => (h1.2 c hc).2) h2.1 (fun c hc => (h2.2 c hc).2) h3.1
      (fun c hc => (h3.2 c hc).2) hsec hts []
    simp only [List.append_nil] at this
    show (match scanLogName LogEXT _ with | .error err => _ | .ok (fileName, commitTs) => _) = _
    rw [show LogEXT = '.' :: ['l', 'o', 'g'] from rfl, this]
  · subst h
    rw [hpre, filepathExt_log_tmp]
    rw [if_neg (by decide), if_pos rfl]
    have := scanLogName_writer captureID changefeedID kind ['l', 'o', 'g', '.', 't', 'm', 'p']
      createUnixSec commitTs
      h1.1 (fun c hc => (h1.2 c hc).2) h2.1 (fun c hc => (h2.2 c hc).2) h3.1
      (fun c hc => (h3.2 c hc).2) hsec hts []
    simp only [List.append_nil] at this
    rw [show LogEXT ++ TmpEXT = '.' :: ['l', 'o', 'g', '.', 't', 'm', 'p'] from rfl, this]

/-- C17, witness: the names `cap_cf_1_row_5.log` and
`cap_cf_1_ddl_18446744073709551615.log.tmp`. -/
theorem parseLogFileName_logFileName_witness :
    parseLogFileName "cap_cf_1_row_5.log".toList = .ok (5, DefaultRowLogFileName) ∧
    parseLogFileName "cap_cf_1_ddl_18446744073709551615.log.tmp".toList =
      .ok (18446744073709551615, DefaultDDLLogFileName) :=
  ⟨parseLogFileName_logFileName ['c', 'a', 'p'] ['c', 'f'] DefaultRowLogFileName LogEXT 1 5
      ⟨by decide, by decide⟩ ⟨by decide, by decide⟩ ⟨by decide, by decide⟩
      (by decide) (by decide) (Or.inl rfl),
   parseLogFileName_logFileName ['c', 'a', 'p'] ['c', 'f'] DefaultDDLLogFileName
      (LogEXT ++ TmpEXT) 1 18446744073709551615
      ⟨by decide, by decide⟩ ⟨by decide, by decide⟩ ⟨by decide, by decide⟩
      (by decide) (by decide) (Or.inr rfl)⟩

/-! ## `ResetReader`: the check of the window against the meta -/

theorem multierrAppend_not_boundary (a b : Option GoError)
    (ha : ∀ cp rs, a ≠ some (.boundary cp rs)) (hb : ∀ cp rs, b ≠ some (.boundary cp rs)) :
    ∀ cp rs, multierrAppend a b ≠ some (.boundary cp rs) := by
  intro cp rs
  cases a with
  | none => exact hb cp rs
  | some x =>
    cases b with
    | none => exact ha cp rs
    | some y => intro h; cases h

theorem readerClose_not_boundary (c : Option GoError) :
    ∀ cp rs, readerClose c ≠ some (.boundary cp rs) := by
  intro cp rs h
  cases c with
  | none => cases h
  | some x => cases h

theorem closeLoop_not_boundary (closers : List (Option GoError)) :
    ∀ (n i : Nat) (errs : Option GoError), (∀ cp rs, errs ≠ some (.boundary cp rs)) →
      ∀ cp rs, closeLoop closers n i errs ≠ some (.boundary cp rs) := by
  intro n
  induction n with
  | zero => intro i errs h; exact h
  | succ n ih =>
    intro i errs h
    rw [closeLoop]
    exact ih _ _ (multierrAppend_not_boundary _ _ h (readerClose_not_boundary _))

theorem setUpRowReader_not_boundary (env : Env) (l : LogReader) (startTs endTs : Nat) :
    (∃ e, (l.setUpRowReader env startTs endTs).ending = .returned e ∧
      ∀ cp rs, e ≠ some (.boundary cp rs)) ∨
    ∃ t, (l.setUpRowReader env startTs endTs).ending = .panicked t := by
  unfold LogReader.setUpRowReader
  cases hc : l.closeRowReader with
  | some err =>
    refine Or.inl ⟨some err, rfl, ?_⟩
    rw [← hc]
    exact closeLoop_not_boundary _ _ _ _ (fun _ _ h => by cases h)
  | none =>
    simp only []
    rcases hn : newReader env l.cfg.S3Storage DefaultRowLogFileName startTs endTs with ⟨res, ops⟩
    cases res with
    | error text => exact Or.inr ⟨text, rfl⟩
    | ok rr => exact Or.inl ⟨none, rfl, fun _ _ h => by cases h⟩

theorem setUpDDLReader_not_boundary (env : Env) (l : LogReader) (startTs endTs : Nat) :
    (∃ e, (l.setUpDDLReader env startTs endTs).ending = .returned e ∧
      ∀ cp rs, e ≠ some (.boundary cp rs)) ∨
    ∃ t, (l.setUpDDLReader env startTs endTs).ending = .panicked t := by
  unfold LogReader.setUpDDLReader
  cases hc : l.closeDDLReader with
  | some err =>
    refine Or.inl ⟨some err, rfl, ?_⟩
    rw [← hc]
    exact closeLoop_not_boundary _ _ _ _ (fun _ _ h => by cases h)
  | none =>
    simp only []
    rcases hn : newReader env l.cfg.S3Storage DefaultDDLLogFileName startTs endTs with ⟨res, ops⟩
    cases res with
    | error text => exact Or.inr ⟨text, rfl⟩
    | ok rr => exact Or.inl ⟨none, rfl, fun _ _ h => by cases h⟩

theorem setUpReader_not_boundary (env : Env) (l : LogReader) (startTs endTs cp rs : Nat) :
    (l.setUpReader env startTs endTs).ending ≠ .returned (some (.boundary cp rs)) := by
  unfold LogReader.setUpReader
  simp only []
  rcases setUpRowReader_not_boundary env l startTs endTs with ⟨e1, h1, hb1⟩ | ⟨t, h1⟩
  · rw [h1]
    simp only []
    rcases setUpDDLReader_not_boundary env (l.setUpRowReader env startTs endTs).l startTs endTs
      with ⟨e2, h2, hb2⟩ | ⟨t, h2⟩
    · rw [h2]
      simp only []
      intro h
      injection h with h
      exact multierrAppend_not_boundary _ _
        (multierrAppend_not_boundary _ _ (fun _ _ h => by cases h) hb1) hb2 cp rs h
    · rw [h2]
      intro h
      cases h
  · rw [h1]
    intro h
    cases h

theorem ResetReader_of_meta (env : Env) (l : LogReader) (m : LogMeta) (startTs endTs : Nat)
    (hm : l.meta = some m) :
    l.ResetReader env false startTs endTs = l.checkAndSetUp env [] startTs endTs := by
  unfold LogReader.ResetReader
  rw [if_neg (by simp), hm]

theorem checkAndSetUp_rejected (env : Env) (l : LogReader) (m : LogMeta) (startTs endTs : Nat)
    (hm : l.meta = some m) (h : startTs > m.ResolvedTs ∨ endTs ≤ m.CheckPointTs) :
    l.checkAndSetUp env [] startTs endTs =
      { l := l, ops := [], ending := .returned (some (.boundary m.CheckPointTs m.ResolvedTs)) } := by
  unfold LogReader.checkAndSetUp
  rw [hm]
  simp only []
  rw [if_pos h]

theorem checkAndSetUp_accepted (env : Env) (l : LogReader) (m : LogMeta) (startTs endTs : Nat)
    (hm : l.meta = some m) (h : ¬ (startTs > m.ResolvedTs ∨ endTs ≤ m.CheckPointTs)) :
    (l.checkAndSetUp env [] startTs endTs).ending = (l.setUpReader env startTs endTs).ending := by
  unfold LogReader.checkAndSetUp
  rw [hm]
  simp only []
  rw [if_neg h]

/-- C19, counterexample: with the cached meta `(100, 200)`, `ResetReader(50, 150)`
and `ResetReader(150, 250)` do not return the range error (they return no
error at all, and the first opens the files with the commit timestamps 120 and
130), although `100 ≤ 50` and `250 ≤ 200` are false. -/
theorem ResetReader_window_not_contained :
    (sampleReader.ResetReader sampleEnv false 50 150).ending = .returned none ∧
    (sampleReader.ResetReader sampleEnv false 50 150).ops =
      [.ReadDir, .OpenFile "cap_cf_1_row_120.log".toList,
       .ReadDir, .OpenFile "cap_cf_1_ddl_130.log".toList] ∧
    ¬ (100 ≤ 50 ∧ 50 < 150 ∧ 150 ≤ 200) ∧
    (sampleReader.ResetReader sampleEnv false 150 250).ending = .returned none ∧
    ¬ (100 ≤ 150 ∧ 150 < 250 ∧ 250 ≤ 200) :=
  ⟨rfl, rfl, by decide, rfl, by decide⟩

/-- C19, amended: with the cached meta `(checkpointTs, resolvedTs)` and a live
context, if `ResetReader(startTs, endTs)` does not return the range error,
then `startTs ≤ resolvedTs` and `checkpointTs < endTs`: the window overlaps
the boundary; `startTs` is compared neither with `checkpointTs` nor with
`endTs`, and `endTs` is not compared with `resolvedTs`. -/
theorem ResetReader_accepts_overlap (env : Env) (l : LogReader) (m : LogMeta)
    (startTs endTs : Nat) (hm : l.meta = some m)
    (h : (l.ResetReader env false startTs endTs).ending ≠
      .returned (some (.boundary m.CheckPointTs m.ResolvedTs))) :
    startTs ≤ m.ResolvedTs ∧ m.CheckPointTs < endTs := by
  by_contra hc
  have hr : startTs > m.ResolvedTs ∨ endTs ≤ m.CheckPointTs := by omega
  apply h
  rw [ResetReader_of_meta env l m startTs endTs hm, checkAndSetUp_rejected env l m startTs endTs hm hr]

/-- C19, witness: `ResetReader(50, 150)` with the cached meta `(100, 200)`. -/
theorem ResetReader_accepts_overlap_witness :
    (sampleReader.ResetReader sampleEnv false 50 150).ending ≠
      .returned (some (.boundary 100 200)) ∧ 50 ≤ 200 ∧ 100 < 150 :=
  ⟨by decide, ResetReader_accepts_overlap sampleEnv sampleReader
    { CheckPointTs := 100, ResolvedTs := 200 } 50 150 rfl (by decide)⟩

/-- C20: with the meta loaded and a live context, `ResetReader(startTs, endTs)`
returns the range error exactly when `startTs > resolvedTs` or
`endTs ≤ checkpointTs`; when it does, it makes no operation at all (it opens
no file, closes no reader) and the `LogReader` is as before: reader vectors,
heaps and recorded window. -/
theorem ResetReader_range_error (env : Env) (l : LogReader) (m : LogMeta)
    (startTs endTs : Nat) (hm : l.meta = some m) :
    ((l.ResetReader env false startTs endTs).ending =
        .returned (some (.boundary m.CheckPointTs m.ResolvedTs)) ↔
      (startTs > m.ResolvedTs ∨ endTs ≤ m.CheckPointTs)) ∧
    ((startTs > m.ResolvedTs ∨ endTs ≤ m.CheckPointTs) →
      (l.ResetReader env false startTs endTs).ops = [] ∧
      (l.ResetReader env false startTs endTs).l = l) := by
  rw [ResetReader_of_meta env l m startTs endTs hm]
  refine ⟨⟨fun h => ?_, fun h => ?_⟩, fun h => ?_⟩
  · by_contra hc
    rw [checkAndSetUp_accepted env l m startTs endTs hm hc] at h
    exact setUpReader_not_boundary env l startTs endTs _ _ h
  · rw [checkAndSetUp_rejected env l m startTs endTs hm h]
  · rw [checkAndSetUp_rejected env l m startTs endTs hm h]
    exact ⟨rfl, rfl⟩

/-- C20, witness: with the cached meta `(100, 200)`, `ResetReader(250, 300)`
on a `LogReader` with open readers and a primed heap. -/
theorem ResetReader_range_error_witness :
    ((busyReader.ResetReader sampleEnv false 250 300).ending =
        .returned (some (.boundary 100 200)) ↔ (250 > 200 ∨ 300 ≤ 100)) ∧
    ((250 > 200 ∨ 300 ≤ 100) →
      (busyReader.ResetReader sampleEnv false 250 300).ops = [] ∧
      (busyReader.ResetReader sampleEnv false 250 300).l = busyReader) :=
  ResetReader_range_error sampleEnv busyReader { CheckPointTs := 100, ResolvedTs := 200 }
    250 300 rfl

/-! ## Cancelled calls, a header cut short, the black-hole reader -/

/-- C25: a call that starts with a cancelled context returns the cancellation
error and no result, makes no operation and leaves the `LogReader` as it is
(meta cache, reader vectors with their cursors, heaps, recorded window): for
`ResetReader`, `ReadNextLog`, `ReadNextDDL` and `ReadMeta`. -/
theorem cancelled_call_changes_nothing (env : Env) (l : LogReader)
    (startTs endTs maxNumberOfEvents : Nat) :
    ((l.ResetReader env true startTs endTs).l = l ∧
      (l.ResetReader env true startTs endTs).ops = [] ∧
      (l.ResetReader env true startTs endTs).ending = .returned (some .ctxErr)) ∧
    ReadNextLog true l maxNumberOfEvents = (l, .error .ctxErr) ∧
    ReadNextDDL true l maxNumberOfEvents = (l, .error .ctxErr) ∧
    l.ReadMeta env true = (l, [], .error .ctxErr) ∧
    metaResults (l.ReadMeta env true).2.2 = (0, 0, some .ctxErr) :=
  ⟨⟨rfl, rfl, rfl⟩, rfl, rfl, rfl, rfl⟩

/-- C28: on a file that ends (without a read fault) before the 8 bytes of a
length field, `Read` returns `io.EOF` when no byte is left, and when 1 to 7
bytes are left it returns `ErrRedoFileOp` wrapping `io.ErrUnexpectedEOF`,
which is not `io.EOF`, whatever the bytes are; no record is produced and
`lastValidOff` stays. -/
theorem Read_cut_header (UnmarshalMsg : List UInt8 → Except GoError RedoLog) (r : reader)
    (hf : r.fault = none) :
    (r.br.length = 0 → (reader.Read UnmarshalMsg r).1 = .error .EOF) ∧
    (1 ≤ r.br.length → r.br.length ≤ 7 →
      (reader.Read UnmarshalMsg r).1 = .error (.ErrRedoFileOp .ErrUnexpectedEOF) ∧
      (reader.Read UnmarshalMsg r).1 ≠ .error .EOF) ∧
    (r.br.length ≤ 7 → (reader.Read UnmarshalMsg r).2.lastValidOff = r.lastValidOff) := by
  refine ⟨fun h0 => ?_, fun h1 h7 => ?_, fun h7 => ?_⟩
  · rw [Read_unfold]
    unfold readInt64 ioReadFull
    rw [if_neg (by omega), hf]
    simp only []
    rw [if_pos h0]
    rfl
  · have hr : (reader.Read UnmarshalMsg r).1 = .error (.ErrRedoFileOp .ErrUnexpectedEOF) := by
      rw [Read_unfold]
      unfold readInt64 ioReadFull
      rw [if_neg (by omega), hf]
      simp only []
      rw [if_neg (by omega)]
      rfl
    refine ⟨hr, ?_⟩
    rw [hr]
    intro h
    cases h
  · exact (Read_short_header UnmarshalMsg r (by omega)).2

/-- C28, witness: a file of which three zero bytes are left, and a file of
which nothing is left. -/
theorem Read_cut_header_witness :
    (reader.Read unmarshalTagged { br := [0, 0, 0], fault := none, lastValidOff := 0 }).1 =
      .error (.ErrRedoFileOp .ErrUnexpectedEOF) ∧
    (reader.Read unmarshalTagged { br := [], fault := none, lastValidOff := 0 }).1 =
      .error .EOF :=
  ⟨((Read_cut_header unmarshalTagged { br := [0, 0, 0], fault := none, lastValidOff := 0 }
      rfl).2.1 (by decide) (by decide)).1,
   (Read_cut_header unmarshalTagged { br := [], fault := none, lastValidOff := 0 } rfl).1 rfl⟩

/-- C26, as stated, fails: `*BlackholeReader` does not implement the interface
`Reader`: it has no method `ReadNextLog` and no method `ReadNextDDL` (its batch
methods are `ReadLog` and `ReadDDL`, with an `int` cap), so it cannot stand
where a `Reader` is expected; and its `ReadMeta` declares its results in the
order `(resolvedTs, checkpointTs)`, where `Reader.ReadMeta` declares
`(checkpointTs, resolvedTs)`: its first result, the value 1, is its
`resolvedTs`. -/
theorem BlackholeReader_not_a_Reader :
    implementsInterface BlackholeReaderMethods ReaderMethods = false ∧
    (∀ m ∈ BlackholeReaderMethods, m.name ≠ "ReadNextLog" ∧ m.name ≠ "ReadNextDDL") ∧
    (ReaderMethods.filter (fun m => m.name = "ReadMeta")).map (fun m => m.resultNames) =
      [["checkpointTs", "resolvedTs", "err"]] ∧
    (BlackholeReaderMethods.filter (fun m => m.name = "ReadMeta")).map
        (fun m => m.resultNames) = [["resolvedTs", "checkpointTs", "err"]] ∧
    (BlackholeReader.ReadMeta {} false).resolvedTs = 1 :=
  ⟨by decide, by decide, by decide, by decide, rfl⟩

/-- C26, amended: for every input, `BlackholeReader.ResetReader` returns no
error, its batch reads `ReadLog` and `ReadDDL` return empty batches and no
error, and its `ReadMeta` returns no error and, under the names it declares
for its results, `resolvedTs = 1` and `checkpointTs = 0`, so that
`checkpointTs ≤ resolvedTs`; the context is not consulted. -/
theorem BlackholeReader_results (br : BlackholeReader) (ctxDone : Bool)
    (startTs endTs : Nat) (maxNumber : Int) :
    br.ResetReader ctxDone startTs endTs = none ∧
    br.ReadLog ctxDone maxNumber = ([], none) ∧
    br.ReadDDL ctxDone maxNumber = ([], none) ∧
    br.ReadMeta ctxDone = { resolvedTs := 1, checkpointTs := 0, err := none } ∧
    (br.ReadMeta ctxDone).checkpointTs ≤ (br.ReadMeta ctxDone).resolvedTs :=
  ⟨rfl, rfl, rfl, rfl, Nat.zero_le 1⟩

/-! ## `ReadMeta` and the meta cache -/

theorem setUpRowReader_meta (env : Env) (l : LogReader) (startTs endTs : Nat) :
    (l.setUpRowReader env startTs endTs).l.meta = l.meta := by
  unfold LogReader.setUpRowReader
  cases l.closeRowReader with
  | some err => rfl
  | none =>
    simp only []
    rcases newReader env l.cfg.S3Storage DefaultRowLogFileName startTs endTs with ⟨res, ops⟩
    cases res <;> rfl

theorem setUpDDLReader_meta (env : Env) (l : LogReader) (startTs endTs : Nat) :
    (l.setUpDDLReader env startTs endTs).l.meta = l.meta := by
  unfold LogReader.setUpDDLReader
  cases l.closeDDLReader with
  | some err => rfl
  | none =>
    simp only []
    rcases newReader env l.cfg.S3Storage DefaultDDLLogFileName startTs endTs with ⟨res, ops⟩
    cases res <;> rfl

theorem setUpReader_meta (env : Env) (l : LogReader) (startTs endTs : Nat) :
    (l.setUpReader env startTs endTs).l.meta = l.meta := by
  unfold LogReader.setUpReader
  simp only []
  cases h1 : (l.setUpRowReader env startTs endTs).ending with
  | panicked t => exact setUpRowReader_meta env l startTs endTs
  | returned e1 =>
    simp only []
    cases h2 : ((l.setUpRowReader env startTs endTs).l.setUpDDLReader env startTs endTs).ending with
    | panicked t =>
      simp only []
      rw [setUpDDLReader_meta, setUpRowReader_meta]
    | returned e2 =>
      simp only []
      rw [setUpDDLReader_meta, setUpRowReader_meta]

theorem ReadMeta_of_cached (env : Env) (l : LogReader) (m : LogMeta) (hm : l.meta = some m) :
    l.ReadMeta env false = (l, [], .ok (m.CheckPointTs, m.ResolvedTs)) := by
  unfold LogReader.ReadMeta
  rw [if_neg (by simp), hm]

theorem ResetReader_meta (env : Env) (ctxDone : Bool) (l : LogReader) (m : LogMeta)
    (startTs endTs : Nat) (hm : l.meta = some m) :
    (l.ResetReader env ctxDone startTs endTs).l.meta = some m := by
  cases ctxDone with
  | true => exact hm
  | false =>
    rw [ResetReader_of_meta env l m startTs endTs hm]
    unfold LogReader.checkAndSetUp
    rw [hm]
    simp only []
    by_cases h : startTs > m.ResolvedTs ∨ endTs ≤ m.CheckPointTs
    · rw [if_pos h]; exact hm
    · rw [if_neg h]
      simp only []
      rw [setUpReader_meta, hm]

theorem ReadMeta_meta (env : Env) (ctxDone : Bool) (l : LogReader) (m : LogMeta)
    (hm : l.meta = some m) : (l.ReadMeta env ctxDone).1.meta = some m := by
  cases ctxDone with
  | true => exact hm
  | false => rw [ReadMeta_of_cached env l m hm]; exact hm

theorem runFacade_meta : ∀ (calls : List FacadeCall) (l : LogReader) (m : LogMeta),
    l.meta = some m → (runFacade l calls).meta = some m := by
  intro calls
  induction calls with
  | nil => intro l m hm; exact hm
  | cons c cs ih =>
    intro l m hm
    cases c with
    | Reset env ctxDone s e => exact ih _ m (ResetReader_meta env ctxDone l m s e hm)
    | NextLog ctxDone n =>
      refine ih _ m ?_
      unfold ReadNextLog
      cases ctxDone <;> exact hm
    | NextDDL ctxDone n =>
      refine ih _ m ?_
      unfold ReadNextDDL
      cases ctxDone <;> exact hm
    | Meta env ctxDone => exact ih _ m (ReadMeta_meta env ctxDone l m hm)

theorem ReadMeta_ok_cached (env : Env) (l l1 : LogReader) (ops : List FileOp)
    (checkpointTs resolvedTs : Nat)
    (h : l.ReadMeta env false = (l1, ops, .ok (checkpointTs, resolvedTs))) :
    l1.meta = some { CheckPointTs := checkpointTs, ResolvedTs := resolvedTs } := by
  unfold LogReader.ReadMeta at h
  rw [if_neg (by simp)] at h
  cases hm : l.meta with
  | some m =>
    rw [hm] at h
    simp only [Prod.mk.injEq, Except.ok.injEq] at h
    obtain ⟨h1, _, h3, h4⟩ := h
    rw [← h1, hm, ← h3, ← h4]
  | none =>
    rw [hm] at h
    simp only [] at h
    cases hd : env.ReadDir with
    | error e => rw [hd] at h; simp at h
    | ok files =>
      rw [hd] at h
      simp only [] at h
      cases hf : files.find? (fun f => decide (filepathExt f = MetaEXT)) with
      | none => rw [hf] at h; simp at h
      | some f =>
        rw [hf] at h
        simp only [] at h
        cases hr : env.ReadFile f with
        | error e => rw [hr] at h; simp at h
        | ok fileData =>
          rw [hr] at h
          simp only [] at h
          rcases hu : env.UnmarshalMsg fileData with ⟨m, uerr⟩
          rw [hu] at h
          cases uerr with
          | some e => simp at h
          | none =>
            simp only [Prod.mk.injEq, Except.ok.injEq] at h
            obtain ⟨h1, _, h3, h4⟩ := h
            rw [← h1, ← h3, ← h4]

/-- C22: after a `ReadMeta` that succeeded with `(checkpointTs, resolvedTs)`,
and after any further calls of `ResetReader`, `ReadNextLog`, `ReadNextDDL` and
`ReadMeta`, whatever their surroundings, a `ReadMeta` with a live context
returns the same pair, makes no operation (no directory listing, no file read)
whatever the directory holds by then, and changes nothing. -/
theorem ReadMeta_idempotent (env : Env) (l l1 : LogReader) (ops : List FileOp)
    (checkpointTs resolvedTs : Nat)
    (h : l.ReadMeta env false = (l1, ops, .ok (checkpointTs, resolvedTs)))
    (calls : List FacadeCall) (env2 : Env) :
    (runFacade l1 calls).ReadMeta env2 false =
      (runFacade l1 calls, [], .ok (checkpointTs, resolvedTs)) := by
  have hm := runFacade_meta calls l1 _ (ReadMeta_ok_cached env l l1 ops checkpointTs resolvedTs h)
  rw [ReadMeta_of_cached env2 _ _ hm]

/-- C22, witness: the meta `(100, 200)` is read from a directory; after a
`ResetReader` and a `ReadNextLog`, a `ReadMeta` on a directory that cannot be
listed, and whose meta would be `(7, 8)`, still returns `(100, 200)`. -/
theorem ReadMeta_idempotent_witness :
    (freshReader.ReadMeta sampleEnv false).2.1 =
      [.ReadDir, .ReadFile "cap_cf_meta.meta".toList] ∧
    ((runFacade (freshReader.ReadMeta sampleEnv false).1
        [.Reset sampleEnv false 120 180, .NextLog false 10]).ReadMeta noDirEnv false).2 =
      ([], .ok (100, 200)) :=
  ⟨rfl, congrArg Prod.snd (ReadMeta_idempotent sampleEnv freshReader
    (freshReader.ReadMeta sampleEnv false).1 [.ReadDir, .ReadFile "cap_cf_meta.meta".toList]
    100 200 rfl [.Reset sampleEnv false 120 180, .NextLog false 10] noDirEnv)⟩

theorem ReadMeta_unmarshal_fails (env : Env) (l : LogReader) (files : List (List Char))
    (f : List Char) (fileData : List UInt8) (m : LogMeta) (err : GoError)
    (hl : l.meta = none) (hd : env.ReadDir = .ok files)
    (hf : files.find? (fun f => decide (filepathExt f = MetaEXT)) = some f)
    (hr : env.ReadFile f = .ok fileData) (hu : env.UnmarshalMsg fileData = (m, some err)) :
    l.ReadMeta env false =
      ({ l with meta := some m }, [.ReadDir, .ReadFile f], .error (.ErrRedoFileOp err)) := by
  unfold LogReader.ReadMeta
  rw [if_neg (by simp), hl]
  simp only []
  rw [hd]
  simp only []
  rw [hf]
  simp only []
  rw [hr]
  simp only []
  rw [hu]

/-- C23: a `ReadMeta` that fails because the directory cannot be listed, holds
no `.meta` file or holds one that cannot be read leaves the meta cache empty;
but when the contents of the `.meta` file fail to deserialize, the struct that
`UnmarshalMsg` was filling is already in the cache: `ReadMeta` returns the
error, and the next `ReadMeta` succeeds with the values left in that struct
without any operation on the directory, and `ResetReader` checks the window
against them without reading the meta. -/
theorem ReadMeta_caches_failed_unmarshal (env : Env) (l : LogReader) (hl : l.meta = none) :
    (∀ e, env.ReadDir = .error e → (l.ReadMeta env false).1 = l) ∧
    (∀ files, env.ReadDir = .ok files →
      files.find? (fun f => decide (filepathExt f = MetaEXT)) = none →
      (l.ReadMeta env false).1 = l) ∧
    (∀ files f e, env.ReadDir = .ok files →
      files.find? (fun f => decide (filepathExt f = MetaEXT)) = some f →
      env.ReadFile f = .error e → (l.ReadMeta env false).1 = l) ∧
    (∀ files f fileData m err, env.ReadDir = .ok files →
      files.find? (fun f => decide (filepathExt f = MetaEXT)) = some f →
      env.ReadFile f = .ok fileData → env.UnmarshalMsg fileData = (m, some err) →
      (l.ReadMeta env false).2.2 = .error (.ErrRedoFileOp err) ∧
      (l.ReadMeta env false).1.meta = some m ∧
      (∀ env2, (l.ReadMeta env false).1.ReadMeta env2 false =
        ((l.ReadMeta env false).1, [], .ok (m.CheckPointTs, m.ResolvedTs))) ∧
      (∀ env2 startTs endTs, (l.ReadMeta env false).1.ResetReader env2 false startTs endTs =
        (l.ReadMeta env false).1.checkAndSetUp env2 [] startTs endTs)) := by
  refine ⟨?_, ?_, ?_, ?_⟩
  · intro e hd
    unfold LogReader.ReadMeta
    rw [if_neg (by simp), hl]
    simp only []
    rw [hd]
  · intro files hd hf
    unfold LogReader.ReadMeta
    rw [if_neg (by simp), hl]
    simp only []
    rw [hd]
    simp only []
    rw [hf]
  · intro files f e hd hf hr
    unfold LogReader.ReadMeta
    rw [if_neg (by simp), hl]
    simp only []
    rw [hd]
    simp only []
    rw [hf]
    simp only []
    rw [hr]
  · intro files f fileData m err hd hf hr hu
    rw [ReadMeta_unmarshal_fails env l files f fileData m err hl hd hf hr hu]
    refine ⟨rfl, rfl, fun env2 => ?_, fun env2 startTs endTs => ?_⟩
    · exact ReadMeta_of_cached env2 _ m rfl
    · exact ResetReader_of_meta env2 _ m startTs endTs rfl

/-- C23, witness: the meta file of the directory is empty and fails to
deserialize.  The first `ReadMeta` returns the error; the second returns
`(0, 0)` and no error without touching the directory; a first
`ResetReader(0, 150)` returns the error, a second one succeeds and opens the
row file of commit timestamp 120. -/
theorem ReadMeta_caches_failed_unmarshal_witness :
    (freshReader.ReadMeta badMetaEnv false).2.2 = .error (.ErrRedoFileOp (.other 9)) ∧
    (freshReader.ReadMeta badMetaEnv false).1.meta =
      some { CheckPointTs := 0, ResolvedTs := 0 } ∧
    (freshReader.ReadMeta badMetaEnv false).1.ReadMeta noDirEnv false =
      ((freshReader.ReadMeta badMetaEnv false).1, [], .ok (0, 0)) ∧
    (freshReader.ResetReader badMetaEnv false 0 150).ending =
      .returned (some (.ErrRedoFileOp (.other 9))) ∧
    ((freshReader.ResetReader badMetaEnv false 0 150).l.ResetReader badMetaEnv false 0
      150).ending = .returned none ∧
    ((freshReader.ResetReader badMetaEnv false 0 150).l.ResetReader badMetaEnv false 0
      150).ops = [.ReadDir, .OpenFile "cap_cf_1_row_120.log".toList, .ReadDir] :=
  have h := (ReadMeta_caches_failed_unmarshal badMetaEnv freshReader rfl).2.2.2
    ["cap_cf_1_row_120.log".toList, "cap_cf_meta.meta".toList] "cap_cf_meta.meta".toList []
    { CheckPointTs := 0, ResolvedTs := 0 } (.other 9) rfl rfl rfl rfl
  ⟨h.1, h.2.1, h.2.2.1 noDirEnv, rfl, rfl, rfl⟩

/-! ## `Close` -/

theorem closeTrace_eq (mk : Nat → FileOp) : ∀ (n i : Nat),
    closeTrace mk n i = (List.range' i n).map mk := by
  intro n
  induction n with
  | zero => intro i; rfl
  | succ n ih => intro i; rw [closeTrace, ih, List.range'_succ, List.map_cons]

theorem closeTrace_count (mk : Nat → FileOp) (hinj : ∀ a b, mk a = mk b → a = b) :
    ∀ (n i k : Nat),
      (closeTrace mk n i).count (mk k) = if i ≤ k ∧ k < i + n then 1 else 0 := by
  intro n
  induction n with
  | zero =>
    intro i k
    rw [closeTrace, if_neg (by omega)]
    rfl
  | succ n ih =>
    intro i k
    rw [closeTrace, List.count_cons, ih]
    by_cases hik : i = k
    · subst hik
      rw [if_neg (show ¬ (i + 1 ≤ i ∧ i < i + 1 + n) by omega),
        if_pos (show i ≤ i ∧ i < i + (n + 1) by omega)]
      simp
    · have hne : ¬ (mk i == mk k) = true := by
        intro h
        exact hik (hinj _ _ (by simpa using h))
      rw [if_neg hne]
      by_cases h2 : i + 1 ≤ k ∧ k < i + 1 + n
      · rw [if_pos h2, if_pos (show i ≤ k ∧ k < i + (n + 1) by omega)]
      · rw [if_neg h2, if_neg (show ¬ (i ≤ k ∧ k < i + (n + 1)) by omega)]

theorem closeTrace_count_other (mk : Nat → FileOp) (op : FileOp) (hne : ∀ a, mk a ≠ op) :
    ∀ (n i : Nat), (closeTrace mk n i).count op = 0 := by
  intro n i
  rw [closeTrace_eq]
  apply List.count_eq_zero.2
  intro h
  obtain ⟨a, _, ha⟩ := List.mem_map.1 h
  exact hne a ha

theorem parts_ne_nil : ∀ e : GoError, e.parts ≠ [] := by
  intro e
  induction e with
  | multi a b iha _ =>
    rw [GoError.parts]
    intro h
    exact iha (List.append_eq_nil.1 h).1
  | _ => simp [GoError.parts]

theorem errorParts_eq_nil (e : Option GoError) : errorParts e = [] ↔ e = none := by
  cases e with
  | none => simp [errorParts]
  | some x => simp [errorParts, parts_ne_nil x]

theorem errorParts_multierrAppend (a b : Option GoError) :
    errorParts (multierrAppend a b) = errorParts a ++ errorParts b := by
  cases a with
  | none => simp [multierrAppend, errorParts]
  | some x =>
    cases b with
    | none => simp [multierrAppend, errorParts]
    | some y => simp [multierrAppend, errorParts, GoError.parts]

theorem closeLoop_parts (closers : List (Option GoError)) : ∀ (n i : Nat) (errs : Option GoError),
    errorParts (closeLoop closers n i errs) = errorParts errs ++ closeFailures closers n i := by
  intro n
  induction n with
  | zero => intro i errs; simp [closeLoop, closeFailures]
  | succ n ih =>
    intro i errs
    rw [closeLoop, ih, errorParts_multierrAppend, closeFailures]
    cases closers.getD i none with
    | none => simp [readerClose, errorParts]
    | some err => simp [readerClose, errorParts, GoError.parts]

theorem closeFailures_ne_nil (closers : List (Option GoError)) : ∀ (n i : Nat),
    closeFailures closers n i ≠ [] ↔ ∃ k, i ≤ k ∧ k < i + n ∧ closers.getD k none ≠ none := by
  intro n
  induction n with
  | zero =>
    intro i
    simp only [closeFailures, ne_eq, not_true_eq_false, false_iff]
    rintro ⟨k, h1, h2, _⟩
    omega
  | succ n ih =>
    intro i
    rw [closeFailures]
    cases hc : closers.getD i none with
    | none =>
      simp only []
      rw [ih]
      constructor
      · rintro ⟨k, h1, h2, h3⟩
        exact ⟨k, by omega, by omega, h3⟩
      · rintro ⟨k, h1, h2, h3⟩
        have hki : k ≠ i := by
          intro e
          rw [e, hc] at h3
          exact h3 rfl
        exact ⟨k, by omega, by omega, h3⟩
    | some err =>
      simp only [ne_eq, reduceCtorEq, not_false_eq_true, true_iff]
      exact ⟨i, le_refl _, by omega, by rw [hc]; simp⟩

/-- C24: `Close` on the `nil` receiver closes nothing and returns no error.
On a `LogReader` it calls `Close` once on every row reader and once on every
DDL reader, in order, whether or not some of them fail; the error it returns
holds exactly the failures of the readers, each wrapped in `ErrRedoFileOp`,
so it returns an error exactly when the `Close` of at least one reader
failed. -/
theorem Close_closes_every_reader :
    LogReader.Close none = (none, []) ∧
    ∀ l : LogReader,
      (LogReader.Close (some l)).2 =
        (List.range l.rowReader.length).map FileOp.CloseRow ++
          (List.range l.ddlReader.length).map FileOp.CloseDDL ∧
      (∀ i, (LogReader.Close (some l)).2.count (.CloseRow i) =
        if i < l.rowReader.length then 1 else 0) ∧
      (∀ j, (LogReader.Close (some l)).2.count (.CloseDDL j) =
        if j < l.ddlReader.length then 1 else 0) ∧
      errorParts (LogReader.Close (some l)).1 =
        closeFailures l.rowCloser l.rowReader.length 0 ++
          closeFailures l.ddlCloser l.ddlReader.length 0 ∧
      ((LogReader.Close (some l)).1 ≠ none ↔
        (∃ i, i < l.rowReader.length ∧ l.rowCloser.getD i none ≠ none) ∨
        (∃ j, j < l.ddlReader.length ∧ l.ddlCloser.getD j none ≠ none)) := by
  refine ⟨rfl, fun l => ?_⟩
  have hparts : errorParts (LogReader.Close (some l)).1 =
      closeFailures l.rowCloser l.rowReader.length 0 ++
        closeFailures l.ddlCloser l.ddlReader.length 0 := by
    unfold LogReader.Close LogReader.closeRowReader LogReader.closeDDLReader
    simp only []
    rw [errorParts_multierrAppend, errorParts_multierrAppend, closeLoop_parts, closeLoop_parts]
    simp [errorParts]
  refine ⟨?_, ?_, ?_, hparts, ?_⟩
  · unfold LogReader.Close
    simp only []
    rw [closeTrace_eq, closeTrace_eq, List.range_eq_range', List.range_eq_range']
  · intro i
    unfold LogReader.Close
    simp only []
    rw [List.count_append, closeTrace_count FileOp.CloseRow (fun a b h => by injection h),
      closeTrace_count_other FileOp.CloseDDL _ (fun a h => by cases h)]
    by_cases h : i < l.rowReader.length
    · rw [if_pos h, if_pos (show 0 ≤ i ∧ i < 0 + l.rowReader.length by omega)]
    · rw [if_neg h, if_neg (show ¬ (0 ≤ i ∧ i < 0 + l.rowReader.length) by omega)]
  · intro j
    unfold LogReader.Close
    simp only []
    rw [List.count_append, closeTrace_count FileOp.CloseDDL (fun a b h => by injection h),
      closeTrace_count_other FileOp.CloseRow _ (fun a h => by cases h)]
    by_cases h : j < l.ddlReader.length
    · rw [if_pos h, if_pos (show 0 ≤ j ∧ j < 0 + l.ddlReader.length by omega)]
    · rw [if_neg h, if_neg (show ¬ (0 ≤ j ∧ j < 0 + l.ddlReader.length) by omega)]
  · rw [ne_eq, ← errorParts_eq_nil, hparts, List.append_eq_nil, not_and_or,
      ← ne_eq, ← ne_eq, closeFailures_ne_nil, closeFailures_ne_nil]
    constructor
    · rintro (⟨k, _, h2, h3⟩ | ⟨k, _, h2, h3⟩)
      · exact Or.inl ⟨k, by omega, h3⟩
      · exact Or.inr ⟨k, by omega, h3⟩
    · rintro (⟨k, h2, h3⟩ | ⟨k, h2, h3⟩)
      · exact Or.inl ⟨k, Nat.zero_le _, by omega, h3⟩
      · exact Or.inr ⟨k, Nat.zero_le _, by omega, h3⟩

/-- C24, witness: a `LogReader` with one row reader, which closes, and one
DDL reader, whose `Close` fails. -/
theorem Close_closes_every_reader_witness :
    (LogReader.Close (some busyReader)).2 = [.CloseRow 0, .CloseDDL 0] ∧
    errorParts (LogReader.Close (some busyReader)).1 = [.ErrRedoFileOp (.other 3)] ∧
    (LogReader.Close (some busyReader)).1 = some (.ErrRedoFileOp (.other 3)) :=
  ⟨(Close_closes_every_reader.2 busyReader).1, (Close_closes_every_reader.2 busyReader).2.2.2.1,
    rfl⟩

/-! ## The sector loop of `isTornEntry` -/

theorem sectorLoop_spec (data : List UInt8) (base : Int) (hbase : 0 ≤ base)
    (hmax : base + (data.length : Int) < 2 ^ 63) :
    ∀ (budget k : Nat) (chunks : List (List UInt8)), k ≤ data.length →
      data.length - k ≤ budget →
      ∃ new, sectorLoop data budget (base + (k : Int)) (k : Int) chunks
          = some (.ok (chunks ++ new)) ∧
        splitSectors data budget (base + (k : Int)) k chunks = chunks ++ new ∧
        new.flatten = data.drop k ∧
        (∀ c ∈ new, c ≠ [] ∧ c.length ≤ 512) ∧ new.length ≤ data.length - k := by
  intro budget
  induction budget with
  | zero =>
    intro k chunks hk hb
    refine ⟨[], ?_, ?_, ?_, ?_, ?_⟩
    · rw [sectorLoop, if_neg (by omega), List.append_nil]
    · rw [splitSectors, List.append_nil]
    · rw [List.drop_eq_nil_of_le (by omega)]; rfl
    · intro c hc; cases hc
    · simp
  | succ b ih =>
    intro k chunks hk hb
    by_cases hlt : k < data.length
    · have htm : Int.tmod (base + (k : Int)) ((512 : Nat) : Int)
          = (base + (k : Int)) % 512 :=
        Int.tmod_eq_emod (by omega) (by decide)
      obtain ⟨d, hd, hd1, hd2, hdk⟩ : ∃ d : Nat,
          (if ((512 : Nat) : Int) - (base + (k : Int)) % 512 > (data.length : Int) - (k : Int)
            then (data.length : Int) - (k : Int)
            else ((512 : Nat) : Int) - (base + (k : Int)) % 512) = (d : Int) ∧
          1 ≤ d ∧ d ≤ 512 ∧ k + d ≤ data.length := by
        by_cases hbig : ((512 : Nat) : Int) - (base + (k : Int)) % 512
            > (data.length : Int) - (k : Int)
        · rw [if_pos hbig]
          exact ⟨data.length - k, by omega, by omega, by omega, by omega⟩
        · rw [if_neg hbig]
          exact ⟨(512 - (base + (k : Int)) % 512).toNat, by omega, by omega, by omega,
            by omega⟩
      have hslice : sliceOf data (k : Int) ((k : Int) + (d : Int))
          = .ok ((data.drop k).take d) := by
        unfold sliceOf
        rw [if_pos (by omega)]
        have e1 : ((k : Int)).toNat = k := by omega
        have e2 : ((k : Int) + (d : Int) - (k : Int)).toNat = d := by omega
        rw [e1, e2]
      obtain ⟨new, h1, h2, h3, h4, h5⟩ := ih (k + d) (chunks ++ [(data.drop k).take d])
        (by omega) (by omega)
      refine ⟨(data.drop k).take d :: new, ?_, ?_, ?_, ?_, ?_⟩
      · rw [sectorLoop, if_pos (by omega)]
        simp only [MinSectorSize]
        rw [htm, hd, hslice]
        simp only []
        have e : int64Wrap (base + (k : Int) + (d : Int)) = base + ((k + d : Nat) : Int) := by
          rw [int64Wrap_id _ (by omega) (by omega)]
          omega
        have e3 : (k : Int) + (d : Int) = ((k + d : Nat) : Int) := by omega
        rw [e, e3, h1]
        simp
      · rw [splitSectors, if_pos hlt]
        simp only [MinSectorSize]
        rw [htm, hd]
        have e : int64Wrap (base + (k : Int) + (d : Int)) = base + ((k + d : Nat) : Int) := by
          rw [int64Wrap_id _ (by omega) (by omega)]
          omega
        have e1 : ((d : Int)).toNat = d := by omega
        rw [e, e1, h2]
        simp
      · rw [List.flatten_cons, h3, ← List.drop_drop, List.take_append_drop]
      · intro c hc
        rcases List.mem_cons.1 hc with rfl | hc
        · have hl : ((data.drop k).take d).length = d := by
            rw [List.length_take, List.length_drop]
            omega
          constructor
          · intro e
            rw [e] at hl
            simp at hl
            omega
          · omega
        · exact h4 c hc
      · simp only [List.length_cons]
        omega
    · refine ⟨[], ?_, ?_, ?_, ?_, ?_⟩
      · rw [sectorLoop, if_neg (by omega), List.append_nil]
      · rw [splitSectors, if_neg hlt, List.append_nil]
      · rw [List.drop_eq_nil_of_le (by omega)]; rfl
      · intro c hc; cases hc
      · simp

theorem sectorLoop_budget (data : List UInt8) :
    ∀ (b : Nat) (fileOff curOff : Int) (chunks : List (List UInt8))
      (res : Except GoError (List (List UInt8))),
      sectorLoop data b fileOff curOff chunks = some res →
      ∀ b2, b ≤ b2 → sectorLoop data b2 fileOff curOff chunks = some res := by
  intro b
  induction b with
  | zero =>
    intro fileOff curOff chunks res h b2 _
    rw [sectorLoop] at h
    by_cases hc : curOff < (data.length : Int)
    · rw [if_pos hc] at h; cases h
    · rw [if_neg hc] at h
      cases b2 with
      | zero => rw [sectorLoop, if_neg hc]; exact h
      | succ b2 => rw [sectorLoop, if_neg hc]; exact h
  | succ b ih =>
    intro fileOff curOff chunks res h b2 hb
    obtain ⟨b3, rfl⟩ : ∃ b3, b2 = b3 + 1 := ⟨b2 - 1, by omega⟩
    rw [sectorLoop] at h
    rw [sectorLoop]
    by_cases hc : curOff < (data.length : Int)
    · rw [if_pos hc] at h
      rw [if_pos hc]
      simp only [] at h
      simp only []
      cases hs : sliceOf data curOff (curOff +
          if (MinSectorSize : Int) - Int.tmod fileOff (MinSectorSize : Int)
              > (data.length : Int) - curOff
            then (data.length : Int) - curOff
            else (MinSectorSize : Int) - Int.tmod fileOff (MinSectorSize : Int)) with
      | error e => rw [hs] at h; exact h
      | ok chunk =>
        rw [hs] at h
        exact ih _ _ _ _ h b3 (by omega)
    · rw [if_neg hc] at h
      rw [if_neg hc]
      exact h

/-- C27: for every payload and `lastValidOff ≥ 0` such that the file offsets
of the payload are `int64` values (`lastValidOff + 8 + len(data) < 2^63`, true
of every file that can exist), the loop of `isTornEntry` that splits the
payload on sector boundaries ends within `len(data)` iterations, no slice
expression of it is out of range, and the chunks it builds (those
`isTornEntry` inspects) are not empty, at most 512 bytes long and concatenate
to the payload; an empty payload gives no chunk and is not torn. -/
theorem isTornEntry_loop_total (r : reader) (data : List UInt8) (hoff : 0 ≤ r.lastValidOff)
    (hmax : r.lastValidOff + 8 + (data.length : Int) < 2 ^ 63) :
    ∃ chunks,
      (∀ budget, data.length ≤ budget →
        sectorLoop data budget (int64Wrap (r.lastValidOff + (frameSizeBytes : Int))) 0 [] =
          some (.ok chunks)) ∧
      splitSectors data data.length (int64Wrap (r.lastValidOff + (frameSizeBytes : Int))) 0 []
        = chunks ∧
      (∀ c ∈ chunks, c ≠ [] ∧ c.length ≤ MinSectorSize) ∧
      chunks.flatten = data ∧
      (data = [] → chunks = [] ∧ r.isTornEntry data = false) := by
  have hbase : (0 : Int) ≤ r.lastValidOff + 8 := by omega
  have hz : int64Wrap (r.lastValidOff + (frameSizeBytes : Int))
      = r.lastValidOff + 8 + ((0 : Nat) : Int) := by
    simp only [frameSizeBytes]
    rw [int64Wrap_id _ (by omega) (by omega)]
    omega
  obtain ⟨new, h1, h2, h3, h4, h5⟩ := sectorLoop_spec data _ hbase hmax data.length 0 []
    (Nat.zero_le _) (by omega)
  refine ⟨new, ?_, ?_, ?_, ?_, ?_⟩
  · intro budget hb
    have h0 := sectorLoop_budget data data.length _ _ _ _ h1 budget hb
    rw [hz]
    exact h0
  · rw [hz, h2]; rfl
  · exact h4
  · rw [h3]; rfl
  · intro he
    subst he
    have hn : new = [] := List.length_eq_zero.1 (by simpa using h5)
    refine ⟨hn, ?_⟩
    unfold reader.isTornEntry
    simp only []
    rw [hz, h2, hn]
    rfl

/-- C27, witness: a payload of six bytes that starts four bytes before a
sector boundary (`lastValidOff = 500`) is split in chunks of four and two
bytes. -/
theorem isTornEntry_loop_total_witness :
    sectorLoop [1, 2, 3, 4, 0, 0] 6 (500 + 8) 0 [] = some (.ok [[1, 2, 3, 4], [0, 0]]) ∧
    (∃ chunks,
      (∀ budget, ([1, 2, 3, 4, 0, 0] : List UInt8).length ≤ budget →
        sectorLoop [1, 2, 3, 4, 0, 0] budget (int64Wrap (500 + (frameSizeBytes : Int))) 0 [] =
          some (.ok chunks)) ∧
      splitSectors [1, 2, 3, 4, 0, 0] ([1, 2, 3, 4, 0, 0] : List UInt8).length
        (int64Wrap (500 + (frameSizeBytes : Int))) 0 [] = chunks ∧
      (∀ c ∈ chunks, c ≠ [] ∧ c.length ≤ MinSectorSize) ∧
      chunks.flatten = [1, 2, 3, 4, 0, 0] ∧
      (([1, 2, 3, 4, 0, 0] : List UInt8) = [] → chunks = [] ∧
        ({ br := [], fault := none, lastValidOff := 500 } : reader).isTornEntry
          [1, 2, 3, 4, 0, 0] = false)) :=
  ⟨rfl, isTornEntry_loop_total { br := [], fault := none, lastValidOff := 500 }
    [1, 2, 3, 4, 0, 0] (by decide) (by decide)⟩

/-! ## `ResetReader`: the two streams are set up one after the other -/

theorem setUpRowReader_cases (env : Env) (l : LogReader) (startTs endTs : Nat) :
    (∃ err, l.closeRowReader = some err ∧
      (l.setUpRowReader env startTs endTs).ending = .returned (some err) ∧
      (l.setUpRowReader env startTs endTs).l = l ∧
      (l.setUpRowReader env startTs endTs).ops =
        (List.range l.rowReader.length).map FileOp.CloseRow) ∨
    (∃ t, l.closeRowReader = none ∧
      (l.setUpRowReader env startTs endTs).ending = .panicked t) ∨
    (∃ rr, l.closeRowReader = none ∧
      (newReader env l.cfg.S3Storage DefaultRowLogFileName startTs endTs).1 = .ok rr ∧
      (l.setUpRowReader env startTs endTs).ending = .returned none ∧
      (l.setUpRowReader env startTs endTs).l =
        { l with
          rowReader := rr.map (fun f => f.reads)
          rowCloser := rr.map (fun f => f.closeErr)
          rowHeap := []
          cfg := { l.cfg with startTs := startTs, endTs := endTs } } ∧
      (l.setUpRowReader env startTs endTs).ops =
        (List.range l.rowReader.length).map FileOp.CloseRow ++
          (newReader env l.cfg.S3Storage DefaultRowLogFileName startTs endTs).2) := by
  unfold LogReader.setUpRowReader
  cases hc : l.closeRowReader with
  | some err => exact Or.inl ⟨err, rfl, rfl, rfl, rfl⟩
  | none =>
    simp only []
    rcases hn : newReader env l.cfg.S3Storage DefaultRowLogFileName startTs endTs with ⟨res, ops⟩
    cases res with
    | error text => exact Or.inr (Or.inl ⟨text, by trivial, rfl⟩)
    | ok rr => exact Or.inr (Or.inr ⟨rr, by trivial, rfl, rfl, rfl, rfl⟩)

theorem setUpDDLReader_cases (env : Env) (l : LogReader) (startTs endTs : Nat) :
    (∃ err, l.closeDDLReader = some err ∧
      (l.setUpDDLReader env startTs endTs).ending = .returned (some err) ∧
      (l.setUpDDLReader env startTs endTs).l = l ∧
      (l.setUpDDLReader env startTs endTs).ops =
        (List.range l.ddlReader.length).map FileOp.CloseDDL) ∨
    (∃ t, l.closeDDLReader = none ∧
      (l.setUpDDLReader env startTs endTs).ending = .panicked t) ∨
    (∃ rr, l.closeDDLReader = none ∧
      (newReader env l.cfg.S3Storage DefaultDDLLogFileName startTs endTs).1 = .ok rr ∧
      (l.setUpDDLReader env startTs endTs).ending = .returned none ∧
      (l.setUpDDLReader env startTs endTs).l =
        { l with
          ddlReader := rr.map (fun f => f.reads)
          ddlCloser := rr.map (fun f => f.closeErr)
          ddlHeap := []
          cfg := { l.cfg with startTs := startTs, endTs := endTs } } ∧
      (l.setUpDDLReader env startTs endTs).ops =
        (List.range l.ddlReader.length).map FileOp.CloseDDL ++
          (newReader env l.cfg.S3Storage DefaultDDLLogFileName startTs endTs).2) := by
  unfold LogReader.setUpDDLReader
  cases hc : l.closeDDLReader with
  | some err => exact Or.inl ⟨err, rfl, rfl, rfl, rfl⟩
  | none =>
    simp only []
    rcases hn : newReader env l.cfg.S3Storage DefaultDDLLogFileName startTs endTs with ⟨res, ops⟩
    cases res with
    | error text => exact Or.inr (Or.inl ⟨text, by trivial, rfl⟩)
    | ok rr => exact Or.inr (Or.inr ⟨rr, by trivial, rfl, rfl, rfl, rfl⟩)

theorem setUpReader_streams (env : Env) (l : LogReader) (startTs endTs : Nat) (err : GoError)
    (he : (l.setUpReader env startTs endTs).ending = .returned (some err)) :
    (l.closeRowReader ≠ none ∨ l.closeDDLReader ≠ none) ∧
    (l.closeRowReader ≠ none →
      (l.setUpReader env startTs endTs).l.rowReader = l.rowReader ∧
      (l.setUpReader env startTs endTs).l.rowCloser = l.rowCloser ∧
      (l.setUpReader env startTs endTs).l.rowHeap = l.rowHeap) ∧
    (l.closeRowReader = none → ∃ rr,
      (newReader env l.cfg.S3Storage DefaultRowLogFileName startTs endTs).1 = .ok rr ∧
      (l.setUpReader env startTs endTs).l.rowReader = rr.map (fun f => f.reads) ∧
      (l.setUpReader env startTs endTs).l.rowCloser = rr.map (fun f => f.closeErr) ∧
      (l.setUpReader env startTs endTs).l.rowHeap = [] ∧
      (l.setUpReader env startTs endTs).l.cfg.startTs = startTs ∧
      (l.setUpReader env startTs endTs).l.cfg.endTs = endTs) ∧
    (l.closeDDLReader ≠ none →
      (l.setUpReader env startTs endTs).l.ddlReader = l.ddlReader ∧
      (l.setUpReader env startTs endTs).l.ddlCloser = l.ddlCloser ∧
      (l.setUpReader env startTs endTs).l.ddlHeap = l.ddlHeap) ∧
    (l.closeDDLReader = none → ∃ rr,
      (newReader env l.cfg.S3Storage DefaultDDLLogFileName startTs endTs).1 = .ok rr ∧
      (l.setUpReader env startTs endTs).l.ddlReader = rr.map (fun f => f.reads) ∧
      (l.setUpReader env startTs endTs).l.ddlCloser = rr.map (fun f => f.closeErr) ∧
      (l.setUpReader env startTs endTs).l.ddlHeap = [] ∧
      (l.setUpReader env startTs endTs).l.cfg.startTs = startTs ∧
      (l.setUpReader env startTs endTs).l.cfg.endTs = endTs) := by
  unfold LogReader.setUpReader at he ⊢
  simp only [] at he ⊢
  rcases setUpRowReader_cases env l startTs endTs with
    ⟨e1, hc1, hr1, hl1, _⟩ | ⟨t, hc1, hr1⟩ | ⟨rr1, hc1, hn1, hr1, hl1, _⟩
  · rw [hr1] at he ⊢
    simp only [] at he ⊢
    rw [hl1] at he ⊢
    rcases setUpDDLReader_cases env l startTs endTs with
      ⟨e2, hc2, hr2, hl2, _⟩ | ⟨t, hc2, hr2⟩ | ⟨rr2, hc2, hn2, hr2, hl2, _⟩
    · rw [hr2] at he ⊢
      simp only [] at he ⊢
      rw [hl2]
      simp [hc1, hc2]
    · rw [hr2] at he
      cases he
    · rw [hr2] at he ⊢
      simp only [] at he ⊢
      rw [hl2]
      simp [hc1, hc2, hn2]
  · rw [hr1] at he
    cases he
  · rw [hr1] at he ⊢
    simp only [] at he ⊢
    rw [hl1] at he ⊢
    have hS : ({ l with
          rowReader := rr1.map (fun f => f.reads)
          rowCloser := rr1.map (fun f => f.closeErr)
          rowHeap := []
          cfg := { l.cfg with startTs := startTs, endTs := endTs } } : LogReader).cfg.S3Storage
        = l.cfg.S3Storage := rfl
    rcases setUpDDLReader_cases env { l with
          rowReader := rr1.map (fun f => f.reads)
          rowCloser := rr1.map (fun f => f.closeErr)
          rowHeap := []
          cfg := { l.cfg with startTs := startTs, endTs := endTs } } startTs endTs with
      ⟨e2, hc2, hr2, hl2, _⟩ | ⟨t, hc2, hr2⟩ | ⟨rr2, hc2, hn2, hr2, hl2, _⟩
    · have hc2l : l.closeDDLReader = some e2 := hc2
      rw [hr2] at he ⊢
      simp only [] at he ⊢
      rw [hl2]
      simp [hc1, hc2l, hn1]
    · rw [hr2] at he
      cases he
    · rw [hr2] at he
      simp [multierrAppend] at he

theorem setUpReader_returned (env : Env) (l : LogReader) (startTs endTs : Nat)
    (res : Option GoError)
    (he : (l.setUpReader env startTs endTs).ending = .returned res) :
    res = multierrAppend (multierrAppend none l.closeRowReader) l.closeDDLReader ∧
    (l.setUpReader env startTs endTs).ops =
      ((List.range l.rowReader.length).map FileOp.CloseRow ++
        if l.closeRowReader.isNone then
          (newReader env l.cfg.S3Storage DefaultRowLogFileName startTs endTs).2 else []) ++
      ((List.range l.ddlReader.length).map FileOp.CloseDDL ++
        if l.closeDDLReader.isNone then
          (newReader env l.cfg.S3Storage DefaultDDLLogFileName startTs endTs).2 else []) := by
  unfold LogReader.setUpReader at he ⊢
  simp only [] at he ⊢
  rcases setUpRowReader_cases env l startTs endTs with
    ⟨e1, hc1, hr1, hl1, ho1⟩ | ⟨t, hc1, hr1⟩ | ⟨rr1, hc1, hn1, hr1, hl1, ho1⟩
  · rw [hr1] at he ⊢
    simp only [] at he ⊢
    rw [hl1] at he ⊢
    rcases setUpDDLReader_cases env l startTs endTs with
      ⟨e2, hc2, hr2, hl2, ho2⟩ | ⟨t, hc2, hr2⟩ | ⟨rr2, hc2, hn2, hr2, hl2, ho2⟩
    · rw [hr2] at he ⊢
      simp only [] at he ⊢
      injection he with he
      rw [ho1, ho2, hc1, hc2]
      exact ⟨he.symm, by simp⟩
    · rw [hr2] at he
      cases he
    · rw [hr2] at he ⊢
      simp only [] at he ⊢
      injection he with he
      rw [ho1, ho2, hc1, hc2]
      exact ⟨he.symm, by simp⟩
  · rw [hr1] at he
    cases he
  · rw [hr1] at he ⊢
    simp only [] at he ⊢
    rw [hl1] at he ⊢
    rcases setUpDDLReader_cases env { l with
          rowReader := rr1.map (fun f => f.reads)
          rowCloser := rr1.map (fun f => f.closeErr)
          rowHeap := []
          cfg := { l.cfg with startTs := startTs, endTs := endTs } } startTs endTs with
      ⟨e2, hc2, hr2, hl2, ho2⟩ | ⟨t, hc2, hr2⟩ | ⟨rr2, hc2, hn2, hr2, hl2, ho2⟩
    · have hc2l : l.closeDDLReader = some e2 := hc2
      rw [hr2] at he ⊢
      simp only [] at he ⊢
      injection he with he
      rw [ho1, ho2, hc1, hc2l]
      exact ⟨he.symm, by simp⟩
    · rw [hr2] at he
      cases he
    · have hc2l : l.closeDDLReader = none := hc2
      rw [hr2] at he ⊢
      simp only [] at he ⊢
      injection he with he
      rw [ho1, ho2, hc1, hc2l]
      exact ⟨he.symm, by simp⟩

theorem ResetReader_accepted (env : Env) (l : LogReader) (m : LogMeta) (startTs endTs : Nat)
    (hm : l.meta = some m) (hw : ¬ (startTs > m.ResolvedTs ∨ endTs ≤ m.CheckPointTs)) :
    (l.ResetReader env false startTs endTs).l = (l.setUpReader env startTs endTs).l ∧
    (l.ResetReader env false startTs endTs).ending = (l.setUpReader env startTs endTs).ending ∧
    (l.ResetReader env false startTs endTs).ops = (l.setUpReader env startTs endTs).ops := by
  rw [ResetReader_of_meta env l m startTs endTs hm]
  unfold LogReader.checkAndSetUp
  rw [hm]
  simp only []
  rw [if_neg hw]
  exact ⟨rfl, rfl, List.nil_append _⟩

/-- C21, counterexample: the row reader of `rowStuckReader` fails to close.
`ResetReader(120, 180)` returns that error and leaves the row stream with its
previous reader, on which `Close` has been called, and its previous heap,
while the DDL stream holds the newly opened reader and an empty heap and the
recorded window is the new one. -/
theorem ResetReader_half_replaced :
    (rowStuckReader.ResetReader sampleEnv false 120 180).ending =
      .returned (some (.ErrRedoFileOp (.other 3))) ∧
    (rowStuckReader.ResetReader sampleEnv false 120 180).ops =
      [.CloseRow 0, .CloseDDL 0, .ReadDir, .OpenFile "cap_cf_1_ddl_130.log".toList] ∧
    (rowStuckReader.ResetReader sampleEnv false 120 180).l.rowReader =
      [fileOf [rowLog 150 0]] ∧
    (rowStuckReader.ResetReader sampleEnv false 120 180).l.rowHeap =
      [{ idx := 0, data := rowLog 120 0 }] ∧
    (rowStuckReader.ResetReader sampleEnv false 120 180).l.ddlReader = [[]] ∧
    (rowStuckReader.ResetReader sampleEnv false 120 180).l.ddlHeap = [] ∧
    (rowStuckReader.ResetReader sampleEnv false 120 180).l.cfg =
      { startTs := 120, endTs := 180 } ∧
    rowStuckReader.cfg = { startTs := 110, endTs := 190 } :=
  ⟨rfl, rfl, rfl, rfl, rfl, rfl, rfl, rfl⟩

/-- C21, amended: with the meta cached, a live context and a window that
passes the check, when `ResetReader` returns an error, it is the combination
(`multierr.Append`) of the errors of closing the row readers and of closing
the DDL readers, so the `Close` of a previous reader failed in at least one of
the two streams; `Close` has been called on every previous reader of both
streams; and each stream is dealt with on its own: a stream in which a `Close`
failed keeps its previous readers and its heap and opens nothing; a stream
whose previous readers all closed holds the newly opened readers and an empty
heap, and the window recorded is then the new one. -/
theorem ResetReader_streams_apart (env : Env) (l : LogReader) (m : LogMeta)
    (startTs endTs : Nat) (err : GoError) (hm : l.meta = some m)
    (hw : ¬ (startTs > m.ResolvedTs ∨ endTs ≤ m.CheckPointTs))
    (he : (l.ResetReader env false startTs endTs).ending = .returned (some err)) :
    (l.closeRowReader ≠ none ∨ l.closeDDLReader ≠ none) ∧
    (l.closeRowReader ≠ none →
      (l.ResetReader env false startTs endTs).l.rowReader = l.rowReader ∧
      (l.ResetReader env false startTs endTs).l.rowCloser = l.rowCloser ∧
      (l.ResetReader env false startTs endTs).l.rowHeap = l.rowHeap) ∧
    (l.closeRowReader = none → ∃ rr,
      (newReader env l.cfg.S3Storage DefaultRowLogFileName startTs endTs).1 = .ok rr ∧
      (l.ResetReader env false startTs endTs).l.rowReader = rr.map (fun f => f.reads) ∧
      (l.ResetReader env false startTs endTs).l.rowCloser = rr.map (fun f => f.closeErr) ∧
      (l.ResetReader env false startTs endTs).l.rowHeap = [] ∧
      (l.ResetReader env false startTs endTs).l.cfg.startTs = startTs ∧
      (l.ResetReader env false startTs endTs).l.cfg.endTs = endTs) ∧
    (l.closeDDLReader ≠ none →
      (l.ResetReader env false startTs endTs).l.ddlReader = l.ddlReader ∧
      (l.ResetReader env false startTs endTs).l.ddlCloser = l.ddlCloser ∧
      (l.ResetReader env false startTs endTs).l.ddlHeap = l.ddlHeap) ∧
    (l.closeDDLReader = none → ∃ rr,
      (newReader env l.cfg.S3Storage DefaultDDLLogFileName startTs endTs).1 = .ok rr ∧
      (l.ResetReader env false startTs endTs).l.ddlReader = rr.map (fun f => f.reads) ∧
      (l.ResetReader env false startTs endTs).l.ddlCloser = rr.map (fun f => f.closeErr) ∧
      (l.ResetReader env false startTs endTs).l.ddlHeap = [] ∧
      (l.ResetReader env false startTs endTs).l.cfg.startTs = startTs ∧
      (l.ResetReader env false startTs endTs).l.cfg.endTs = endTs) ∧
    some err = multierrAppend (multierrAppend none l.closeRowReader) l.closeDDLReader ∧
    err.parts = closeFailures l.rowCloser l.rowReader.length 0 ++
      closeFailures l.ddlCloser l.ddlReader.length 0 ∧
    (l.ResetReader env false startTs endTs).ops =
      ((List.range l.rowReader.length).map FileOp.CloseRow ++
        if l.closeRowReader.isNone then
          (newReader env l.cfg.S3Storage DefaultRowLogFileName startTs endTs).2 else []) ++
      ((List.range l.ddlReader.length).map FileOp.CloseDDL ++
        if l.closeDDLReader.isNone then
          (newReader env l.cfg.S3Storage DefaultDDLLogFileName startTs endTs).2 else []) ∧
    (∀ j, j < l.rowReader.length →
      FileOp.CloseRow j ∈ (l.ResetReader env false startTs endTs).ops) ∧
    (∀ j, j < l.ddlReader.length →
      FileOp.CloseDDL j ∈ (l.ResetReader env false startTs endTs).ops) := by
  obtain ⟨h1, h2, h3⟩ := ResetReader_accepted env l m startTs endTs hm hw
  rw [h2] at he
  rw [h1, h3]
  obtain ⟨s1, s2, s3, s4, s5⟩ := setUpReader_streams env l startTs endTs err he
  obtain ⟨r1, r2⟩ := setUpReader_returned env l startTs endTs (some err) he
  have hparts : err.parts = closeFailures l.rowCloser l.rowReader.length 0 ++
      closeFailures l.ddlCloser l.ddlReader.length 0 := by
    have hp : errorParts (some err) = errorParts
        (multierrAppend (multierrAppend none l.closeRowReader) l.closeDDLReader) := by
      rw [r1]
    rw [errorParts_multierrAppend, errorParts_multierrAppend] at hp
    unfold LogReader.closeRowReader LogReader.closeDDLReader at hp
    rw [closeLoop_parts, closeLoop_parts] at hp
    simpa [errorParts] using hp
  refine ⟨s1, s2, s3, s4, s5, r1, hparts, r2, ?_, ?_⟩
  · intro j hj
    rw [r2]
    apply List.mem_append_left
    apply List.mem_append_left
    exact List.mem_map.2 ⟨j, List.mem_range.2 hj, rfl⟩
  · intro j hj
    rw [r2]
    apply List.mem_append_right
    apply List.mem_append_left
    exact List.mem_map.2 ⟨j, List.mem_range.2 hj, rfl⟩

/-- C21, amended, witness: `ResetReader(120, 180)` on `rowStuckReader`. -/
theorem ResetReader_streams_apart_witness :
    (rowStuckReader.closeRowReader ≠ none ∨ rowStuckReader.closeDDLReader ≠ none) ∧
    (rowStuckReader.closeRowReader ≠ none →
      (rowStuckReader.ResetReader sampleEnv false 120 180).l.rowReader =
        rowStuckReader.rowReader ∧
      (rowStuckReader.ResetReader sampleEnv false 120 180).l.rowCloser =
        rowStuckReader.rowCloser ∧
      (rowStuckReader.ResetReader sampleEnv false 120 180).l.rowHeap =
        rowStuckReader.rowHeap) ∧
    some (GoError.ErrRedoFileOp (.other 3)) =
      multierrAppend (multierrAppend none rowStuckReader.closeRowReader)
        rowStuckReader.closeDDLReader ∧
    (∀ j, j < rowStuckReader.rowReader.length →
      FileOp.CloseRow j ∈ (rowStuckReader.ResetReader sampleEnv false 120 180).ops) :=
  have h := ResetReader_streams_apart sampleEnv rowStuckReader
    { CheckPointTs := 100, ResolvedTs := 200 } 120 180 (.ErrRedoFileOp (.other 3)) rfl
    (by decide) rfl
  ⟨h.1, h.2.1, h.2.2.2.2.2.1, h.2.2.2.2.2.2.2.2.1⟩

end Redo
